import Mathlib

/-!
# utxt : a verification development for `unicode_text.hpp`

Shallow embedding of the transcoding engine of `unicode_text.hpp`.

Conventions of the embedding.

* A `char` is represented by its bit pattern, a natural number below 256; a
  `std::string` / `std::string_view` is a `List Nat` of such bytes.  The source
  only ever inspects a `char` through a mask, an equality with another `char`
  or a `static_cast<unsigned char>`, so the signedness of `char` is immaterial.
* `std::uint16_t`, `std::uint32_t` and `char32_t` are natural numbers; every
  narrowing `static_cast` of the source is an explicit `% 2^w`.
* A function taking `std::size_t& pos` returns the new position next to its
  result; `std::string& bytes` output parameters are passed and returned.
* Template parameters (`Enc enc`, `bool LE`) are ordinary arguments.
* `bytes[i]` is `byte_at bytes i`; the `assert`s of the source are not part of
  the definitions, they appear as hypotheses of the theorems that need them.
-/

set_option linter.unusedVariables false

namespace utxt

/-! ## Data model -/

/-- The element `bytes[i]` of a byte view.  The source reads only inside the
buffer; outside it the embedding yields 0. -/
def byte_at (bytes : List Nat) (i : Nat) : Nat := bytes.getD i 0

/-- The cast `static_cast<char>(x)` (also `static_cast<unsigned char>`): keep the low 8 bits. -/
def static_cast_char (x : Nat) : Nat := x % 256

/-- The cast `static_cast<std::uint16_t>(x)`: keep the low 16 bits. -/
def static_cast_uint16 (x : Nat) : Nat := x % 65536

/-- The cast `static_cast<std::uint32_t>(x)`: keep the low 32 bits. -/
def static_cast_uint32 (x : Nat) : Nat := x % 4294967296

/-- The call `bytes.push_back(c)`. -/
def push_back (bytes : List Nat) (c : Nat) : List Nat := bytes ++ [c]

namespace details

/-- Two chars to a 16-bit word, `combine_chars(h, l)`. -/
def combine_chars (h l : Nat) : Nat :=
  static_cast_uint16 ((static_cast_char h) <<< 0x8) |||
  static_cast_uint16 (static_cast_char l)

/-- Four chars to a 32-bit word, the four-argument overload of `combine_chars`. -/
def combine_chars_4 (hh hl lh ll : Nat) : Nat :=
  static_cast_uint32 ((static_cast_char hh) <<< 0x18) |||
  static_cast_uint32 ((static_cast_char hl) <<< 0x10) |||
  static_cast_uint32 ((static_cast_char lh) <<< 0x8) |||
  static_cast_uint32 (static_cast_char ll)

/-- High byte of a 16-bit word. -/
def high_byte_of (word : Nat) : Nat := static_cast_char ((word >>> 0x8) &&& 0xFF)

/-- Low byte of a 16-bit word. -/
def low_byte_of (word : Nat) : Nat := static_cast_char (word &&& 0xFF)

/-- Byte 3 (most significant) of a 32-bit word. -/
def hh_byte_of (dword : Nat) : Nat := static_cast_char ((dword >>> 0x18) &&& 0xFF)

/-- Byte 2 of a 32-bit word. -/
def hl_byte_of (dword : Nat) : Nat := static_cast_char ((dword >>> 0x10) &&& 0xFF)

/-- Byte 1 of a 32-bit word. -/
def lh_byte_of (dword : Nat) : Nat := static_cast_char ((dword >>> 0x8) &&& 0xFF)

/-- Byte 0 (least significant) of a 32-bit word. -/
def ll_byte_of (dword : Nat) : Nat := static_cast_char (dword &&& 0xFF)

end details

/-- The closed enumeration `enum class Enc`. -/
inductive Enc where
  | UTF8
  | UTF16LE
  | UTF16BE
  | UTF32LE
  | UTF32BE
deriving DecidableEq, Repr

namespace codepoint

/-- The replacement character U+FFFD, `codepoint::invalid`. -/
def invalid : Nat := 0xFFFD

/-- The null code point, `codepoint::null`. -/
def null : Nat := 0

end codepoint

/-- The result `bom_ret_t` of the detector. -/
structure bom_ret_t where
  enc : Enc
  bom_size : Nat
deriving DecidableEq, Repr

/-! ## BOM detector -/

/-- The function `detect_encoding_of(bytes)`. -/
def detect_encoding_of (bytes : List Nat) : bom_ret_t :=
  if bytes.length > 2 then
    if byte_at bytes 0 = 0xFF ∧ byte_at bytes 1 = 0xFE then
      if bytes.length ≥ 4 ∧ byte_at bytes 2 = 0x00 ∧ byte_at bytes 3 = 0x00 then
        ⟨Enc.UTF32LE, 4⟩
      else
        ⟨Enc.UTF16LE, 2⟩
    else if byte_at bytes 0 = 0xFE ∧ byte_at bytes 1 = 0xFF then
      ⟨Enc.UTF16BE, 2⟩
    else if bytes.length ≥ 4 ∧ byte_at bytes 0 = 0x00 ∧ byte_at bytes 1 = 0x00
              ∧ byte_at bytes 2 = 0xFE ∧ byte_at bytes 3 = 0xFF then
      ⟨Enc.UTF32BE, 4⟩
    else if byte_at bytes 0 = 0xEF ∧ byte_at bytes 1 = 0xBB ∧ byte_at bytes 2 = 0xBF then
      ⟨Enc.UTF8, 3⟩
    else
      ⟨Enc.UTF8, 0⟩
  else
    ⟨Enc.UTF8, 0⟩

/-! ## Decoding one code point -/

/-- The specialisation `extract_codepoint<Enc::UTF8>(bytes, pos)`; returns the
code point and the new value of `pos`. -/
def extract_codepoint_UTF8 (bytes : List Nat) (pos : Nat) : Nat × Nat :=
  if (byte_at bytes pos) &&& 0x80 = 0 then
    (byte_at bytes pos, pos + 1)
  else if (pos + 1) < bytes.length ∧ (byte_at bytes pos) &&& 0xE0 = 0xC0
            ∧ (byte_at bytes (pos + 1)) &&& 0xC0 = 0x80 then
    ((((byte_at bytes pos) &&& 0x1F) <<< 6) |||
      ((byte_at bytes (pos + 1)) &&& 0x3F), pos + 2)
  else if (pos + 2) < bytes.length ∧ (byte_at bytes pos) &&& 0xF0 = 0xE0
            ∧ (byte_at bytes (pos + 1)) &&& 0xC0 = 0x80
            ∧ (byte_at bytes (pos + 2)) &&& 0xC0 = 0x80 then
    ((((byte_at bytes pos) &&& 0x0F) <<< 12) |||
      (((byte_at bytes (pos + 1)) &&& 0x3F) <<< 6) |||
      ((byte_at bytes (pos + 2)) &&& 0x3F), pos + 3)
  else if (pos + 3) < bytes.length ∧ (byte_at bytes pos) &&& 0xF8 = 0xF0
            ∧ (byte_at bytes (pos + 1)) &&& 0xC0 = 0x80
            ∧ (byte_at bytes (pos + 2)) &&& 0xC0 = 0x80
            ∧ (byte_at bytes (pos + 3)) &&& 0xC0 = 0x80 then
    ((((byte_at bytes pos) &&& 0x07) <<< 18) |||
      (((byte_at bytes (pos + 1)) &&& 0x3F) <<< 12) |||
      (((byte_at bytes (pos + 2)) &&& 0x3F) <<< 6) |||
      ((byte_at bytes (pos + 3)) &&& 0x3F), pos + 4)
  else
    (codepoint.invalid, pos + 1)

/-- The lambda `get_code_unit` of `extract_next_codepoint_from_utf16<LE>`. -/
def get_code_unit (LE : Bool) (buf : List Nat) (i : Nat) : Nat :=
  if LE then details.combine_chars (byte_at buf (i + 1)) (byte_at buf i)
  else details.combine_chars (byte_at buf i) (byte_at buf (i + 1))

/-- The template `extract_next_codepoint_from_utf16<LE>(bytes, pos)`; returns
the code point and the new value of `pos`. -/
def extract_next_codepoint_from_utf16 (LE : Bool) (bytes : List Nat) (pos : Nat) : Nat × Nat :=
  let codeunit1 := get_code_unit LE bytes pos
  let pos := pos + 2
  if codeunit1 < 0xD800 ∨ codeunit1 ≥ 0xE000 then
    (codeunit1, pos)
  else if codeunit1 ≥ 0xDC00 ∨ (pos + 1) ≥ bytes.length then
    (codepoint.invalid, pos)
  else
    let codeunit2 := get_code_unit LE bytes pos
    if codeunit2 < 0xDC00 ∨ codeunit2 ≥ 0xE000 then
      (codepoint.invalid, pos)
    else
      (0x10000 + ((codeunit1 - 0xD800) <<< 0xA) + (codeunit2 - 0xDC00), pos + 2)

/-- The specialisation `extract_codepoint<Enc::UTF32LE>(bytes, pos)`. -/
def extract_codepoint_UTF32LE (bytes : List Nat) (pos : Nat) : Nat × Nat :=
  (details.combine_chars_4 (byte_at bytes (pos + 3)) (byte_at bytes (pos + 2))
    (byte_at bytes (pos + 1)) (byte_at bytes pos), pos + 4)

/-- The specialisation `extract_codepoint<Enc::UTF32BE>(bytes, pos)`. -/
def extract_codepoint_UTF32BE (bytes : List Nat) (pos : Nat) : Nat × Nat :=
  (details.combine_chars_4 (byte_at bytes pos) (byte_at bytes (pos + 1))
    (byte_at bytes (pos + 2)) (byte_at bytes (pos + 3)), pos + 4)

/-- The template `extract_codepoint<enc>(bytes, pos)`, by specialisation. -/
def extract_codepoint (enc : Enc) (bytes : List Nat) (pos : Nat) : Nat × Nat :=
  match enc with
  | Enc.UTF8 => extract_codepoint_UTF8 bytes pos
  | Enc.UTF16LE => extract_next_codepoint_from_utf16 true bytes pos
  | Enc.UTF16BE => extract_next_codepoint_from_utf16 false bytes pos
  | Enc.UTF32LE => extract_codepoint_UTF32LE bytes pos
  | Enc.UTF32BE => extract_codepoint_UTF32BE bytes pos

/-! ## Encoding one code point -/

/-- The specialisation `append_codepoint<Enc::UTF8>(codepoint, bytes)`. -/
def append_codepoint_UTF8 (codepoint : Nat) (bytes : List Nat) : List Nat :=
  if codepoint < 0x80 then
    push_back bytes (static_cast_char codepoint)
  else if codepoint < 0x800 then
    let bytes := push_back bytes (static_cast_char (0xC0 ||| (codepoint >>> 6)))
    push_back bytes (static_cast_char (0x80 ||| (codepoint &&& 0x3F)))
  else if codepoint < 0x10000 then
    let bytes := push_back bytes (static_cast_char (0xE0 ||| (codepoint >>> 12)))
    let bytes := push_back bytes (static_cast_char (0x80 ||| ((codepoint >>> 6) &&& 0x3F)))
    push_back bytes (static_cast_char (0x80 ||| (codepoint &&& 0x3F)))
  else
    let bytes := push_back bytes (static_cast_char (0xF0 ||| (codepoint >>> 18)))
    let bytes := push_back bytes (static_cast_char (0x80 ||| ((codepoint >>> 12) &&& 0x3F)))
    let bytes := push_back bytes (static_cast_char (0x80 ||| ((codepoint >>> 6) &&& 0x3F)))
    push_back bytes (static_cast_char (0x80 ||| (codepoint &&& 0x3F)))

/-- The function `encode_as_utf16(codepoint)`: the surrogate pair of a code
point outside the Basic Multilingual Plane.  The subtraction is that of
`uint32_t`. -/
def encode_as_utf16 (codepoint : Nat) : Nat × Nat :=
  let codepoint := static_cast_uint32 (codepoint + 0x100000000 - 0x10000)
  (static_cast_uint16 ((codepoint >>> 10) + 0xD800),
   static_cast_uint16 ((codepoint &&& 0x3FF) + 0xDC00))

/-- The specialisation `append_codepoint<Enc::UTF16LE>(codepoint, bytes)`. -/
def append_codepoint_UTF16LE (codepoint : Nat) (bytes : List Nat) : List Nat :=
  if codepoint < 0x10000 then
    let codeunit := static_cast_uint16 codepoint
    let bytes := push_back bytes (details.low_byte_of codeunit)
    push_back bytes (details.high_byte_of codeunit)
  else
    let codeunits := encode_as_utf16 codepoint
    let bytes := push_back bytes (details.low_byte_of codeunits.1)
    let bytes := push_back bytes (details.high_byte_of codeunits.1)
    let bytes := push_back bytes (details.low_byte_of codeunits.2)
    push_back bytes (details.high_byte_of codeunits.2)

/-- The specialisation `append_codepoint<Enc::UTF16BE>(codepoint, bytes)`. -/
def append_codepoint_UTF16BE (codepoint : Nat) (bytes : List Nat) : List Nat :=
  if codepoint < 0x10000 then
    let codeunit := static_cast_uint16 codepoint
    let bytes := push_back bytes (details.high_byte_of codeunit)
    push_back bytes (details.low_byte_of codeunit)
  else
    let codeunits := encode_as_utf16 codepoint
    let bytes := push_back bytes (details.high_byte_of codeunits.1)
    let bytes := push_back bytes (details.low_byte_of codeunits.1)
    let bytes := push_back bytes (details.high_byte_of codeunits.2)
    push_back bytes (details.low_byte_of codeunits.2)

/-- The specialisation `append_codepoint<Enc::UTF32LE>(codepoint, bytes)`. -/
def append_codepoint_UTF32LE (codepoint : Nat) (bytes : List Nat) : List Nat :=
  let bytes := push_back bytes (details.ll_byte_of codepoint)
  let bytes := push_back bytes (details.lh_byte_of codepoint)
  let bytes := push_back bytes (details.hl_byte_of codepoint)
  push_back bytes (details.hh_byte_of codepoint)

/-- The specialisation `append_codepoint<Enc::UTF32BE>(codepoint, bytes)`. -/
def append_codepoint_UTF32BE (codepoint : Nat) (bytes : List Nat) : List Nat :=
  let bytes := push_back bytes (details.hh_byte_of codepoint)
  let bytes := push_back bytes (details.hl_byte_of codepoint)
  let bytes := push_back bytes (details.lh_byte_of codepoint)
  push_back bytes (details.ll_byte_of codepoint)

/-- The template `append_codepoint<enc>(codepoint, bytes)`, by specialisation. -/
def append_codepoint (enc : Enc) (codepoint : Nat) (bytes : List Nat) : List Nat :=
  match enc with
  | Enc.UTF8 => append_codepoint_UTF8 codepoint bytes
  | Enc.UTF16LE => append_codepoint_UTF16LE codepoint bytes
  | Enc.UTF16BE => append_codepoint_UTF16BE codepoint bytes
  | Enc.UTF32LE => append_codepoint_UTF32LE codepoint bytes
  | Enc.UTF32BE => append_codepoint_UTF32BE codepoint bytes

/-! ## Buffer cursor -/

/-- The class `bytes_buffer_t<ENC>`: a byte view and the offset of the
currently pointed byte.  The bound encoding is passed to each member. -/
structure bytes_buffer_t where
  m_byte_buf : List Nat
  m_current_byte_offset : Nat
deriving DecidableEq, Repr

namespace bytes_buffer_t

/-- The constructor `bytes_buffer_t(bytes)`: the offset starts at 0. -/
def init (bytes : List Nat) : bytes_buffer_t := ⟨bytes, 0⟩

/-- The member `byte_pos()`. -/
def byte_pos (b : bytes_buffer_t) : Nat := b.m_current_byte_offset

/-- The member `advance_of(bytes_num)`. -/
def advance_of (b : bytes_buffer_t) (bytes_num : Nat) : bytes_buffer_t :=
  ⟨b.m_byte_buf, b.m_current_byte_offset + bytes_num⟩

/-- The member `set_as_depleted()`. -/
def set_as_depleted (b : bytes_buffer_t) : bytes_buffer_t :=
  ⟨b.m_byte_buf, b.m_byte_buf.length⟩

/-- The member `has_bytes()`. -/
def has_bytes (b : bytes_buffer_t) : Bool :=
  decide (b.m_current_byte_offset < b.m_byte_buf.length)

/-- The member `has_codepoint()` of `bytes_buffer_t<ENC>`. -/
def has_codepoint (ENC : Enc) (b : bytes_buffer_t) : Bool :=
  if ENC = Enc.UTF16LE ∨ ENC = Enc.UTF16BE then
    decide ((b.m_current_byte_offset + 1) < b.m_byte_buf.length)
  else if ENC = Enc.UTF32LE ∨ ENC = Enc.UTF32BE then
    decide ((b.m_current_byte_offset + 3) < b.m_byte_buf.length)
  else
    decide (b.m_current_byte_offset < b.m_byte_buf.length)

/-- The member `extract_codepoint()` of `bytes_buffer_t<ENC>`: the code point
and the cursor after the extraction. -/
def extract_codepoint (ENC : Enc) (b : bytes_buffer_t) : Nat × bytes_buffer_t :=
  let r := utxt.extract_codepoint ENC b.m_byte_buf b.m_current_byte_offset
  (r.1, ⟨b.m_byte_buf, r.2⟩)

end bytes_buffer_t

/-! ## Transcoding pipeline -/

/-- The loop `while( bytes_buf.has_codepoint() ) append_codepoint<OUTENC>(bytes_buf.extract_codepoint(), out_bytes);`
of `reencode`: the cursor and the output after the loop. -/
def reencode_loop (INENC OUTENC : Enc) (bytes_buf : bytes_buffer_t) (out_bytes : List Nat) :
    bytes_buffer_t × List Nat :=
  if h : bytes_buf.has_codepoint INENC = true then
    reencode_loop INENC OUTENC (bytes_buf.extract_codepoint INENC).2
      (append_codepoint OUTENC (bytes_buf.extract_codepoint INENC).1 out_bytes)
  else
    (bytes_buf, out_bytes)
termination_by bytes_buf.m_byte_buf.length - bytes_buf.m_current_byte_offset
decreasing_by
  have h1 : bytes_buf.m_current_byte_offset < bytes_buf.m_byte_buf.length := by
    unfold bytes_buffer_t.has_codepoint at h
    split_ifs at h <;> simp at h <;> omega
  have h2 : bytes_buf.m_current_byte_offset
      < (utxt.extract_codepoint INENC bytes_buf.m_byte_buf bytes_buf.m_current_byte_offset).2 := by
    cases INENC <;>
      simp only [utxt.extract_codepoint, extract_codepoint_UTF8, extract_next_codepoint_from_utf16,
        extract_codepoint_UTF32LE, extract_codepoint_UTF32BE] <;>
      first | omega | (split_ifs <;> omega)
  simp only [bytes_buffer_t.extract_codepoint]
  omega

/-- The template `reencode<INENC,OUTENC>(in_bytes)`.  The `reserve` calls only
set a capacity and are not part of the value. -/
def reencode (INENC OUTENC : Enc) (in_bytes : List Nat) : List Nat :=
  let out_bytes : List Nat := []
  let r := reencode_loop INENC OUTENC (bytes_buffer_t.init in_bytes) out_bytes
  if r.1.has_bytes then
    append_codepoint OUTENC codepoint.invalid r.2
  else
    r.2

/-- The loop `while( bytes_buf.has_codepoint() ) u32str.push_back( bytes_buf.extract_codepoint() );`
of `to_utf32`: the cursor and the output after the loop. -/
def to_utf32_loop (INENC : Enc) (bytes_buf : bytes_buffer_t) (u32str : List Nat) :
    bytes_buffer_t × List Nat :=
  if h : bytes_buf.has_codepoint INENC = true then
    to_utf32_loop INENC (bytes_buf.extract_codepoint INENC).2
      (push_back u32str (bytes_buf.extract_codepoint INENC).1)
  else
    (bytes_buf, u32str)
termination_by bytes_buf.m_byte_buf.length - bytes_buf.m_current_byte_offset
decreasing_by
  have h1 : bytes_buf.m_current_byte_offset < bytes_buf.m_byte_buf.length := by
    unfold bytes_buffer_t.has_codepoint at h
    split_ifs at h <;> simp at h <;> omega
  have h2 : bytes_buf.m_current_byte_offset
      < (utxt.extract_codepoint INENC bytes_buf.m_byte_buf bytes_buf.m_current_byte_offset).2 := by
    cases INENC <;>
      simp only [utxt.extract_codepoint, extract_codepoint_UTF8, extract_next_codepoint_from_utf16,
        extract_codepoint_UTF32LE, extract_codepoint_UTF32BE] <;>
      first | omega | (split_ifs <;> omega)
  simp only [bytes_buffer_t.extract_codepoint]
  omega

/-- The template `to_utf32<INENC>(bytes)`. -/
def to_utf32 (INENC : Enc) (bytes : List Nat) : List Nat :=
  let u32str : List Nat := []
  let r := to_utf32_loop INENC (bytes_buffer_t.init bytes) u32str
  if r.1.has_bytes then
    push_back r.2 codepoint.invalid
  else
    r.2

/-- The template `encode_as<OUTENC>(u32str)` on a sequence of code points. -/
def encode_as (OUTENC : Enc) (u32str : List Nat) : List Nat :=
  u32str.foldl (fun out_bytes codepoint => append_codepoint OUTENC codepoint out_bytes) []

/-- The function `to_utf8(u32str)`. -/
def to_utf8 (u32str : List Nat) : List Nat := encode_as Enc.UTF8 u32str

/-! ## Flags and sniffed transcoding -/

namespace flag

/-- The flag value `flag::NONE`. -/
def NONE : Nat := 0x0

/-- The flag value `flag::SKIP_BOM`: skip the byte order mark. -/
def SKIP_BOM : Nat := 0x1

end flag

/-- The test `if( flags & flag::SKIP_BOM )` on a `flags_t` value. -/
def skips_bom (flags : Nat) : Bool := decide (flags &&& flag.SKIP_BOM ≠ 0)

/-- The template `encode_as<OUTENC>(in_bytes, flags)` on a byte buffer: the detector
chooses the input encoding, `in_bytes.remove_prefix(bom_size)` is `drop`, and the macro
`TEXT_DISPATCH_TO_ENC` is the `match` on the detected encoding. -/
def encode_as_bytes (OUTENC : Enc) (in_bytes : List Nat) (flags : Nat) : List Nat :=
  let r := detect_encoding_of in_bytes
  let in_bytes := if skips_bom flags then in_bytes.drop r.bom_size else in_bytes
  match r.enc with
  | Enc.UTF8 => reencode Enc.UTF8 OUTENC in_bytes
  | Enc.UTF16LE => reencode Enc.UTF16LE OUTENC in_bytes
  | Enc.UTF16BE => reencode Enc.UTF16BE OUTENC in_bytes
  | Enc.UTF32LE => reencode Enc.UTF32LE OUTENC in_bytes
  | Enc.UTF32BE => reencode Enc.UTF32BE OUTENC in_bytes

/-- The overload `encode_as(out_enc, in_bytes, flags)` with a runtime output encoding. -/
def encode_as_bytes_dyn (out_enc : Enc) (in_bytes : List Nat) (flags : Nat) : List Nat :=
  match out_enc with
  | Enc.UTF8 => encode_as_bytes Enc.UTF8 in_bytes flags
  | Enc.UTF16LE => encode_as_bytes Enc.UTF16LE in_bytes flags
  | Enc.UTF16BE => encode_as_bytes Enc.UTF16BE in_bytes flags
  | Enc.UTF32LE => encode_as_bytes Enc.UTF32LE in_bytes flags
  | Enc.UTF32BE => encode_as_bytes Enc.UTF32BE in_bytes flags

/-- The template `reencode_if_necessary<INENC,OUTENC>(in_bytes, reencoded_buf)`: the
returned view and the scratch buffer afterwards. -/
def reencode_if_necessary (INENC OUTENC : Enc) (in_bytes : List Nat) (reencoded_buf : List Nat) :
    List Nat × List Nat :=
  if INENC = OUTENC then
    (in_bytes, reencoded_buf)
  else
    let reencoded_buf := reencode INENC OUTENC in_bytes
    (reencoded_buf, reencoded_buf)

/-- The template `encode_if_necessary_as<OUTENC>(in_bytes, reencoded_buf, flags)`: the
returned view and the scratch buffer afterwards. -/
def encode_if_necessary_as (OUTENC : Enc) (in_bytes : List Nat) (reencoded_buf : List Nat)
    (flags : Nat) : List Nat × List Nat :=
  let r := detect_encoding_of in_bytes
  let in_bytes := if skips_bom flags then in_bytes.drop r.bom_size else in_bytes
  match r.enc with
  | Enc.UTF8 => reencode_if_necessary Enc.UTF8 OUTENC in_bytes reencoded_buf
  | Enc.UTF16LE => reencode_if_necessary Enc.UTF16LE OUTENC in_bytes reencoded_buf
  | Enc.UTF16BE => reencode_if_necessary Enc.UTF16BE OUTENC in_bytes reencoded_buf
  | Enc.UTF32LE => reencode_if_necessary Enc.UTF32LE OUTENC in_bytes reencoded_buf
  | Enc.UTF32BE => reencode_if_necessary Enc.UTF32BE OUTENC in_bytes reencoded_buf

/-- The overload `encode_if_necessary_as(out_enc, in_bytes, reencoded_buf, flags)` with a
runtime output encoding. -/
def encode_if_necessary_as_dyn (out_enc : Enc) (in_bytes : List Nat) (reencoded_buf : List Nat)
    (flags : Nat) : List Nat × List Nat :=
  match out_enc with
  | Enc.UTF8 => encode_if_necessary_as Enc.UTF8 in_bytes reencoded_buf flags
  | Enc.UTF16LE => encode_if_necessary_as Enc.UTF16LE in_bytes reencoded_buf flags
  | Enc.UTF16BE => encode_if_necessary_as Enc.UTF16BE in_bytes reencoded_buf flags
  | Enc.UTF32LE => encode_if_necessary_as Enc.UTF32LE in_bytes reencoded_buf flags
  | Enc.UTF32BE => encode_if_necessary_as Enc.UTF32BE in_bytes reencoded_buf flags

/-! ## Reads and assertions of the pipeline -/

/-- The indices `i` of the reads `bytes[i]` made by `extract_codepoint<Enc::UTF8>(bytes, pos)`.
The operands of `and` are evaluated from left to right and only while the previous ones
hold, so a byte after `pos` is read only behind the bound check of its branch. -/
def extract_codepoint_UTF8_reads (bytes : List Nat) (pos : Nat) : List Nat :=
  [pos] ++
  if (byte_at bytes pos) &&& 0x80 = 0 then
    [pos]
  else
    (if (pos + 1) < bytes.length then
      [pos] ++ (if (byte_at bytes pos) &&& 0xE0 = 0xC0 then [pos + 1] else [])
     else []) ++
    if (pos + 1) < bytes.length ∧ (byte_at bytes pos) &&& 0xE0 = 0xC0
        ∧ (byte_at bytes (pos + 1)) &&& 0xC0 = 0x80 then
      [pos, pos + 1]
    else
      (if (pos + 2) < bytes.length then
        [pos] ++ (if (byte_at bytes pos) &&& 0xF0 = 0xE0 then
          [pos + 1] ++ (if (byte_at bytes (pos + 1)) &&& 0xC0 = 0x80 then [pos + 2] else [])
         else [])
       else []) ++
      if (pos + 2) < bytes.length ∧ (byte_at bytes pos) &&& 0xF0 = 0xE0
          ∧ (byte_at bytes (pos + 1)) &&& 0xC0 = 0x80
          ∧ (byte_at bytes (pos + 2)) &&& 0xC0 = 0x80 then
        [pos, pos + 1, pos + 2]
      else
        (if (pos + 3) < bytes.length then
          [pos] ++ (if (byte_at bytes pos) &&& 0xF8 = 0xF0 then
            [pos + 1] ++ (if (byte_at bytes (pos + 1)) &&& 0xC0 = 0x80 then
              [pos + 2] ++ (if (byte_at bytes (pos + 2)) &&& 0xC0 = 0x80 then [pos + 3] else [])
             else [])
           else [])
         else []) ++
        if (pos + 3) < bytes.length ∧ (byte_at bytes pos) &&& 0xF8 = 0xF0
            ∧ (byte_at bytes (pos + 1)) &&& 0xC0 = 0x80
            ∧ (byte_at bytes (pos + 2)) &&& 0xC0 = 0x80
            ∧ (byte_at bytes (pos + 3)) &&& 0xC0 = 0x80 then
          [pos, pos + 1, pos + 2, pos + 3]
        else
          []

/-- The indices read by the lambda `get_code_unit(buf, i)`. -/
def get_code_unit_reads (LE : Bool) (i : Nat) : List Nat :=
  if LE then [i + 1, i] else [i, i + 1]

/-- The indices read by `extract_next_codepoint_from_utf16<LE>(bytes, pos)`: the first unit,
and the second unit only on the path that reaches `get_code_unit(bytes, pos)` again. -/
def extract_next_codepoint_from_utf16_reads (LE : Bool) (bytes : List Nat) (pos : Nat) :
    List Nat :=
  let codeunit1 := get_code_unit LE bytes pos
  let reads := get_code_unit_reads LE pos
  let pos := pos + 2
  if codeunit1 < 0xD800 ∨ codeunit1 ≥ 0xE000 then
    reads
  else if codeunit1 ≥ 0xDC00 ∨ (pos + 1) ≥ bytes.length then
    reads
  else
    reads ++ get_code_unit_reads LE pos

/-- The indices read by `extract_codepoint<enc>(bytes, pos)`, by specialisation. -/
def extract_codepoint_reads (enc : Enc) (bytes : List Nat) (pos : Nat) : List Nat :=
  match enc with
  | Enc.UTF8 => extract_codepoint_UTF8_reads bytes pos
  | Enc.UTF16LE => extract_next_codepoint_from_utf16_reads true bytes pos
  | Enc.UTF16BE => extract_next_codepoint_from_utf16_reads false bytes pos
  | Enc.UTF32LE => [pos + 3, pos + 2, pos + 1, pos]
  | Enc.UTF32BE => [pos, pos + 1, pos + 2, pos + 3]

/-- The `assert` at the head of `extract_codepoint<enc>(bytes, pos)`: `pos<bytes.size()` for
UTF-8, `(pos+1)<bytes.size()` for UTF-16, `(pos+3)<bytes.size()` for UTF-32. -/
def extract_codepoint_assert (enc : Enc) (bytes : List Nat) (pos : Nat) : Bool :=
  match enc with
  | Enc.UTF8 => decide (pos < bytes.length)
  | Enc.UTF16LE => decide ((pos + 1) < bytes.length)
  | Enc.UTF16BE => decide ((pos + 1) < bytes.length)
  | Enc.UTF32LE => decide ((pos + 3) < bytes.length)
  | Enc.UTF32BE => decide ((pos + 3) < bytes.length)

/-- The `assert( codepoint>=0x10000 )` of `encode_as_utf16`, reached by
`append_codepoint<UTF16LE|UTF16BE>` on the branch `not (codepoint<0x10000)`; the other
encoders assert nothing. -/
def append_codepoint_assert (enc : Enc) (codepoint : Nat) : Bool :=
  match enc with
  | Enc.UTF8 => true
  | Enc.UTF16LE => if codepoint < 0x10000 then true else decide (codepoint ≥ 0x10000)
  | Enc.UTF16BE => if codepoint < 0x10000 then true else decide (codepoint ≥ 0x10000)
  | Enc.UTF32LE => true
  | Enc.UTF32BE => true

namespace bytes_buffer_t

/-- The checks of one call of the member `extract_codepoint()`: `assert( has_codepoint() )`,
the `assert` at the head of the decoder, every read inside the buffer, and
`assert( m_current_byte_offset<=m_byte_buf.size() )` after the call. -/
def extract_codepoint_checks (ENC : Enc) (b : bytes_buffer_t) : Bool :=
  b.has_codepoint ENC
  && extract_codepoint_assert ENC b.m_byte_buf b.m_current_byte_offset
  && (extract_codepoint_reads ENC b.m_byte_buf b.m_current_byte_offset).all
      (fun i => decide (i < b.m_byte_buf.length))
  && decide ((b.extract_codepoint ENC).2.m_current_byte_offset ≤ b.m_byte_buf.length)

end bytes_buffer_t

/-- The loop of `to_utf32` with its checks: `none` as soon as a check of a call of
`extract_codepoint()` fails. -/
def to_utf32_loop_checked (INENC : Enc) (bytes_buf : bytes_buffer_t) (u32str : List Nat) :
    Option (bytes_buffer_t × List Nat) :=
  if h : bytes_buf.has_codepoint INENC = true then
    if bytes_buf.extract_codepoint_checks INENC = true then
      to_utf32_loop_checked INENC (bytes_buf.extract_codepoint INENC).2
        (push_back u32str (bytes_buf.extract_codepoint INENC).1)
    else
      none
  else
    some (bytes_buf, u32str)
termination_by bytes_buf.m_byte_buf.length - bytes_buf.m_current_byte_offset
decreasing_by
  have h1 : bytes_buf.m_current_byte_offset < bytes_buf.m_byte_buf.length := by
    unfold bytes_buffer_t.has_codepoint at h
    split_ifs at h <;> simp at h <;> omega
  have h2 : bytes_buf.m_current_byte_offset
      < (utxt.extract_codepoint INENC bytes_buf.m_byte_buf bytes_buf.m_current_byte_offset).2 := by
    cases INENC <;>
      simp only [utxt.extract_codepoint, extract_codepoint_UTF8, extract_next_codepoint_from_utf16,
        extract_codepoint_UTF32LE, extract_codepoint_UTF32BE] <;>
      first | omega | (split_ifs <;> omega)
  simp only [bytes_buffer_t.extract_codepoint]
  omega

/-- The template `to_utf32<INENC>(bytes)` with its checks. -/
def to_utf32_checked (INENC : Enc) (bytes : List Nat) : Option (List Nat) :=
  match to_utf32_loop_checked INENC (bytes_buffer_t.init bytes) [] with
  | none => none
  | some r => if r.1.has_bytes then some (push_back r.2 codepoint.invalid) else some r.2

/-- The loop of `reencode` with its checks: `none` as soon as a check of a call of
`extract_codepoint()` or the assertion of the encoder fails. -/
def reencode_loop_checked (INENC OUTENC : Enc) (bytes_buf : bytes_buffer_t)
    (out_bytes : List Nat) : Option (bytes_buffer_t × List Nat) :=
  if h : bytes_buf.has_codepoint INENC = true then
    if bytes_buf.extract_codepoint_checks INENC = true
        ∧ append_codepoint_assert OUTENC (bytes_buf.extract_codepoint INENC).1 = true then
      reencode_loop_checked INENC OUTENC (bytes_buf.extract_codepoint INENC).2
        (append_codepoint OUTENC (bytes_buf.extract_codepoint INENC).1 out_bytes)
    else
      none
  else
    some (bytes_buf, out_bytes)
termination_by bytes_buf.m_byte_buf.length - bytes_buf.m_current_byte_offset
decreasing_by
  have h1 : bytes_buf.m_current_byte_offset < bytes_buf.m_byte_buf.length := by
    unfold bytes_buffer_t.has_codepoint at h
    split_ifs at h <;> simp at h <;> omega
  have h2 : bytes_buf.m_current_byte_offset
      < (utxt.extract_codepoint INENC bytes_buf.m_byte_buf bytes_buf.m_current_byte_offset).2 := by
    cases INENC <;>
      simp only [utxt.extract_codepoint, extract_codepoint_UTF8, extract_next_codepoint_from_utf16,
        extract_codepoint_UTF32LE, extract_codepoint_UTF32BE] <;>
      first | omega | (split_ifs <;> omega)
  simp only [bytes_buffer_t.extract_codepoint]
  omega

/-- The template `reencode<INENC,OUTENC>(in_bytes)` with its checks. -/
def reencode_checked (INENC OUTENC : Enc) (in_bytes : List Nat) : Option (List Nat) :=
  match reencode_loop_checked INENC OUTENC (bytes_buffer_t.init in_bytes) [] with
  | none => none
  | some r =>
      if r.1.has_bytes then
        if append_codepoint_assert OUTENC codepoint.invalid then
          some (append_codepoint OUTENC codepoint.invalid r.2)
        else none
      else some r.2

/-! ## Reserved capacity -/

/-- The argument of `out_bytes.reserve(...)` in `reencode<INENC,OUTENC>(in_bytes)`. -/
def reencode_reserve (INENC OUTENC : Enc) (in_bytes : List Nat) : Nat :=
  if INENC = Enc.UTF8 ∧ (OUTENC = Enc.UTF32BE ∨ OUTENC = Enc.UTF32LE) then
    4 * in_bytes.length
  else if (INENC = Enc.UTF16BE ∨ INENC = Enc.UTF16LE)
      ∧ (OUTENC = Enc.UTF32BE ∨ OUTENC = Enc.UTF32LE) then
    2 * in_bytes.length
  else if INENC = Enc.UTF8 ∧ (OUTENC = Enc.UTF16BE ∨ OUTENC = Enc.UTF16LE) then
    2 * in_bytes.length
  else
    in_bytes.length

/-! ## Data of the test "utxt::encode_as<>(bytes)" -/

/-- The member `encoded_as(enc)` of `test_cases[0]`, the text " ab" behind a byte order
mark, in the five encodings. -/
def test_case_0 (enc : Enc) : List Nat :=
  match enc with
  | Enc.UTF8 =>
      [0xEF, 0xBB, 0xBF, 0x20, 0x61, 0x62]
  | Enc.UTF16LE =>
      [0xFF, 0xFE, 0x20, 0x00, 0x61, 0x00, 0x62, 0x00]
  | Enc.UTF16BE =>
      [0xFE, 0xFF, 0x00, 0x20, 0x00, 0x61, 0x00, 0x62]
  | Enc.UTF32LE =>
      [0xFF, 0xFE, 0x00, 0x00, 0x20, 0x00, 0x00, 0x00, 0x61, 0x00, 0x00, 0x00, 0x62, 0x00, 0x00, 0x00]
  | Enc.UTF32BE =>
      [0x00, 0x00, 0xFE, 0xFF, 0x00, 0x00, 0x00, 0x20, 0x00, 0x00, 0x00, 0x61, 0x00, 0x00, 0x00, 0x62]

/-- The member `encoded_as(enc)` of `test_cases[1]`, the text "è una ⛵ ┌─┐" behind a byte
order mark, in the five encodings. -/
def test_case_1 (enc : Enc) : List Nat :=
  match enc with
  | Enc.UTF8 =>
      [0xEF, 0xBB, 0xBF, 0xC3, 0xA8, 0x20, 0x75, 0x6E, 0x61, 0x20, 0xE2, 0x9B, 0xB5, 0x20, 0xE2, 0x94,
       0x8C, 0xE2, 0x94, 0x80, 0xE2, 0x94, 0x90]
  | Enc.UTF16LE =>
      [0xFF, 0xFE, 0xE8, 0x00, 0x20, 0x00, 0x75, 0x00, 0x6E, 0x00, 0x61, 0x00, 0x20, 0x00, 0xF5, 0x26,
       0x20, 0x00, 0x0C, 0x25, 0x00, 0x25, 0x10, 0x25]
  | Enc.UTF16BE =>
      [0xFE, 0xFF, 0x00, 0xE8, 0x00, 0x20, 0x00, 0x75, 0x00, 0x6E, 0x00, 0x61, 0x00, 0x20, 0x26, 0xF5,
       0x00, 0x20, 0x25, 0x0C, 0x25, 0x00, 0x25, 0x10]
  | Enc.UTF32LE =>
      [0xFF, 0xFE, 0x00, 0x00, 0xE8, 0x00, 0x00, 0x00, 0x20, 0x00, 0x00, 0x00, 0x75, 0x00, 0x00, 0x00,
       0x6E, 0x00, 0x00, 0x00, 0x61, 0x00, 0x00, 0x00, 0x20, 0x00, 0x00, 0x00, 0xF5, 0x26, 0x00, 0x00,
       0x20, 0x00, 0x00, 0x00, 0x0C, 0x25, 0x00, 0x00, 0x00, 0x25, 0x00, 0x00, 0x10, 0x25, 0x00, 0x00]
  | Enc.UTF32BE =>
      [0x00, 0x00, 0xFE, 0xFF, 0x00, 0x00, 0x00, 0xE8, 0x00, 0x00, 0x00, 0x20, 0x00, 0x00, 0x00, 0x75,
       0x00, 0x00, 0x00, 0x6E, 0x00, 0x00, 0x00, 0x61, 0x00, 0x00, 0x00, 0x20, 0x00, 0x00, 0x26, 0xF5,
       0x00, 0x00, 0x00, 0x20, 0x00, 0x00, 0x25, 0x0C, 0x00, 0x00, 0x25, 0x00, 0x00, 0x00, 0x25, 0x10]

/-! ## Vocabulary of the specification -/

/-- A Unicode scalar value: a code point in [0, 0xD800) or [0xE000, 0x10FFFF]. -/
def is_scalar (cp : Nat) : Prop := cp < 0xD800 ∨ (0xE000 ≤ cp ∧ cp ≤ 0x10FFFF)

instance (cp : Nat) : Decidable (is_scalar cp) :=
  inferInstanceAs (Decidable (cp < 0xD800 ∨ (0xE000 ≤ cp ∧ cp ≤ 0x10FFFF)))

/-- A continuation byte of UTF-8 is present at index `i`: the index is inside the buffer
and the byte matches 10xxxxxx, that is, lies in [0x80, 0xC0). -/
def utf8_continuation (bytes : List Nat) (i : Nat) : Prop :=
  i < bytes.length ∧ 0x80 ≤ byte_at bytes i ∧ byte_at bytes i < 0xC0

instance (bytes : List Nat) (i : Nat) : Decidable (utf8_continuation bytes i) :=
  inferInstanceAs (Decidable (i < bytes.length ∧ 0x80 ≤ byte_at bytes i ∧ byte_at bytes i < 0xC0))

/-- The unit width of an encoding in bytes: 1 for UTF-8, 2 for UTF-16LE/BE, 4 for
UTF-32LE/BE. -/
def unit_width (E : Enc) : Nat :=
  match E with
  | Enc.UTF8 => 1
  | Enc.UTF16LE => 2
  | Enc.UTF16BE => 2
  | Enc.UTF32LE => 4
  | Enc.UTF32BE => 4

/-- The detection table in the words of the specification: at most 2 bytes give
(UTF-8, 0); otherwise the first matching row of the ordered table wins. -/
def detect_table (bytes : List Nat) : bom_ret_t :=
  if bytes.length ≤ 2 then ⟨Enc.UTF8, 0⟩
  else if [0xFF, 0xFE, 0x00, 0x00] <+: bytes then ⟨Enc.UTF32LE, 4⟩
  else if [0xFF, 0xFE] <+: bytes then ⟨Enc.UTF16LE, 2⟩
  else if [0xFE, 0xFF] <+: bytes then ⟨Enc.UTF16BE, 2⟩
  else if [0x00, 0x00, 0xFE, 0xFF] <+: bytes then ⟨Enc.UTF32BE, 4⟩
  else if [0xEF, 0xBB, 0xBF] <+: bytes then ⟨Enc.UTF8, 3⟩
  else ⟨Enc.UTF8, 0⟩

/-- The buffer with the two bytes of every 16-bit unit swapped; a last odd byte stays. -/
def swap_bytes_16 : List Nat → List Nat
  | a :: b :: rest => b :: a :: swap_bytes_16 rest
  | l => l

/-- The buffer with every 4-byte group reversed; a last incomplete group stays. -/
def reverse_bytes_32 : List Nat → List Nat
  | a :: b :: c :: d :: rest => d :: c :: b :: a :: reverse_bytes_32 rest
  | l => l

/-! ## Bit-level toolkit -/

/-- Helper: a mask below 2^n sees only the low n bits of its argument. -/
theorem and_mod_two_pow_left (x m n : Nat) (hm : m < 2 ^ n) : x &&& m = (x % 2 ^ n) &&& m := by
  apply Nat.eq_of_testBit_eq
  intro i
  simp only [Nat.testBit_and, Nat.testBit_mod_two_pow]
  by_cases hi : i < n
  · simp [hi]
  · have : m.testBit i = false := by
      apply Nat.testBit_lt_two_pow
      exact lt_of_lt_of_le hm (Nat.pow_le_pow_right (by decide) (by omega))
    simp [this]

/-- Helper: reduction modulo a power of two distributes over a bitwise or. -/
theorem or_mod_two_pow (x y n : Nat) : (x ||| y) % 2 ^ n = (x % 2 ^ n) ||| (y % 2 ^ n) := by
  apply Nat.eq_of_testBit_eq
  intro i
  simp only [Nat.testBit_or, Nat.testBit_mod_two_pow]
  by_cases hi : i < n <;> simp [hi]

/-- Helper: a bitwise or of two numbers with disjoint bit ranges is their sum. -/
theorem or_eq_add_of_low (a b k : Nat) (ha : a % 2 ^ k = 0) (hb : b < 2 ^ k) : a ||| b = a + b := by
  have h := Nat.mul_add_lt_is_or hb (a / 2 ^ k)
  have h2 : 2 ^ k * (a / 2 ^ k) = a := by
    have := Nat.div_add_mod a (2 ^ k)
    omega
  rw [h2] at h
  exact h.symm

set_option maxRecDepth 100000 in
/-- Helper: the high-bit masks of the UTF-8 decoder, on a byte, as arithmetic. -/
theorem byte_masks : ∀ y : Nat, y < 256 →
    (y &&& 0x80 = y / 128 * 128) ∧ (y &&& 0xC0 = y / 64 * 64) ∧ (y &&& 0xE0 = y / 32 * 32)
    ∧ (y &&& 0xF0 = y / 16 * 16) ∧ (y &&& 0xF8 = y / 8 * 8) := by
  decide

/-- Helper: the mask 0x80 as arithmetic. -/
theorem and_0x80 (x : Nat) : x &&& 0x80 = x % 256 / 128 * 128 := by
  rw [and_mod_two_pow_left x 0x80 8 (by decide)]
  exact (byte_masks (x % 2 ^ 8) (Nat.mod_lt _ (by decide))).1

/-- Helper: the mask 0xC0 as arithmetic. -/
theorem and_0xC0 (x : Nat) : x &&& 0xC0 = x % 256 / 64 * 64 := by
  rw [and_mod_two_pow_left x 0xC0 8 (by decide)]
  exact (byte_masks (x % 2 ^ 8) (Nat.mod_lt _ (by decide))).2.1

/-- Helper: the mask 0xE0 as arithmetic. -/
theorem and_0xE0 (x : Nat) : x &&& 0xE0 = x % 256 / 32 * 32 := by
  rw [and_mod_two_pow_left x 0xE0 8 (by decide)]
  exact (byte_masks (x % 2 ^ 8) (Nat.mod_lt _ (by decide))).2.2.1

/-- Helper: the mask 0xF0 as arithmetic. -/
theorem and_0xF0 (x : Nat) : x &&& 0xF0 = x % 256 / 16 * 16 := by
  rw [and_mod_two_pow_left x 0xF0 8 (by decide)]
  exact (byte_masks (x % 2 ^ 8) (Nat.mod_lt _ (by decide))).2.2.2.1

/-- Helper: the mask 0xF8 as arithmetic. -/
theorem and_0xF8 (x : Nat) : x &&& 0xF8 = x % 256 / 8 * 8 := by
  rw [and_mod_two_pow_left x 0xF8 8 (by decide)]
  exact (byte_masks (x % 2 ^ 8) (Nat.mod_lt _ (by decide))).2.2.2.2

/-- Helper: the mask 0x07 as a remainder. -/
theorem and_0x07 (x : Nat) : x &&& 0x07 = x % 8 := Nat.and_pow_two_sub_one_eq_mod x 3
/-- Helper: the mask 0x0F as a remainder. -/
theorem and_0x0F (x : Nat) : x &&& 0x0F = x % 16 := Nat.and_pow_two_sub_one_eq_mod x 4
/-- Helper: the mask 0x1F as a remainder. -/
theorem and_0x1F (x : Nat) : x &&& 0x1F = x % 32 := Nat.and_pow_two_sub_one_eq_mod x 5
/-- Helper: the mask 0x3F as a remainder. -/
theorem and_0x3F (x : Nat) : x &&& 0x3F = x % 64 := Nat.and_pow_two_sub_one_eq_mod x 6
/-- Helper: the mask 0xFF as a remainder. -/
theorem and_0xFF (x : Nat) : x &&& 0xFF = x % 256 := Nat.and_pow_two_sub_one_eq_mod x 8
/-- Helper: the mask 0x3FF as a remainder. -/
theorem and_0x3FF (x : Nat) : x &&& 0x3FF = x % 1024 := Nat.and_pow_two_sub_one_eq_mod x 10

set_option maxRecDepth 100000 in
/-- Helper: the lead and continuation markers of the UTF-8 encoder, on a byte, as arithmetic. -/
theorem byte_ors : ∀ y : Nat, y < 256 →
    ((0x80 ||| y) % 256 = 128 + y % 128) ∧ ((0xC0 ||| y) % 256 = 192 + y % 64)
    ∧ ((0xE0 ||| y) % 256 = 224 + y % 32) ∧ ((0xF0 ||| y) % 256 = 240 + y % 16) := by
  decide

/-- Helper: the continuation byte `static_cast<char>(0x80 | y)` as arithmetic. -/
theorem or_0x80 (y : Nat) : static_cast_char (0x80 ||| y) = 128 + y % 128 := by
  have h := or_mod_two_pow 0x80 y 8
  have h2 := (byte_ors (y % 2 ^ 8) (Nat.mod_lt _ (by decide))).1
  have h3 := or_mod_two_pow 0x80 (y % 2 ^ 8) 8
  simp only [static_cast_char]
  norm_num at h h2 h3 ⊢
  omega

/-- Helper: the lead byte `static_cast<char>(0xC0 | y)` as arithmetic. -/
theorem or_0xC0 (y : Nat) : static_cast_char (0xC0 ||| y) = 192 + y % 64 := by
  have h := or_mod_two_pow 0xC0 y 8
  have h2 := (byte_ors (y % 2 ^ 8) (Nat.mod_lt _ (by decide))).2.1
  have h3 := or_mod_two_pow 0xC0 (y % 2 ^ 8) 8
  simp only [static_cast_char]
  norm_num at h h2 h3 ⊢
  omega

/-- Helper: the lead byte `static_cast<char>(0xE0 | y)` as arithmetic. -/
theorem or_0xE0 (y : Nat) : static_cast_char (0xE0 ||| y) = 224 + y % 32 := by
  have h := or_mod_two_pow 0xE0 y 8
  have h2 := (byte_ors (y % 2 ^ 8) (Nat.mod_lt _ (by decide))).2.2.1
  have h3 := or_mod_two_pow 0xE0 (y % 2 ^ 8) 8
  simp only [static_cast_char]
  norm_num at h h2 h3 ⊢
  omega

/-- Helper: the lead byte `static_cast<char>(0xF0 | y)` as arithmetic. -/
theorem or_0xF0 (y : Nat) : static_cast_char (0xF0 ||| y) = 240 + y % 16 := by
  have h := or_mod_two_pow 0xF0 y 8
  have h2 := (byte_ors (y % 2 ^ 8) (Nat.mod_lt _ (by decide))).2.2.2
  have h3 := or_mod_two_pow 0xF0 (y % 2 ^ 8) 8
  simp only [static_cast_char]
  norm_num at h h2 h3 ⊢
  omega

/-- Helper: reading inside the middle segment of a buffer. -/
theorem byte_at_mid (pre l rest : List Nat) (i : Nat) (h : i < l.length) :
    byte_at (pre ++ l ++ rest) (pre.length + i) = l.getD i 0 := by
  unfold byte_at
  rw [List.append_assoc, List.getD_append_right _ _ _ _ (by omega)]
  simp only [Nat.add_sub_cancel_left]
  rw [List.getD_append _ _ _ _ h]

/-- Helper: the bytes pushed by the UTF-8 encoder, as arithmetic. -/
theorem append_codepoint_UTF8_eq (cp : Nat) (out : List Nat) :
    append_codepoint_UTF8 cp out = out ++
      (if cp < 0x80 then [cp]
       else if cp < 0x800 then [192 + cp / 64, 128 + cp % 64]
       else if cp < 0x10000 then [224 + cp / 4096, 128 + cp / 64 % 64, 128 + cp % 64]
       else [240 + cp / 262144 % 16, 128 + cp / 4096 % 64, 128 + cp / 64 % 64, 128 + cp % 64]) := by
  unfold append_codepoint_UTF8
  simp only [push_back, or_0x80, or_0xC0, or_0xE0, or_0xF0, and_0x3F, Nat.shiftRight_eq_div_pow,
    List.append_assoc, List.singleton_append]
  split_ifs with h1 h2 h3 <;>
    simp only [static_cast_char, List.append_cancel_left_eq, List.cons.injEq, and_true,
      true_and, List.cons_append, List.nil_append, Nat.reducePow] <;>
    omega

/-- Helper: the UTF-8 decoder on a byte below 0x80. -/
theorem extract_UTF8_1 (bytes : List Nat) (pos : Nat) (h : byte_at bytes pos < 128) :
    extract_codepoint_UTF8 bytes pos = (byte_at bytes pos, pos + 1) := by
  unfold extract_codepoint_UTF8
  have h0 : byte_at bytes pos &&& 0x80 = 0 := by rw [and_0x80]; omega
  rw [if_pos h0]

/-- Helper: the UTF-8 decoder on a well-formed two-byte sequence. -/
theorem extract_UTF8_2 (bytes : List Nat) (pos a c : Nat) (hlen : pos + 1 < bytes.length)
    (ha : a < 32) (hc : c < 64)
    (h0 : byte_at bytes pos = 192 + a) (h1 : byte_at bytes (pos + 1) = 128 + c) :
    extract_codepoint_UTF8 bytes pos = (a * 64 + c, pos + 2) := by
  unfold extract_codepoint_UTF8
  simp only [h0, h1, and_0x80, and_0xC0, and_0xE0, and_0x1F, and_0x3F, Nat.shiftLeft_eq]
  have e1 : ¬ ((192 + a) % 256 / 128 * 128 = 0) := by omega
  have e2 : pos + 1 < bytes.length ∧ (192 + a) % 256 / 32 * 32 = 192
      ∧ (128 + c) % 256 / 64 * 64 = 128 := by omega
  rw [if_neg e1, if_pos e2, or_eq_add_of_low _ _ 6 (by omega) (by omega)]
  simp only [Prod.mk.injEq, and_true]
  omega

/-- Helper: composing two bit fields, the upper one shifted by 6. -/
theorem or_shift_6 (x y : Nat) (hy : y < 64) : (x <<< 6) ||| y = x * 64 + y := by
  have h := or_eq_add_of_low (x <<< 6) y 6 (by simp only [Nat.shiftLeft_eq]; omega) (by omega)
  simp only [Nat.shiftLeft_eq, Nat.reducePow] at h ⊢
  exact h

/-- Helper: composing three bit fields, shifted by 12 and 6. -/
theorem or_shift_12_6 (x y z : Nat) (hy : y < 64) (hz : z < 64) :
    (x <<< 12) ||| (y <<< 6) ||| z = x * 4096 + y * 64 + z := by
  have h1 := or_eq_add_of_low (x <<< 12) (y <<< 6) 12
    (by simp only [Nat.shiftLeft_eq]; omega) (by simp only [Nat.shiftLeft_eq]; omega)
  have h2 := or_eq_add_of_low (x <<< 12 + y <<< 6) z 6
    (by simp only [Nat.shiftLeft_eq]; omega) (by omega)
  simp only [h1, h2]
  simp only [Nat.shiftLeft_eq, Nat.reducePow]

/-- Helper: composing four bit fields, shifted by 18, 12 and 6. -/
theorem or_shift_18_12_6 (x y z w : Nat) (hy : y < 64) (hz : z < 64) (hw : w < 64) :
    (x <<< 18) ||| (y <<< 12) ||| (z <<< 6) ||| w = x * 262144 + y * 4096 + z * 64 + w := by
  have h1 := or_eq_add_of_low (x <<< 18) (y <<< 12) 18
    (by simp only [Nat.shiftLeft_eq]; omega) (by simp only [Nat.shiftLeft_eq]; omega)
  have h2 := or_eq_add_of_low (x <<< 18 + y <<< 12) (z <<< 6) 12
    (by simp only [Nat.shiftLeft_eq]; omega) (by simp only [Nat.shiftLeft_eq]; omega)
  have h3 := or_eq_add_of_low (x <<< 18 + y <<< 12 + z <<< 6) w 6
    (by simp only [Nat.shiftLeft_eq]; omega) (by omega)
  simp only [h1, h2, h3]
  simp only [Nat.shiftLeft_eq, Nat.reducePow]

/-- Helper: the UTF-8 decoder on a well-formed three-byte sequence. -/
theorem extract_UTF8_3 (bytes : List Nat) (pos a c d : Nat) (hlen : pos + 2 < bytes.length)
    (ha : a < 16) (hc : c < 64) (hd : d < 64)
    (h0 : byte_at bytes pos = 224 + a) (h1 : byte_at bytes (pos + 1) = 128 + c)
    (h2 : byte_at bytes (pos + 2) = 128 + d) :
    extract_codepoint_UTF8 bytes pos = (a * 4096 + c * 64 + d, pos + 3) := by
  unfold extract_codepoint_UTF8
  simp only [h0, h1, h2, and_0x80, and_0xC0, and_0xE0, and_0xF0, and_0x0F, and_0x3F]
  have e1 : ¬ ((224 + a) % 256 / 128 * 128 = 0) := by omega
  have e2 : ¬ (pos + 1 < bytes.length ∧ (224 + a) % 256 / 32 * 32 = 192
      ∧ (128 + c) % 256 / 64 * 64 = 128) := by omega
  have e3 : pos + 2 < bytes.length ∧ (224 + a) % 256 / 16 * 16 = 224
      ∧ (128 + c) % 256 / 64 * 64 = 128 ∧ (128 + d) % 256 / 64 * 64 = 128 := by omega
  have hc2 : (128 + c) % 64 < 64 := by omega
  have hd2 : (128 + d) % 64 < 64 := by omega
  simp only [if_neg e1, if_neg e2, if_pos e3, or_shift_12_6 _ _ _ hc2 hd2]
  simp only [Prod.mk.injEq, and_true]
  omega

/-- Helper: the UTF-8 decoder on a well-formed four-byte sequence. -/
theorem extract_UTF8_4 (bytes : List Nat) (pos a c d e : Nat) (hlen : pos + 3 < bytes.length)
    (ha : a < 8) (hc : c < 64) (hd : d < 64) (he : e < 64)
    (h0 : byte_at bytes pos = 240 + a) (h1 : byte_at bytes (pos + 1) = 128 + c)
    (h2 : byte_at bytes (pos + 2) = 128 + d) (h3 : byte_at bytes (pos + 3) = 128 + e) :
    extract_codepoint_UTF8 bytes pos = (a * 262144 + c * 4096 + d * 64 + e, pos + 4) := by
  unfold extract_codepoint_UTF8
  simp only [h0, h1, h2, h3, and_0x80, and_0xC0, and_0xE0, and_0xF0, and_0xF8, and_0x07,
    and_0x3F]
  have e1 : ¬ ((240 + a) % 256 / 128 * 128 = 0) := by omega
  have e2 : ¬ (pos + 1 < bytes.length ∧ (240 + a) % 256 / 32 * 32 = 192
      ∧ (128 + c) % 256 / 64 * 64 = 128) := by omega
  have e3 : ¬ (pos + 2 < bytes.length ∧ (240 + a) % 256 / 16 * 16 = 224
      ∧ (128 + c) % 256 / 64 * 64 = 128 ∧ (128 + d) % 256 / 64 * 64 = 128) := by omega
  have e4 : pos + 3 < bytes.length ∧ (240 + a) % 256 / 8 * 8 = 240
      ∧ (128 + c) % 256 / 64 * 64 = 128 ∧ (128 + d) % 256 / 64 * 64 = 128
      ∧ (128 + e) % 256 / 64 * 64 = 128 := by omega
  have hc2 : (128 + c) % 64 < 64 := by omega
  have hd2 : (128 + d) % 64 < 64 := by omega
  have he2 : (128 + e) % 64 < 64 := by omega
  simp only [if_neg e1, if_neg e2, if_neg e3, if_pos e4, or_shift_18_12_6 _ _ _ _ hc2 hd2 he2]
  simp only [Prod.mk.injEq, and_true]
  omega

/-- Helper: the number of bytes of the UTF-8 ladder. -/
theorem append_codepoint_UTF8_length (cp : Nat) (out : List Nat) :
    (append_codepoint_UTF8 cp out).length = out.length +
      (if cp < 0x80 then 1 else if cp < 0x800 then 2 else if cp < 0x10000 then 3 else 4) := by
  rw [append_codepoint_UTF8_eq]
  split_ifs <;> simp

/-- Helper: UTF-8 round trip of one code point below 0x200000 inside any buffer. -/
theorem extract_append_UTF8 (cp : Nat) (h : cp < 0x200000) (out rest : List Nat) :
    extract_codepoint_UTF8 (append_codepoint_UTF8 cp out ++ rest) out.length
      = (cp, (append_codepoint_UTF8 cp out).length) := by
  rw [append_codepoint_UTF8_length, append_codepoint_UTF8_eq]
  split_ifs with h1 h2 h3
  · have b0 := byte_at_mid out [cp] rest 0 (by simp)
    simp only [Nat.add_zero, List.getD_cons_zero] at b0
    rw [extract_UTF8_1 _ _ (by rw [b0]; omega), b0]
  · have b0 := byte_at_mid out [192 + cp / 64, 128 + cp % 64] rest 0 (by simp)
    have b1 := byte_at_mid out [192 + cp / 64, 128 + cp % 64] rest 1 (by simp)
    simp only [Nat.add_zero, List.getD_cons_zero, List.getD_cons_succ] at b0 b1
    rw [extract_UTF8_2 _ _ (cp / 64) (cp % 64) (by simp) (by omega) (by omega) b0 b1]
    simp only [Prod.mk.injEq, and_true]
    omega
  · have b0 := byte_at_mid out [224 + cp / 4096, 128 + cp / 64 % 64, 128 + cp % 64] rest 0 (by simp)
    have b1 := byte_at_mid out [224 + cp / 4096, 128 + cp / 64 % 64, 128 + cp % 64] rest 1 (by simp)
    have b2 := byte_at_mid out [224 + cp / 4096, 128 + cp / 64 % 64, 128 + cp % 64] rest 2 (by simp)
    simp only [Nat.add_zero, List.getD_cons_zero, List.getD_cons_succ] at b0 b1 b2
    rw [extract_UTF8_3 _ _ (cp / 4096) (cp / 64 % 64) (cp % 64) (by simp) (by omega)
      (by omega) (by omega) b0 b1 b2]
    simp only [Prod.mk.injEq, and_true]
    omega
  · have b0 := byte_at_mid out
      [240 + cp / 262144 % 16, 128 + cp / 4096 % 64, 128 + cp / 64 % 64, 128 + cp % 64] rest 0
      (by simp)
    have b1 := byte_at_mid out
      [240 + cp / 262144 % 16, 128 + cp / 4096 % 64, 128 + cp / 64 % 64, 128 + cp % 64] rest 1
      (by simp)
    have b2 := byte_at_mid out
      [240 + cp / 262144 % 16, 128 + cp / 4096 % 64, 128 + cp / 64 % 64, 128 + cp % 64] rest 2
      (by simp)
    have b3 := byte_at_mid out
      [240 + cp / 262144 % 16, 128 + cp / 4096 % 64, 128 + cp / 64 % 64, 128 + cp % 64] rest 3
      (by simp)
    simp only [Nat.add_zero, List.getD_cons_zero, List.getD_cons_succ] at b0 b1 b2 b3
    rw [extract_UTF8_4 _ _ (cp / 262144 % 16) (cp / 4096 % 64) (cp / 64 % 64) (cp % 64)
      (by simp) (by omega) (by omega) (by omega) (by omega) b0 b1 b2 b3]
    simp only [Prod.mk.injEq, and_true]
    omega

/-- Helper: `combine_chars` as arithmetic on the unsigned values of the chars. -/
theorem combine_chars_eq (h l : Nat) :
    details.combine_chars h l = h % 256 * 256 + l % 256 := by
  unfold details.combine_chars
  simp only [static_cast_uint16, static_cast_char, Nat.shiftLeft_eq, Nat.reducePow]
  have e1 : h % 256 * 256 % 65536 = h % 256 * 256 := by omega
  have e2 : l % 256 % 65536 = l % 256 := by omega
  rw [e1, e2]
  exact or_eq_add_of_low _ _ 8 (by omega) (by omega)

/-- Helper: the four-argument `combine_chars` as arithmetic. -/
theorem combine_chars_4_eq (hh hl lh ll : Nat) :
    details.combine_chars_4 hh hl lh ll
      = hh % 256 * 16777216 + hl % 256 * 65536 + lh % 256 * 256 + ll % 256 := by
  unfold details.combine_chars_4
  simp only [static_cast_uint32, static_cast_char, Nat.shiftLeft_eq, Nat.reducePow]
  have e1 : hh % 256 * 16777216 % 4294967296 = hh % 256 * 16777216 := by omega
  have e2 : hl % 256 * 65536 % 4294967296 = hl % 256 * 65536 := by omega
  have e3 : lh % 256 * 256 % 4294967296 = lh % 256 * 256 := by omega
  have e4 : ll % 256 % 4294967296 = ll % 256 := by omega
  simp only [e1, e2, e3, e4]
  have o1 := or_eq_add_of_low (hh % 256 * 16777216) (hl % 256 * 65536) 24 (by omega) (by omega)
  have o2 := or_eq_add_of_low (hh % 256 * 16777216 + hl % 256 * 65536) (lh % 256 * 256) 16
    (by omega) (by omega)
  have o3 := or_eq_add_of_low (hh % 256 * 16777216 + hl % 256 * 65536 + lh % 256 * 256)
    (ll % 256) 8 (by omega) (by omega)
  simp only [o1, o2, o3]

/-- Helper: `high_byte_of` as arithmetic. -/
theorem high_byte_of_eq (w : Nat) : details.high_byte_of w = w / 256 % 256 := by
  simp only [details.high_byte_of, static_cast_char, and_0xFF, Nat.shiftRight_eq_div_pow,
    Nat.reducePow]
  omega

/-- Helper: `low_byte_of` as arithmetic. -/
theorem low_byte_of_eq (w : Nat) : details.low_byte_of w = w % 256 := by
  simp only [details.low_byte_of, static_cast_char, and_0xFF]
  omega

/-- Helper: `hh_byte_of` as arithmetic. -/
theorem hh_byte_of_eq (d : Nat) : details.hh_byte_of d = d / 16777216 % 256 := by
  simp only [details.hh_byte_of, static_cast_char, and_0xFF, Nat.shiftRight_eq_div_pow,
    Nat.reducePow]
  omega

/-- Helper: `hl_byte_of` as arithmetic. -/
theorem hl_byte_of_eq (d : Nat) : details.hl_byte_of d = d / 65536 % 256 := by
  simp only [details.hl_byte_of, static_cast_char, and_0xFF, Nat.shiftRight_eq_div_pow,
    Nat.reducePow]
  omega

/-- Helper: `lh_byte_of` as arithmetic. -/
theorem lh_byte_of_eq (d : Nat) : details.lh_byte_of d = d / 256 % 256 := by
  simp only [details.lh_byte_of, static_cast_char, and_0xFF, Nat.shiftRight_eq_div_pow,
    Nat.reducePow]
  omega

/-- Helper: `ll_byte_of` as arithmetic. -/
theorem ll_byte_of_eq (d : Nat) : details.ll_byte_of d = d % 256 := by
  simp only [details.ll_byte_of, static_cast_char, and_0xFF]
  omega

/-- Helper: the surrogate pair computed by `encode_as_utf16`, as arithmetic. -/
theorem encode_as_utf16_eq (cp : Nat) (h1 : 0x10000 ≤ cp) (h2 : cp < 0x100000000) :
    encode_as_utf16 cp
      = (((cp - 0x10000) / 1024 + 0xD800) % 65536, (cp - 0x10000) % 1024 + 0xDC00) := by
  unfold encode_as_utf16
  simp only [static_cast_uint32, static_cast_uint16, and_0x3FF, Nat.shiftRight_eq_div_pow,
    Nat.reducePow, Prod.mk.injEq]
  omega

/-- Helper: the bytes pushed by the UTF-16 encoders, as arithmetic. -/
theorem append_codepoint_UTF16_eq (cp : Nat) (out : List Nat) :
    append_codepoint_UTF16LE cp out = out ++
      (if cp < 0x10000 then [cp % 256, cp / 256 % 256]
       else [(encode_as_utf16 cp).1 % 256, (encode_as_utf16 cp).1 / 256 % 256,
             (encode_as_utf16 cp).2 % 256, (encode_as_utf16 cp).2 / 256 % 256])
    ∧ append_codepoint_UTF16BE cp out = out ++
      (if cp < 0x10000 then [cp / 256 % 256, cp % 256]
       else [(encode_as_utf16 cp).1 / 256 % 256, (encode_as_utf16 cp).1 % 256,
             (encode_as_utf16 cp).2 / 256 % 256, (encode_as_utf16 cp).2 % 256]) := by
  unfold append_codepoint_UTF16LE append_codepoint_UTF16BE
  simp only [push_back, high_byte_of_eq, low_byte_of_eq, static_cast_uint16, List.append_assoc,
    List.singleton_append]
  constructor <;> split_ifs with h1 <;>
    simp only [List.append_cancel_left_eq, List.cons.injEq, and_true, true_and,
      List.cons_append, List.nil_append] <;>
    omega

/-- Helper: the bytes pushed by the UTF-32 encoders, as arithmetic. -/
theorem append_codepoint_UTF32_eq (cp : Nat) (out : List Nat) :
    append_codepoint_UTF32LE cp out = out ++
      [cp % 256, cp / 256 % 256, cp / 65536 % 256, cp / 16777216 % 256]
    ∧ append_codepoint_UTF32BE cp out = out ++
      [cp / 16777216 % 256, cp / 65536 % 256, cp / 256 % 256, cp % 256] := by
  unfold append_codepoint_UTF32LE append_codepoint_UTF32BE
  simp only [push_back, hh_byte_of_eq, hl_byte_of_eq, lh_byte_of_eq, ll_byte_of_eq,
    List.append_assoc, List.singleton_append, List.cons_append, List.nil_append, and_self]

/-- Helper: the code unit read by `get_code_unit`, as arithmetic. -/
theorem get_code_unit_eq (LE : Bool) (buf : List Nat) (i : Nat) :
    get_code_unit LE buf i =
      if LE then byte_at buf (i + 1) % 256 * 256 + byte_at buf i % 256
      else byte_at buf i % 256 * 256 + byte_at buf (i + 1) % 256 := by
  unfold get_code_unit
  simp only [combine_chars_eq]

/-- Helper: the UTF-16 decoder on a first unit outside the surrogate range. -/
theorem extract_utf16_bmp (LE : Bool) (bytes : List Nat) (pos : Nat)
    (h : get_code_unit LE bytes pos < 0xD800 ∨ get_code_unit LE bytes pos ≥ 0xE000) :
    extract_next_codepoint_from_utf16 LE bytes pos = (get_code_unit LE bytes pos, pos + 2) := by
  unfold extract_next_codepoint_from_utf16
  simp only [if_pos h]

/-- Helper: the UTF-16 decoder on a leading surrogate followed by a trailing one. -/
theorem extract_utf16_pair (LE : Bool) (bytes : List Nat) (pos : Nat)
    (h1 : 0xD800 ≤ get_code_unit LE bytes pos) (h2 : get_code_unit LE bytes pos < 0xDC00)
    (hlen : pos + 3 < bytes.length)
    (h3 : 0xDC00 ≤ get_code_unit LE bytes (pos + 2))
    (h4 : get_code_unit LE bytes (pos + 2) < 0xE000) :
    extract_next_codepoint_from_utf16 LE bytes pos
      = (0x10000 + (get_code_unit LE bytes pos - 0xD800) * 1024
          + (get_code_unit LE bytes (pos + 2) - 0xDC00), pos + 4) := by
  unfold extract_next_codepoint_from_utf16
  have e1 : ¬ (get_code_unit LE bytes pos < 0xD800 ∨ get_code_unit LE bytes pos ≥ 0xE000) := by
    omega
  have e2 : ¬ (get_code_unit LE bytes pos ≥ 0xDC00 ∨ pos + 2 + 1 ≥ bytes.length) := by omega
  have e3 : ¬ (get_code_unit LE bytes (pos + 2) < 0xDC00
      ∨ get_code_unit LE bytes (pos + 2) ≥ 0xE000) := by omega
  simp only [if_neg e1, if_neg e2, if_neg e3, Nat.shiftLeft_eq, Nat.reducePow]

/-- Helper: every malformed case of the UTF-16 decoder yields U+FFFD and advances by 2. -/
theorem extract_utf16_invalid (LE : Bool) (bytes : List Nat) (pos : Nat)
    (h1 : 0xD800 ≤ get_code_unit LE bytes pos) (h2 : get_code_unit LE bytes pos < 0xE000)
    (h3 : 0xDC00 ≤ get_code_unit LE bytes pos ∨ bytes.length ≤ pos + 3
      ∨ get_code_unit LE bytes (pos + 2) < 0xDC00 ∨ 0xE000 ≤ get_code_unit LE bytes (pos + 2)) :
    extract_next_codepoint_from_utf16 LE bytes pos = (codepoint.invalid, pos + 2) := by
  unfold extract_next_codepoint_from_utf16
  have e1 : ¬ (get_code_unit LE bytes pos < 0xD800 ∨ get_code_unit LE bytes pos ≥ 0xE000) := by
    omega
  simp only [if_neg e1]
  split_ifs with a b
  · rfl
  · rfl
  · omega

/-- Helper: reading a byte that follows a known prefix. -/
theorem byte_at_after (pre rest : List Nat) (i : Nat) :
    byte_at (pre ++ rest) (pre.length + i) = rest.getD i 0 := by
  unfold byte_at
  rw [List.getD_append_right _ _ _ _ (by omega)]
  simp only [Nat.add_sub_cancel_left]

/-- Helper: a code unit stored little-endian right after a known prefix. -/
theorem get_code_unit_LE_after (pre rest : List Nat) (w : Nat) (hw : w < 65536) :
    get_code_unit true (pre ++ (w % 256 :: w / 256 % 256 :: rest)) pre.length = w := by
  have b0 := byte_at_after pre (w % 256 :: w / 256 % 256 :: rest) 0
  have b1 := byte_at_after pre (w % 256 :: w / 256 % 256 :: rest) 1
  simp only [Nat.add_zero, List.getD_cons_zero, List.getD_cons_succ] at b0 b1
  rw [get_code_unit_eq]
  simp only [b0, b1, if_true]
  omega

/-- Helper: a code unit stored big-endian right after a known prefix. -/
theorem get_code_unit_BE_after (pre rest : List Nat) (w : Nat) (hw : w < 65536) :
    get_code_unit false (pre ++ (w / 256 % 256 :: w % 256 :: rest)) pre.length = w := by
  have b0 := byte_at_after pre (w / 256 % 256 :: w % 256 :: rest) 0
  have b1 := byte_at_after pre (w / 256 % 256 :: w % 256 :: rest) 1
  simp only [Nat.add_zero, List.getD_cons_zero, List.getD_cons_succ] at b0 b1
  rw [get_code_unit_eq]
  simp only [b0, b1, Bool.false_eq_true, if_false]
  omega

/-- Helper: UTF-16 round trip of one BMP code point that is not a surrogate, inside any buffer. -/
theorem extract_append_UTF16_bmp (cp : Nat) (h : cp < 0x10000) (hs : cp < 0xD800 ∨ 0xE000 ≤ cp)
    (out rest : List Nat) :
    extract_next_codepoint_from_utf16 true (append_codepoint_UTF16LE cp out ++ rest) out.length
      = (cp, out.length + 2)
    ∧ extract_next_codepoint_from_utf16 false (append_codepoint_UTF16BE cp out ++ rest) out.length
      = (cp, out.length + 2) := by
  rw [(append_codepoint_UTF16_eq cp out).1, (append_codepoint_UTF16_eq cp out).2]
  simp only [if_pos h, List.append_assoc, List.cons_append, List.nil_append]
  have u1 := get_code_unit_LE_after out rest cp h
  have u2 := get_code_unit_BE_after out rest cp h
  constructor
  · rw [extract_utf16_bmp _ _ _ (by rw [u1]; omega), u1]
  · rw [extract_utf16_bmp _ _ _ (by rw [u2]; omega), u2]

/-- Helper: the UTF-16 decoder on the bytes of a surrogate pair, in either byte order. -/
theorem extract_utf16_pair_bytes (lead trail : Nat) (hl1 : 0xD800 ≤ lead) (hl2 : lead < 0xDC00)
    (ht1 : 0xDC00 ≤ trail) (ht2 : trail < 0xE000) (out rest : List Nat) :
    extract_next_codepoint_from_utf16 true
        (out ++ (lead % 256 :: lead / 256 % 256 :: trail % 256 :: trail / 256 % 256 :: rest))
        out.length
      = (0x10000 + (lead - 0xD800) * 1024 + (trail - 0xDC00), out.length + 4)
    ∧ extract_next_codepoint_from_utf16 false
        (out ++ (lead / 256 % 256 :: lead % 256 :: trail / 256 % 256 :: trail % 256 :: rest))
        out.length
      = (0x10000 + (lead - 0xD800) * 1024 + (trail - 0xDC00), out.length + 4) := by
  constructor
  · have u1 := get_code_unit_LE_after out (trail % 256 :: trail / 256 % 256 :: rest) lead
      (by omega)
    have u2 := get_code_unit_LE_after (out ++ [lead % 256, lead / 256 % 256]) rest trail
      (by omega)
    simp only [List.append_assoc, List.cons_append, List.nil_append, List.length_append,
      List.length_cons, List.length_nil, Nat.zero_add, Nat.reduceAdd] at u2
    have h := extract_utf16_pair true
      (out ++ (lead % 256 :: lead / 256 % 256 :: trail % 256 :: trail / 256 % 256 :: rest))
      out.length (by rw [u1]; exact hl1) (by rw [u1]; exact hl2) (by simp)
      (by rw [u2]; exact ht1) (by rw [u2]; exact ht2)
    simp only [u1, u2] at h
    exact h
  · have u1 := get_code_unit_BE_after out (trail / 256 % 256 :: trail % 256 :: rest) lead
      (by omega)
    have u2 := get_code_unit_BE_after (out ++ [lead / 256 % 256, lead % 256]) rest trail
      (by omega)
    simp only [List.append_assoc, List.cons_append, List.nil_append, List.length_append,
      List.length_cons, List.length_nil, Nat.zero_add, Nat.reduceAdd] at u2
    have h := extract_utf16_pair false
      (out ++ (lead / 256 % 256 :: lead % 256 :: trail / 256 % 256 :: trail % 256 :: rest))
      out.length (by rw [u1]; exact hl1) (by rw [u1]; exact hl2) (by simp)
      (by rw [u2]; exact ht1) (by rw [u2]; exact ht2)
    simp only [u1, u2] at h
    exact h

/-- Helper: UTF-16 round trip of one supplementary code point, inside any buffer. -/
theorem extract_append_UTF16_pair (cp : Nat) (h1 : 0x10000 ≤ cp) (h2 : cp ≤ 0x10FFFF)
    (out rest : List Nat) :
    extract_next_codepoint_from_utf16 true (append_codepoint_UTF16LE cp out ++ rest) out.length
      = (cp, out.length + 4)
    ∧ extract_next_codepoint_from_utf16 false (append_codepoint_UTF16BE cp out ++ rest) out.length
      = (cp, out.length + 4) := by
  rw [(append_codepoint_UTF16_eq cp out).1, (append_codepoint_UTF16_eq cp out).2]
  have hn : ¬ cp < 0x10000 := by omega
  simp only [if_neg hn, encode_as_utf16_eq cp h1 (by omega), List.append_assoc,
    List.cons_append, List.nil_append]
  have hcp : 0x10000 + (((cp - 0x10000) / 1024 + 0xD800) % 65536 - 0xD800) * 1024
      + ((cp - 0x10000) % 1024 + 0xDC00 - 0xDC00) = cp := by omega
  have h := extract_utf16_pair_bytes (((cp - 0x10000) / 1024 + 0xD800) % 65536)
    ((cp - 0x10000) % 1024 + 0xDC00) (by omega) (by omega) (by omega) (by omega) out rest
  simp only [hcp] at h
  exact h

/-- Helper: a 32-bit word stored little-endian right after a known prefix. -/
theorem extract_UTF32LE_after (pre rest : List Nat) (w : Nat) (hw : w < 4294967296) :
    extract_codepoint_UTF32LE
      (pre ++ (w % 256 :: w / 256 % 256 :: w / 65536 % 256 :: w / 16777216 % 256 :: rest))
      pre.length = (w, pre.length + 4) := by
  have b0 := byte_at_after pre
    (w % 256 :: w / 256 % 256 :: w / 65536 % 256 :: w / 16777216 % 256 :: rest) 0
  have b1 := byte_at_after pre
    (w % 256 :: w / 256 % 256 :: w / 65536 % 256 :: w / 16777216 % 256 :: rest) 1
  have b2 := byte_at_after pre
    (w % 256 :: w / 256 % 256 :: w / 65536 % 256 :: w / 16777216 % 256 :: rest) 2
  have b3 := byte_at_after pre
    (w % 256 :: w / 256 % 256 :: w / 65536 % 256 :: w / 16777216 % 256 :: rest) 3
  simp only [Nat.add_zero, List.getD_cons_zero, List.getD_cons_succ] at b0 b1 b2 b3
  unfold extract_codepoint_UTF32LE
  simp only [combine_chars_4_eq, b0, b1, b2, b3, Prod.mk.injEq, and_true]
  omega

/-- Helper: a 32-bit word stored big-endian right after a known prefix. -/
theorem extract_UTF32BE_after (pre rest : List Nat) (w : Nat) (hw : w < 4294967296) :
    extract_codepoint_UTF32BE
      (pre ++ (w / 16777216 % 256 :: w / 65536 % 256 :: w / 256 % 256 :: w % 256 :: rest))
      pre.length = (w, pre.length + 4) := by
  have b0 := byte_at_after pre
    (w / 16777216 % 256 :: w / 65536 % 256 :: w / 256 % 256 :: w % 256 :: rest) 0
  have b1 := byte_at_after pre
    (w / 16777216 % 256 :: w / 65536 % 256 :: w / 256 % 256 :: w % 256 :: rest) 1
  have b2 := byte_at_after pre
    (w / 16777216 % 256 :: w / 65536 % 256 :: w / 256 % 256 :: w % 256 :: rest) 2
  have b3 := byte_at_after pre
    (w / 16777216 % 256 :: w / 65536 % 256 :: w / 256 % 256 :: w % 256 :: rest) 3
  simp only [Nat.add_zero, List.getD_cons_zero, List.getD_cons_succ] at b0 b1 b2 b3
  unfold extract_codepoint_UTF32BE
  simp only [combine_chars_4_eq, b0, b1, b2, b3, Prod.mk.injEq, and_true]
  omega

/-- Helper: UTF-32 round trip of one 32-bit value, inside any buffer. -/
theorem extract_append_UTF32 (cp : Nat) (h : cp < 0x100000000) (out rest : List Nat) :
    extract_codepoint_UTF32LE (append_codepoint_UTF32LE cp out ++ rest) out.length
      = (cp, out.length + 4)
    ∧ extract_codepoint_UTF32BE (append_codepoint_UTF32BE cp out ++ rest) out.length
      = (cp, out.length + 4) := by
  rw [(append_codepoint_UTF32_eq cp out).1, (append_codepoint_UTF32_eq cp out).2]
  simp only [List.append_assoc, List.cons_append, List.nil_append]
  exact ⟨extract_UTF32LE_after out rest cp h, extract_UTF32BE_after out rest cp h⟩

/-- Helper: the length of what each encoder appends for a code point. -/
theorem append_codepoint_length (E : Enc) (cp : Nat) (out : List Nat) :
    (append_codepoint E cp out).length = out.length +
      (match E with
       | Enc.UTF8 => if cp < 0x80 then 1 else if cp < 0x800 then 2 else if cp < 0x10000 then 3 else 4
       | Enc.UTF16LE => if cp < 0x10000 then 2 else 4
       | Enc.UTF16BE => if cp < 0x10000 then 2 else 4
       | Enc.UTF32LE => 4
       | Enc.UTF32BE => 4) := by
  cases E
  · exact append_codepoint_UTF8_length cp out
  · simp only [append_codepoint, (append_codepoint_UTF16_eq cp out).1]
    split_ifs <;> simp
  · simp only [append_codepoint, (append_codepoint_UTF16_eq cp out).2]
    split_ifs <;> simp
  · simp [append_codepoint, (append_codepoint_UTF32_eq cp out).1]
  · simp [append_codepoint, (append_codepoint_UTF32_eq cp out).2]

/-- Helper: every encoder only appends, `append_codepoint E cp out = out ++ append_codepoint E cp []`. -/
theorem append_codepoint_eq_append (E : Enc) (cp : Nat) (out : List Nat) :
    append_codepoint E cp out = out ++ append_codepoint E cp [] := by
  cases E
  · simp only [append_codepoint, append_codepoint_UTF8_eq cp out, append_codepoint_UTF8_eq cp [],
      List.nil_append]
  · simp only [append_codepoint, (append_codepoint_UTF16_eq cp out).1,
      (append_codepoint_UTF16_eq cp []).1, List.nil_append]
  · simp only [append_codepoint, (append_codepoint_UTF16_eq cp out).2,
      (append_codepoint_UTF16_eq cp []).2, List.nil_append]
  · simp only [append_codepoint, (append_codepoint_UTF32_eq cp out).1,
      (append_codepoint_UTF32_eq cp []).1, List.nil_append]
  · simp only [append_codepoint, (append_codepoint_UTF32_eq cp out).2,
      (append_codepoint_UTF32_eq cp []).2, List.nil_append]

/-- Helper: round trip of one code point in the faithful domain of each encoding, inside any
buffer: the decoder returns the code point and stops right after its bytes. -/
theorem extract_append (E : Enc) (cp : Nat) (out rest : List Nat)
    (h : match E with
         | Enc.UTF8 => cp < 0x200000
         | Enc.UTF16LE => is_scalar cp
         | Enc.UTF16BE => is_scalar cp
         | Enc.UTF32LE => cp < 0x100000000
         | Enc.UTF32BE => cp < 0x100000000) :
    extract_codepoint E (append_codepoint E cp out ++ rest) out.length
      = (cp, (append_codepoint E cp out).length) := by
  rw [append_codepoint_length]
  cases E
  · simp only [extract_codepoint, append_codepoint]
    rw [extract_append_UTF8 cp h out rest, append_codepoint_UTF8_length]
  · simp only [extract_codepoint, append_codepoint]
    unfold is_scalar at h
    by_cases hb : cp < 0x10000
    · rw [(extract_append_UTF16_bmp cp hb (by omega) out rest).1, if_pos hb]
    · rw [(extract_append_UTF16_pair cp (by omega) (by omega) out rest).1, if_neg hb]
  · simp only [extract_codepoint, append_codepoint]
    unfold is_scalar at h
    by_cases hb : cp < 0x10000
    · rw [(extract_append_UTF16_bmp cp hb (by omega) out rest).2, if_pos hb]
    · rw [(extract_append_UTF16_pair cp (by omega) (by omega) out rest).2, if_neg hb]
  · simp only [extract_codepoint, append_codepoint]
    exact (extract_append_UTF32 cp h out rest).1
  · simp only [extract_codepoint, append_codepoint]
    exact (extract_append_UTF32 cp h out rest).2

/-- Helper: a code unit is a 16-bit value. -/
theorem get_code_unit_lt (LE : Bool) (buf : List Nat) (i : Nat) :
    get_code_unit LE buf i < 65536 := by
  rw [get_code_unit_eq]
  split_ifs <;> omega

/-- Helper: the UTF-16 decoder only ever returns Unicode scalar values. -/
theorem extract_utf16_is_scalar (LE : Bool) (bytes : List Nat) (pos : Nat) :
    is_scalar (extract_next_codepoint_from_utf16 LE bytes pos).1 := by
  have h1 := get_code_unit_lt LE bytes pos
  have h2 := get_code_unit_lt LE bytes (pos + 2)
  unfold extract_next_codepoint_from_utf16 is_scalar
  simp only [codepoint.invalid, Nat.shiftLeft_eq, Nat.reducePow]
  split_ifs with a b c <;> simp only [] <;> omega

/-- Helper: the UTF-8 decoder rejects a lead byte of the form 11111xxx. -/
theorem extract_UTF8_F8 (bytes : List Nat) (pos a : Nat) (ha : a < 8)
    (h0 : byte_at bytes pos = 248 + a) :
    extract_codepoint_UTF8 bytes pos = (codepoint.invalid, pos + 1) := by
  unfold extract_codepoint_UTF8
  simp only [h0, and_0x80, and_0xC0, and_0xE0, and_0xF0, and_0xF8]
  have e1 : ¬ ((248 + a) % 256 / 128 * 128 = 0) := by omega
  have e2 : ¬ ((248 + a) % 256 / 32 * 32 = 192) := by omega
  have e3 : ¬ ((248 + a) % 256 / 16 * 16 = 224) := by omega
  have e4 : ¬ ((248 + a) % 256 / 8 * 8 = 240) := by omega
  simp only [e1, e2, e3, e4, false_and, and_false, if_false]

/-- Helper: above 0x1FFFFF the UTF-8 encoder drops the high bits, so decoding its output
never gives the code point back. -/
theorem extract_append_UTF8_large (cp : Nat) (h : 0x200000 ≤ cp) :
    (extract_codepoint_UTF8 (append_codepoint_UTF8 cp []) 0).1 ≠ cp := by
  rw [append_codepoint_UTF8_eq]
  have n1 : ¬ cp < 0x80 := by omega
  have n2 : ¬ cp < 0x800 := by omega
  have n3 : ¬ cp < 0x10000 := by omega
  simp only [if_neg n1, if_neg n2, if_neg n3, List.nil_append]
  have b0 := byte_at_after []
    [240 + cp / 262144 % 16, 128 + cp / 4096 % 64, 128 + cp / 64 % 64, 128 + cp % 64] 0
  have b1 := byte_at_after []
    [240 + cp / 262144 % 16, 128 + cp / 4096 % 64, 128 + cp / 64 % 64, 128 + cp % 64] 1
  have b2 := byte_at_after []
    [240 + cp / 262144 % 16, 128 + cp / 4096 % 64, 128 + cp / 64 % 64, 128 + cp % 64] 2
  have b3 := byte_at_after []
    [240 + cp / 262144 % 16, 128 + cp / 4096 % 64, 128 + cp / 64 % 64, 128 + cp % 64] 3
  simp only [List.nil_append, List.length_nil, Nat.zero_add, List.getD_cons_zero,
    List.getD_cons_succ] at b0 b1 b2 b3
  by_cases hh : cp / 262144 % 16 < 8
  · rw [extract_UTF8_4 _ 0 (cp / 262144 % 16) (cp / 4096 % 64) (cp / 64 % 64) (cp % 64)
      (by simp) hh (by omega) (by omega) (by omega) b0 b1 b2 b3]
    simp only []
    omega
  · rw [extract_UTF8_F8 _ 0 (cp / 262144 % 16 - 8) (by omega) (by rw [b0]; omega)]
    simp only [codepoint.invalid]
    omega

/-- Helper: a surrogate code point written by the UTF-16 encoders decodes to U+FFFD. -/
theorem extract_append_UTF16_surrogate (cp : Nat) (h1 : 0xD800 ≤ cp) (h2 : cp < 0xE000) :
    extract_next_codepoint_from_utf16 true (append_codepoint_UTF16LE cp []) 0
      = (codepoint.invalid, 2)
    ∧ extract_next_codepoint_from_utf16 false (append_codepoint_UTF16BE cp []) 0
      = (codepoint.invalid, 2) := by
  rw [(append_codepoint_UTF16_eq cp []).1, (append_codepoint_UTF16_eq cp []).2]
  have hb : cp < 0x10000 := by omega
  simp only [if_pos hb, List.nil_append]
  have u1 := get_code_unit_LE_after [] [] cp hb
  have u2 := get_code_unit_BE_after [] [] cp hb
  simp only [List.nil_append, List.length_nil] at u1 u2
  constructor
  · exact extract_utf16_invalid true _ 0 (by rw [u1]; exact h1) (by rw [u1]; exact h2)
      (Or.inr (Or.inl (by simp)))
  · exact extract_utf16_invalid false _ 0 (by rw [u2]; exact h1) (by rw [u2]; exact h2)
      (Or.inr (Or.inl (by simp)))

/-! ## Claims C1 to C4 : one code point -/

/-- C1, as stated, fails: the surrogate U+D800 written as UTF-16LE decodes to U+FFFD, and
the 32-bit value 0x200000 written as UTF-8 decodes to U+FFFD. -/
theorem C1_round_trip_counterexample :
    (0xD800 < 2 ^ 32
      ∧ (extract_codepoint Enc.UTF16LE (append_codepoint Enc.UTF16LE 0xD800 []) 0).1 ≠ 0xD800)
    ∧ (0x200000 < 2 ^ 32
      ∧ (extract_codepoint Enc.UTF8 (append_codepoint Enc.UTF8 0x200000 []) 0).1 ≠ 0x200000) := by
  decide

/-- C1, amended: for a 32-bit value `cp`, appending `cp` with `append_codepoint<E>` to an
empty buffer and extracting at position 0 returns `cp` exactly when `cp < 0x200000` for
UTF-8, when `cp` is a Unicode scalar value for UTF-16LE/BE, and always for UTF-32LE/BE. -/
theorem C1_round_trip_iff (E : Enc) (cp : Nat) (h32 : cp < 2 ^ 32) :
    (extract_codepoint E (append_codepoint E cp []) 0).1 = cp ↔
      (match E with
       | Enc.UTF8 => cp < 0x200000
       | Enc.UTF16LE => is_scalar cp
       | Enc.UTF16BE => is_scalar cp
       | Enc.UTF32LE => True
       | Enc.UTF32BE => True) := by
  cases E
  · simp only [extract_codepoint, append_codepoint]
    constructor
    · intro h
      by_contra hc
      exact extract_append_UTF8_large cp (by omega) h
    · intro h
      have key := extract_append_UTF8 cp h [] []
      simp only [List.append_nil, List.length_nil] at key
      rw [key]
  · simp only [extract_codepoint, append_codepoint]
    constructor
    · intro h
      have hs := extract_utf16_is_scalar true (append_codepoint_UTF16LE cp []) 0
      rw [h] at hs
      exact hs
    · intro h
      have key := extract_append Enc.UTF16LE cp [] [] h
      simp only [List.append_nil, List.length_nil, extract_codepoint, append_codepoint] at key
      rw [key]
  · simp only [extract_codepoint, append_codepoint]
    constructor
    · intro h
      have hs := extract_utf16_is_scalar false (append_codepoint_UTF16BE cp []) 0
      rw [h] at hs
      exact hs
    · intro h
      have key := extract_append Enc.UTF16BE cp [] [] h
      simp only [List.append_nil, List.length_nil, extract_codepoint, append_codepoint] at key
      rw [key]
  · simp only [extract_codepoint, append_codepoint, iff_true]
    have key := (extract_append_UTF32 cp (by omega) [] []).1
    simp only [List.append_nil, List.length_nil] at key
    rw [key]
  · simp only [extract_codepoint, append_codepoint, iff_true]
    have key := (extract_append_UTF32 cp (by omega) [] []).2
    simp only [List.append_nil, List.length_nil] at key
    rw [key]

/-- Witness of C1 (amended) at U+1F34C in UTF-16LE. -/
theorem C1_round_trip_iff_witness :
    0x1F34C < 2 ^ 32 ∧
    ((extract_codepoint Enc.UTF16LE (append_codepoint Enc.UTF16LE 0x1F34C []) 0).1 = 0x1F34C
      ↔ is_scalar 0x1F34C) :=
  ⟨by decide, C1_round_trip_iff Enc.UTF16LE 0x1F34C (by decide)⟩

/-- C2: for every `cp < 0x200000`, `append_codepoint<UTF8>` pushes exactly 1, 2, 3 or 4
bytes after the existing output, according to `cp < 0x80`, `cp < 0x800`, `cp < 0x10000`,
otherwise; and `extract_codepoint<UTF8>` at the start of those bytes, whatever bytes
follow them, returns `cp` and advances the position by exactly the number of bytes
pushed. -/
theorem C2_utf8_ladder_round_trip (cp : Nat) (h : cp < 0x200000) (out rest : List Nat) :
    (append_codepoint Enc.UTF8 cp out).length = out.length +
        (if cp < 0x80 then 1 else if cp < 0x800 then 2 else if cp < 0x10000 then 3 else 4)
    ∧ (append_codepoint Enc.UTF8 cp out).take out.length = out
    ∧ extract_codepoint Enc.UTF8 (append_codepoint Enc.UTF8 cp out ++ rest) out.length
        = (cp, out.length +
            (if cp < 0x80 then 1 else if cp < 0x800 then 2 else if cp < 0x10000 then 3 else 4)) := by
  refine ⟨append_codepoint_UTF8_length cp out, ?_, ?_⟩
  · rw [append_codepoint_eq_append]
    simp
  · have key := extract_append Enc.UTF8 cp out rest h
    rw [key]
    simp only [append_codepoint, append_codepoint_UTF8_length]

/-- Witness of C2 at U+27F6, the three-byte sequence E2 9F B6, followed by one more byte. -/
theorem C2_utf8_ladder_round_trip_witness :
    0x27F6 < 0x200000 ∧
    ((append_codepoint Enc.UTF8 0x27F6 []).length = ([] : List Nat).length +
        (if 0x27F6 < 0x80 then 1 else if 0x27F6 < 0x800 then 2
          else if 0x27F6 < 0x10000 then 3 else 4)
    ∧ (append_codepoint Enc.UTF8 0x27F6 []).take ([] : List Nat).length = []
    ∧ extract_codepoint Enc.UTF8 (append_codepoint Enc.UTF8 0x27F6 [] ++ [0x41])
        ([] : List Nat).length
        = (0x27F6, ([] : List Nat).length +
            (if 0x27F6 < 0x80 then 1 else if 0x27F6 < 0x800 then 2
              else if 0x27F6 < 0x10000 then 3 else 4))) :=
  ⟨by decide, C2_utf8_ladder_round_trip 0x27F6 (by decide) [] [0x41]⟩

/-- C3: for a Unicode scalar value `cp`, in both byte orders: when `cp >= 0x10000` the
UTF-16 encoder emits the 4 bytes of `lead = ((cp-0x10000)>>10)+0xD800` (a leading
surrogate) and `trail = ((cp-0x10000)&0x3FF)+0xDC00` (a trailing surrogate) in the byte
order of the encoding, and the decoder returns `cp` consuming the 4 bytes; when
`cp < 0x10000` it emits 2 bytes and the decoder returns `cp` consuming 2. -/
theorem C3_utf16_surrogate_round_trip (cp : Nat) (h : is_scalar cp) :
    if cp < 0x10000 then
      (append_codepoint Enc.UTF16LE cp []).length = 2
      ∧ (append_codepoint Enc.UTF16BE cp []).length = 2
      ∧ extract_codepoint Enc.UTF16LE (append_codepoint Enc.UTF16LE cp []) 0 = (cp, 2)
      ∧ extract_codepoint Enc.UTF16BE (append_codepoint Enc.UTF16BE cp []) 0 = (cp, 2)
    else
      0xD800 ≤ ((cp - 0x10000) >>> 10) + 0xD800 ∧ ((cp - 0x10000) >>> 10) + 0xD800 < 0xDC00
      ∧ 0xDC00 ≤ ((cp - 0x10000) &&& 0x3FF) + 0xDC00
      ∧ ((cp - 0x10000) &&& 0x3FF) + 0xDC00 < 0xE000
      ∧ append_codepoint Enc.UTF16LE cp []
          = [(((cp - 0x10000) >>> 10) + 0xD800) % 256, (((cp - 0x10000) >>> 10) + 0xD800) / 256,
             (((cp - 0x10000) &&& 0x3FF) + 0xDC00) % 256,
             (((cp - 0x10000) &&& 0x3FF) + 0xDC00) / 256]
      ∧ append_codepoint Enc.UTF16BE cp []
          = [(((cp - 0x10000) >>> 10) + 0xD800) / 256, (((cp - 0x10000) >>> 10) + 0xD800) % 256,
             (((cp - 0x10000) &&& 0x3FF) + 0xDC00) / 256,
             (((cp - 0x10000) &&& 0x3FF) + 0xDC00) % 256]
      ∧ extract_codepoint Enc.UTF16LE (append_codepoint Enc.UTF16LE cp []) 0 = (cp, 4)
      ∧ extract_codepoint Enc.UTF16BE (append_codepoint Enc.UTF16BE cp []) 0 = (cp, 4) := by
  have kLE := extract_append Enc.UTF16LE cp [] [] h
  have kBE := extract_append Enc.UTF16BE cp [] [] h
  have lLE := append_codepoint_length Enc.UTF16LE cp []
  have lBE := append_codepoint_length Enc.UTF16BE cp []
  simp only [List.append_nil, List.length_nil, Nat.zero_add] at kLE kBE lLE lBE
  unfold is_scalar at h
  split_ifs with hb
  · simp only [if_pos hb] at lLE lBE
    rw [kLE, kBE, lLE, lBE]
    simp only [and_self]
  · simp only [if_neg hb] at lLE lBE
    rw [kLE, kBE, lLE, lBE]
    simp only [and_0x3FF, Nat.shiftRight_eq_div_pow, Nat.reducePow, and_true]
    refine ⟨by omega, by omega, by omega, by omega, ?_, ?_⟩
    · simp only [append_codepoint, (append_codepoint_UTF16_eq cp []).1, if_neg hb,
        encode_as_utf16_eq cp (by omega) (by omega), List.nil_append, List.cons.injEq, and_true,
        true_and]
      omega
    · simp only [append_codepoint, (append_codepoint_UTF16_eq cp []).2, if_neg hb,
        encode_as_utf16_eq cp (by omega) (by omega), List.nil_append, List.cons.injEq, and_true,
        true_and]
      omega

/-- Witness of C3: U+1F34C in UTF-16LE is 3C D8 4C DF and decodes back to U+1F34C. -/
theorem C3_utf16_surrogate_round_trip_witness :
    is_scalar 0x1F34C
    ∧ append_codepoint Enc.UTF16LE 0x1F34C [] = [0x3C, 0xD8, 0x4C, 0xDF]
    ∧ extract_codepoint Enc.UTF16LE [0x3C, 0xD8, 0x4C, 0xDF] 0 = (0x1F34C, 4) := by
  have h := C3_utf16_surrogate_round_trip 0x1F34C (by decide)
  rw [if_neg (by decide)] at h
  have e : append_codepoint Enc.UTF16LE 0x1F34C [] = [0x3C, 0xD8, 0x4C, 0xDF] :=
    h.2.2.2.2.1.trans (by decide)
  refine ⟨by decide, e, ?_⟩
  rw [← e]
  exact h.2.2.2.2.2.2.1

/-- C4: UTF-32 is an unvalidated bijection between 32-bit values and 4-byte groups.  For
every 32-bit `cp` the encoders push exactly the 4 bytes of `cp` in their byte order, the
decoders give `cp` back and advance by 4, whatever precedes and follows; conversely for any
four bytes, re-encoding what the decoder returns reproduces the four bytes. -/
theorem C4_utf32_bijection (cp : Nat) (h : cp < 2 ^ 32) (out rest : List Nat)
    (b0 b1 b2 b3 : Nat) (h0 : b0 < 256) (h1 : b1 < 256) (h2 : b2 < 256) (h3 : b3 < 256) :
    append_codepoint Enc.UTF32LE cp out
        = out ++ [cp % 256, cp / 256 % 256, cp / 65536 % 256, cp / 16777216]
    ∧ append_codepoint Enc.UTF32BE cp out
        = out ++ [cp / 16777216, cp / 65536 % 256, cp / 256 % 256, cp % 256]
    ∧ extract_codepoint Enc.UTF32LE (append_codepoint Enc.UTF32LE cp out ++ rest) out.length
        = (cp, out.length + 4)
    ∧ extract_codepoint Enc.UTF32BE (append_codepoint Enc.UTF32BE cp out ++ rest) out.length
        = (cp, out.length + 4)
    ∧ append_codepoint Enc.UTF32LE (extract_codepoint Enc.UTF32LE [b0, b1, b2, b3] 0).1 []
        = [b0, b1, b2, b3]
    ∧ append_codepoint Enc.UTF32BE (extract_codepoint Enc.UTF32BE [b0, b1, b2, b3] 0).1 []
        = [b0, b1, b2, b3] := by
  have h32 : cp < 0x100000000 := by
    simp only [Nat.reducePow] at h
    exact h
  refine ⟨?_, ?_, (extract_append_UTF32 cp h32 out rest).1, (extract_append_UTF32 cp h32 out rest).2,
    ?_, ?_⟩
  · simp only [append_codepoint, (append_codepoint_UTF32_eq cp out).1,
      List.append_cancel_left_eq, List.cons.injEq, and_true, true_and]
    omega
  · simp only [append_codepoint, (append_codepoint_UTF32_eq cp out).2,
      List.append_cancel_left_eq, List.cons.injEq, and_true, true_and]
    omega
  · simp only [append_codepoint, extract_codepoint, extract_codepoint_UTF32LE,
      (append_codepoint_UTF32_eq _ []).1, combine_chars_4_eq, byte_at, List.getD_cons_zero,
      List.getD_cons_succ, Nat.zero_add, List.nil_append, List.cons.injEq, and_true]
    omega
  · simp only [append_codepoint, extract_codepoint, extract_codepoint_UTF32BE,
      (append_codepoint_UTF32_eq _ []).2, combine_chars_4_eq, byte_at, List.getD_cons_zero,
      List.getD_cons_succ, Nat.zero_add, List.nil_append, List.cons.injEq, and_true]
    omega

/-- Witness of C4 at U+1F34C, whose UTF-32 bytes are 4C F3 01 00. -/
theorem C4_utf32_bijection_witness :
    (0x1F34C < 2 ^ 32 ∧ 0x4C < 256 ∧ 0xF3 < 256 ∧ 0x01 < 256 ∧ 0x00 < 256)
    ∧ append_codepoint Enc.UTF32LE 0x1F34C [] = [0x4C, 0xF3, 0x01, 0x00]
    ∧ append_codepoint Enc.UTF32BE 0x1F34C [] = [0x00, 0x01, 0xF3, 0x4C]
    ∧ extract_codepoint Enc.UTF32LE (append_codepoint Enc.UTF32LE 0x1F34C [] ++ []) 0
        = (0x1F34C, 4)
    ∧ extract_codepoint Enc.UTF32BE (append_codepoint Enc.UTF32BE 0x1F34C [] ++ []) 0
        = (0x1F34C, 4)
    ∧ append_codepoint Enc.UTF32LE (extract_codepoint Enc.UTF32LE [0x4C, 0xF3, 0x01, 0x00] 0).1 []
        = [0x4C, 0xF3, 0x01, 0x00]
    ∧ append_codepoint Enc.UTF32BE (extract_codepoint Enc.UTF32BE [0x4C, 0xF3, 0x01, 0x00] 0).1 []
        = [0x4C, 0xF3, 0x01, 0x00] :=
  ⟨by decide, C4_utf32_bijection 0x1F34C (by decide) [] [] 0x4C 0xF3 0x01 0x00
    (by decide) (by decide) (by decide) (by decide)⟩

/-! ## Claims C7 and C8 : the BOM detector -/

/-- C7: on every byte buffer `detect_encoding_of` equals the detection table (at most 2
bytes give (UTF-8, 0), otherwise the first matching row wins); and the 13 literal cases
of the test `detect_encoding_of`. -/
theorem C7_detect_equals_table :
    (∀ bytes : List Nat, detect_encoding_of bytes = detect_table bytes)
    ∧ detect_encoding_of [0xEF, 0xBB, 0xBF, 0x20, 0x62, 0x6C, 0x61, 0x68] = ⟨Enc.UTF8, 3⟩
    ∧ detect_encoding_of [0x62, 0x6C, 0x61, 0x68, 0x20, 0x62, 0x6C, 0x61, 0x68] = ⟨Enc.UTF8, 0⟩
    ∧ detect_encoding_of [0xEF, 0xBB] = ⟨Enc.UTF8, 0⟩
    ∧ detect_encoding_of [] = ⟨Enc.UTF8, 0⟩
    ∧ detect_encoding_of [0xFF, 0xFE, 0x20, 0x62, 0x6C, 0x61, 0x68] = ⟨Enc.UTF16LE, 2⟩
    ∧ detect_encoding_of [0xFF, 0x20, 0x62, 0x6C, 0x61, 0x68] = ⟨Enc.UTF8, 0⟩
    ∧ detect_encoding_of [0xFE, 0xFF, 0x20, 0x62, 0x6C, 0x61, 0x68] = ⟨Enc.UTF16BE, 2⟩
    ∧ detect_encoding_of [0xFE, 0x20, 0x62, 0x6C, 0x61, 0x68] = ⟨Enc.UTF8, 0⟩
    ∧ detect_encoding_of [0xFF, 0xFE, 0x00, 0x00, 0x20, 0x62, 0x6C, 0x61, 0x68]
        = ⟨Enc.UTF32LE, 4⟩
    ∧ detect_encoding_of [0xFF, 0xFE, 0x00, 0x20, 0x62, 0x6C, 0x61, 0x68] = ⟨Enc.UTF16LE, 2⟩
    ∧ detect_encoding_of [0x00, 0x00, 0xFE, 0xFF, 0x20, 0x62, 0x6C, 0x61, 0x68]
        = ⟨Enc.UTF32BE, 4⟩
    ∧ detect_encoding_of [0x00, 0x00, 0xFE, 0x20, 0x62, 0x6C, 0x61, 0x68] = ⟨Enc.UTF8, 0⟩
    ∧ detect_encoding_of [0x00, 0xFE, 0xFF, 0x20, 0x62, 0x6C, 0x61, 0x68] = ⟨Enc.UTF8, 0⟩ := by
  refine ⟨?_, by decide, by decide, by decide, by decide, by decide, by decide, by decide,
    by decide, by decide, by decide, by decide, by decide, by decide⟩
  intro bytes
  rcases bytes with _ | ⟨a, _ | ⟨b, _ | ⟨c, _ | ⟨d, rest⟩⟩⟩⟩
  · decide
  · simp [detect_encoding_of, detect_table]
  · simp [detect_encoding_of, detect_table]
  · simp only [detect_encoding_of, detect_table, byte_at, List.getD_cons_zero,
      List.getD_cons_succ, List.length_cons, List.length_nil, List.cons_prefix_cons,
      List.nil_prefix, List.prefix_nil, and_true, reduceCtorEq, and_false, if_false,
      @eq_comm ℕ 255, @eq_comm ℕ 254, @eq_comm ℕ 0, @eq_comm ℕ 239, @eq_comm ℕ 187,
      @eq_comm ℕ 191]
    split_ifs <;> first | rfl | (exfalso; omega)
  · simp only [detect_encoding_of, detect_table, byte_at, List.getD_cons_zero,
      List.getD_cons_succ, List.length_cons, List.cons_prefix_cons,
      List.nil_prefix, and_true,
      @eq_comm ℕ 255, @eq_comm ℕ 254, @eq_comm ℕ 0, @eq_comm ℕ 239, @eq_comm ℕ 187,
      @eq_comm ℕ 191]
    split_ifs <;> first | rfl | (exfalso; omega)

/-- C8, as stated, fails: the buffer that is exactly FF FE begins with FF FE, is not a
full FF FE 00 00, and is detected as (UTF-8, 0), not (UTF-16LE, 2). -/
theorem C8_tie_break_counterexample :
    [0xFF, 0xFE] <+: [0xFF, 0xFE] ∧ ¬ ([0xFF, 0xFE, 0x00, 0x00] <+: [0xFF, 0xFE])
    ∧ detect_encoding_of [0xFF, 0xFE] = ⟨Enc.UTF8, 0⟩
    ∧ detect_encoding_of [0xFF, 0xFE] ≠ ⟨Enc.UTF16LE, 2⟩ := by
  decide

/-- C8, amended: a buffer that begins with FF FE and is not a full FF FE 00 00 is detected
as (UTF-16LE, 2) as soon as it holds at least 3 bytes (only 3 bytes available, or bytes
3-4 not 00 00); the buffer that is exactly FF FE is below the 3-byte minimum of the
detector and gets the fallback (UTF-8, 0). -/
theorem C8_tie_break (bytes : List Nat) (h1 : [0xFF, 0xFE] <+: bytes)
    (h2 : ¬ ([0xFF, 0xFE, 0x00, 0x00] <+: bytes)) :
    detect_encoding_of bytes
      = if bytes.length = 2 then ⟨Enc.UTF8, 0⟩ else ⟨Enc.UTF16LE, 2⟩ := by
  rcases bytes with _ | ⟨a, _ | ⟨b, _ | ⟨c, _ | ⟨d, rest⟩⟩⟩⟩
  · simp at h1
  · simp at h1
  · simp [detect_encoding_of]
  · simp only [List.cons_prefix_cons, List.nil_prefix, and_true] at h1
    simp only [detect_encoding_of, byte_at, List.getD_cons_zero, List.getD_cons_succ,
      List.length_cons, List.length_nil]
    split_ifs <;> first | rfl | (exfalso; omega)
  · simp only [List.cons_prefix_cons, List.nil_prefix, and_true] at h1 h2
    simp only [detect_encoding_of, byte_at, List.getD_cons_zero, List.getD_cons_succ,
      List.length_cons]
    split_ifs <;> first | rfl | (exfalso; omega)

/-- Witness of C8 (amended) at the 3-byte buffer FF FE 00. -/
theorem C8_tie_break_witness :
    ([0xFF, 0xFE] <+: [0xFF, 0xFE, 0x00] ∧ ¬ ([0xFF, 0xFE, 0x00, 0x00] <+: [0xFF, 0xFE, 0x00]))
    ∧ detect_encoding_of [0xFF, 0xFE, 0x00]
      = if [0xFF, 0xFE, 0x00].length = 2 then ⟨Enc.UTF8, 0⟩ else ⟨Enc.UTF16LE, 2⟩ :=
  ⟨by decide, C8_tie_break [0xFF, 0xFE, 0x00] (by decide) (by decide)⟩

/-! ## The cursor loops -/

/-- Helper: one turn of the loop of `to_utf32`. -/
theorem to_utf32_loop_step (E : Enc) (buf : bytes_buffer_t) (acc : List Nat)
    (h : buf.has_codepoint E = true) :
    to_utf32_loop E buf acc
      = to_utf32_loop E (buf.extract_codepoint E).2 (push_back acc (buf.extract_codepoint E).1) := by
  rw [to_utf32_loop, dif_pos h]

/-- Helper: the loop of `to_utf32` stops when no full code point is left. -/
theorem to_utf32_loop_stop (E : Enc) (buf : bytes_buffer_t) (acc : List Nat)
    (h : buf.has_codepoint E = false) :
    to_utf32_loop E buf acc = (buf, acc) := by
  rw [to_utf32_loop, dif_neg (by simp [h])]

/-- Helper: one turn of the loop of `reencode`. -/
theorem reencode_loop_step (A B : Enc) (buf : bytes_buffer_t) (out : List Nat)
    (h : buf.has_codepoint A = true) :
    reencode_loop A B buf out
      = reencode_loop A B (buf.extract_codepoint A).2
          (append_codepoint B (buf.extract_codepoint A).1 out) := by
  rw [reencode_loop, dif_pos h]

/-- Helper: the loop of `reencode` stops when no full code point is left. -/
theorem reencode_loop_stop (A B : Enc) (buf : bytes_buffer_t) (out : List Nat)
    (h : buf.has_codepoint A = false) :
    reencode_loop A B buf out = (buf, out) := by
  rw [reencode_loop, dif_neg (by simp [h])]

/-- Helper: `has_codepoint` as a comparison of the offset with the length. -/
theorem has_codepoint_iff (E : Enc) (bytes : List Nat) (pos : Nat) :
    bytes_buffer_t.has_codepoint E ⟨bytes, pos⟩ = true ↔
      pos + (match E with
             | Enc.UTF8 => 1
             | Enc.UTF16LE => 2
             | Enc.UTF16BE => 2
             | Enc.UTF32LE => 4
             | Enc.UTF32BE => 4) ≤ bytes.length := by
  cases E <;> simp [bytes_buffer_t.has_codepoint] <;> omega

/-- Helper: an extraction under `has_codepoint` shortens what is left of the buffer. -/
theorem extract_codepoint_measure (E : Enc) (buf : bytes_buffer_t)
    (h : buf.has_codepoint E = true) :
    (buf.extract_codepoint E).2.m_byte_buf = buf.m_byte_buf
    ∧ (buf.extract_codepoint E).2.m_byte_buf.length
        - (buf.extract_codepoint E).2.m_current_byte_offset
      < buf.m_byte_buf.length - buf.m_current_byte_offset := by
  have h1 : buf.m_current_byte_offset < buf.m_byte_buf.length := by
    have := (has_codepoint_iff E buf.m_byte_buf buf.m_current_byte_offset).1 h
    cases E <;> simp only [] at this <;> omega
  have h2 : buf.m_current_byte_offset
      < (extract_codepoint E buf.m_byte_buf buf.m_current_byte_offset).2 := by
    cases E <;>
      simp only [extract_codepoint, extract_codepoint_UTF8, extract_next_codepoint_from_utf16,
        extract_codepoint_UTF32LE, extract_codepoint_UTF32BE] <;>
      first | omega | (split_ifs <;> omega)
  simp only [bytes_buffer_t.extract_codepoint, true_and]
  omega

/-- Helper: encoding a sequence extended by one code point. -/
theorem encode_as_push_back (B : Enc) (l : List Nat) (c : Nat) :
    encode_as B (push_back l c) = append_codepoint B c (encode_as B l) := by
  simp only [encode_as, push_back, List.foldl_append, List.foldl_cons, List.foldl_nil]

/-- Helper: the loop of `reencode` is the loop of `to_utf32` followed by the encoder. -/
theorem reencode_loop_eq (A B : Enc) (n : Nat) :
    ∀ (buf : bytes_buffer_t) (acc : List Nat),
      buf.m_byte_buf.length - buf.m_current_byte_offset = n →
      reencode_loop A B buf (encode_as B acc)
        = ((to_utf32_loop A buf acc).1, encode_as B (to_utf32_loop A buf acc).2) := by
  induction n using Nat.strong_induction_on with
  | _ n ih =>
    intro buf acc hn
    by_cases h : buf.has_codepoint A = true
    · rw [reencode_loop_step A B buf _ h, to_utf32_loop_step A buf acc h,
        ← encode_as_push_back]
      have hm := (extract_codepoint_measure A buf h).2
      exact ih _ (by omega) _ _ rfl
    · have h0 : buf.has_codepoint A = false := by simpa using h
      rw [reencode_loop_stop A B buf _ h0, to_utf32_loop_stop A buf acc h0]

/-- Helper: the fused pipeline equals decode-then-encode. -/
theorem reencode_eq_encode_as_to_utf32 (A B : Enc) (b : List Nat) :
    reencode A B b = encode_as B (to_utf32 A b) := by
  have h := reencode_loop_eq A B _ (bytes_buffer_t.init b) [] rfl
  have e : encode_as B [] = [] := rfl
  rw [e] at h
  simp only [reencode, to_utf32, h]
  split_ifs
  · rw [encode_as_push_back]
  · rfl

/-- Helper: what the encoder appends to a non-empty output. -/
theorem foldl_append_codepoint (B : Enc) (s : List Nat) (out : List Nat) :
    s.foldl (fun out_bytes codepoint => append_codepoint B codepoint out_bytes) out
      = out ++ encode_as B s := by
  induction s generalizing out with
  | nil => simp [encode_as]
  | cons c s ih =>
    simp only [encode_as, List.foldl_cons]
    rw [ih, ih (append_codepoint B c []), append_codepoint_eq_append B c out,
      List.append_assoc]

/-- Helper: the encoding of a sequence is the concatenation of the encodings. -/
theorem encode_as_append (B : Enc) (s t : List Nat) :
    encode_as B (s ++ t) = encode_as B s ++ encode_as B t := by
  simp only [encode_as, List.foldl_append]
  rw [foldl_append_codepoint]
  rfl

/-- Helper: the encoding of a sequence that starts with `c`. -/
theorem encode_as_cons (B : Enc) (c : Nat) (s : List Nat) :
    encode_as B (c :: s) = append_codepoint B c [] ++ encode_as B s := by
  have h := encode_as_append B [c] s
  simpa [encode_as] using h

/-- Helper: a Unicode scalar value is in the faithful domain of every encoding. -/
theorem is_scalar_faithful (E : Enc) (cp : Nat) (h : is_scalar cp) :
    match E with
    | Enc.UTF8 => cp < 0x200000
    | Enc.UTF16LE => is_scalar cp
    | Enc.UTF16BE => is_scalar cp
    | Enc.UTF32LE => cp < 0x100000000
    | Enc.UTF32BE => cp < 0x100000000 := by
  cases E
  · simp only []; unfold is_scalar at h; omega
  · exact h
  · exact h
  · simp only []; unfold is_scalar at h; omega
  · simp only []; unfold is_scalar at h; omega

/-- Helper: every encoder appends at least one full unit of its encoding. -/
theorem append_codepoint_has_codepoint (E : Enc) (cp : Nat) (out rest : List Nat) :
    bytes_buffer_t.has_codepoint E ⟨append_codepoint E cp out ++ rest, out.length⟩ = true := by
  rw [has_codepoint_iff]
  have hl := append_codepoint_length E cp out
  rw [List.length_append, hl]
  cases E <;> simp only [] <;> first | omega | (split_ifs <;> omega)

/-- Helper: the loop of `to_utf32` over the encoding of scalar values, started right
before them, yields them and ends at the end of the buffer. -/
theorem to_utf32_loop_encode_as (E : Enc) (s : List Nat) (hs : ∀ c ∈ s, is_scalar c) :
    ∀ (out acc : List Nat),
      to_utf32_loop E ⟨out ++ encode_as E s, out.length⟩ acc
        = (⟨out ++ encode_as E s, (out ++ encode_as E s).length⟩, acc ++ s) := by
  induction s with
  | nil =>
    intro out acc
    have e : encode_as E [] = [] := rfl
    rw [e, to_utf32_loop_stop]
    · simp
    · rw [Bool.eq_false_iff]
      intro hc
      have := (has_codepoint_iff E _ _).1 hc
      cases E <;> simp at this
  | cons c s ih =>
    intro out acc
    have hc : is_scalar c := hs c (List.mem_cons_self c s)
    have hs2 : ∀ x ∈ s, is_scalar x := fun x hx => hs x (List.mem_cons_of_mem c hx)
    have eb : out ++ encode_as E (c :: s) = append_codepoint E c out ++ encode_as E s := by
      rw [encode_as_cons, append_codepoint_eq_append E c out, List.append_assoc]
    rw [eb, to_utf32_loop_step E _ _ (append_codepoint_has_codepoint E c out (encode_as E s))]
    simp only [bytes_buffer_t.extract_codepoint,
      extract_append E c out (encode_as E s) (is_scalar_faithful E c hc)]
    rw [ih hs2 (append_codepoint E c out) (push_back acc c)]
    simp [push_back]

/-- Helper: decoding the encoding of scalar values gives them back. -/
theorem to_utf32_encode_as (E : Enc) (s : List Nat) (hs : ∀ c ∈ s, is_scalar c) :
    to_utf32 E (encode_as E s) = s := by
  have h := to_utf32_loop_encode_as E s hs [] []
  simp only [List.nil_append, List.length_nil] at h
  simp only [to_utf32, bytes_buffer_t.init, h, bytes_buffer_t.has_bytes, lt_self_iff_false,
    decide_False, Bool.false_eq_true, if_false]

/-! ## Claims C5 and C6 : sequences -/

/-- C5: for every encoding `E` and every sequence `s` of Unicode scalar values (possibly
empty), `to_utf32<E>(encode_as<E>(s)) == s`; in particular `to_utf32(to_utf8(s)) == s`,
and the result holds a replacement code point only where `s` does. -/
theorem C5_sequence_round_trip (E : Enc) (s : List Nat) (hs : ∀ c ∈ s, is_scalar c) :
    to_utf32 E (encode_as E s) = s
    ∧ to_utf32 Enc.UTF8 (to_utf8 s) = s
    ∧ (to_utf32 E (encode_as E s)).count codepoint.invalid = s.count codepoint.invalid := by
  have h := to_utf32_encode_as E s hs
  refine ⟨h, to_utf32_encode_as Enc.UTF8 s hs, ?_⟩
  rw [h]

/-- Witness of C5 on the text of the tests `to_utf8` and `to_utf32`, U+0061 U+00E0
U+27F6 U+2665 U+266B, in UTF-16BE. -/
theorem C5_sequence_round_trip_witness :
    (∀ c ∈ [0x61, 0xE0, 0x27F6, 0x2665, 0x266B], is_scalar c)
    ∧ (to_utf32 Enc.UTF16BE (encode_as Enc.UTF16BE [0x61, 0xE0, 0x27F6, 0x2665, 0x266B])
        = [0x61, 0xE0, 0x27F6, 0x2665, 0x266B]
      ∧ to_utf32 Enc.UTF8 (to_utf8 [0x61, 0xE0, 0x27F6, 0x2665, 0x266B])
        = [0x61, 0xE0, 0x27F6, 0x2665, 0x266B]
      ∧ (to_utf32 Enc.UTF16BE
          (encode_as Enc.UTF16BE [0x61, 0xE0, 0x27F6, 0x2665, 0x266B])).count codepoint.invalid
        = [0x61, 0xE0, 0x27F6, 0x2665, 0x266B].count codepoint.invalid) :=
  ⟨by decide, C5_sequence_round_trip Enc.UTF16BE [0x61, 0xE0, 0x27F6, 0x2665, 0x266B]
    (by decide)⟩

/-- C6: for every sequence `s` of Unicode scalar values and every ordered pair `(A,B)` of
the five encodings, `reencode<A,B>(encode_as<A>(s)) == encode_as<B>(s)`; for `A = B`,
`reencode<E,E>` is the identity on `encode_as<E>(s)`. -/
theorem C6_cross_encoding (A B : Enc) (s : List Nat) (hs : ∀ c ∈ s, is_scalar c) :
    reencode A B (encode_as A s) = encode_as B s
    ∧ reencode A A (encode_as A s) = encode_as A s := by
  rw [reencode_eq_encode_as_to_utf32, reencode_eq_encode_as_to_utf32, to_utf32_encode_as A s hs]
  exact ⟨rfl, rfl⟩

/-- Witness of C6 on the text U+0020 U+0061 U+0062 of the test `encode_as<>(bytes)`, from
UTF-16LE to UTF-8. -/
theorem C6_cross_encoding_witness :
    (∀ c ∈ [0x20, 0x61, 0x62], is_scalar c)
    ∧ (reencode Enc.UTF16LE Enc.UTF8 (encode_as Enc.UTF16LE [0x20, 0x61, 0x62])
        = encode_as Enc.UTF8 [0x20, 0x61, 0x62]
      ∧ reencode Enc.UTF16LE Enc.UTF16LE (encode_as Enc.UTF16LE [0x20, 0x61, 0x62])
        = encode_as Enc.UTF16LE [0x20, 0x61, 0x62]) :=
  ⟨by decide, C6_cross_encoding Enc.UTF16LE Enc.UTF8 [0x20, 0x61, 0x62] (by decide)⟩

/-! ## Claim C9 : a truncated UTF-8 sequence -/

/-- Helper: the loop of `to_utf32<UTF8>` on the buffer E2 9F makes two turns, each
yielding U+FFFD and advancing by one byte. -/
theorem to_utf32_loop_E2_9F :
    to_utf32_loop Enc.UTF8 (bytes_buffer_t.init [0xE2, 0x9F]) []
      = (⟨[0xE2, 0x9F], 2⟩, [0xFFFD, 0xFFFD]) := by
  have s1 : (bytes_buffer_t.init [0xE2, 0x9F]).extract_codepoint Enc.UTF8
      = (0xFFFD, ⟨[0xE2, 0x9F], 1⟩) := by decide
  have s2 : (bytes_buffer_t.extract_codepoint Enc.UTF8 ⟨[0xE2, 0x9F], 1⟩)
      = (0xFFFD, ⟨[0xE2, 0x9F], 2⟩) := by decide
  rw [to_utf32_loop_step _ _ _ (by decide), s1, to_utf32_loop_step _ _ _ (by decide), s2,
    to_utf32_loop_stop _ _ _ (by decide)]
  rfl

/-- C9, as stated, fails: decoding E2 9F as UTF-8 does not yield exactly one replacement
code point, it yields two. -/
theorem C9_truncated_utf8_counterexample :
    to_utf32 Enc.UTF8 [0xE2, 0x9F] ≠ [0xFFFD]
    ∧ (to_utf32 Enc.UTF8 [0xE2, 0x9F]).count 0xFFFD = 2 := by
  have h := to_utf32_loop_E2_9F
  simp only [to_utf32, h]
  decide

/-- C9, amended: decoding the two-byte buffer E2 9F as UTF-8 with the cursor loop yields
exactly two replacement code points U+FFFD, one per byte (the decoder resynchronises by one
byte), the cursor ends at offset 2, the end of the buffer, the end-of-input branch is not
taken, and `reencode<UTF8,UTF32LE>` gives the bytes of those two U+FFFD. -/
theorem C9_truncated_utf8 :
    to_utf32 Enc.UTF8 [0xE2, 0x9F] = [0xFFFD, 0xFFFD]
    ∧ (to_utf32_loop Enc.UTF8 (bytes_buffer_t.init [0xE2, 0x9F]) []).1.byte_pos = 2
    ∧ (to_utf32_loop Enc.UTF8 (bytes_buffer_t.init [0xE2, 0x9F]) []).1.has_bytes = false
    ∧ reencode Enc.UTF8 Enc.UTF32LE [0xE2, 0x9F]
        = [0xFD, 0xFF, 0x00, 0x00, 0xFD, 0xFF, 0x00, 0x00]
    ∧ reencode Enc.UTF8 Enc.UTF32BE [0xE2, 0x9F]
        = [0x00, 0x00, 0xFF, 0xFD, 0x00, 0x00, 0xFF, 0xFD] := by
  have h := to_utf32_loop_E2_9F
  have e : to_utf32 Enc.UTF8 [0xE2, 0x9F] = [0xFFFD, 0xFFFD] := by
    simp only [to_utf32, h]
    decide
  refine ⟨e, ?_, ?_, ?_, ?_⟩
  · rw [h]; rfl
  · rw [h]; rfl
  · rw [reencode_eq_encode_as_to_utf32, e]; decide
  · rw [reencode_eq_encode_as_to_utf32, e]; decide

/-! ## Claim C10 : a truncated trailing unit -/

/-- Helper: reading inside a known first segment. -/
theorem byte_at_append_left (p t : List Nat) (i : Nat) (h : i < p.length) :
    byte_at (p ++ t) i = byte_at p i := by
  unfold byte_at
  exact List.getD_append _ _ _ _ h

/-- Helper: a code unit inside a known first segment. -/
theorem get_code_unit_append_left (LE : Bool) (p t : List Nat) (i : Nat)
    (h : i + 1 < p.length) :
    get_code_unit LE (p ++ t) i = get_code_unit LE p i := by
  unfold get_code_unit
  rw [byte_at_append_left p t i (by omega), byte_at_append_left p t (i + 1) h]

/-- Helper: on an even offset, a UTF-16 extraction does not see a trailing odd byte, and it
stops on an even offset inside the even part. -/
theorem extract_utf16_truncated (LE : Bool) (p t : List Nat) (pos : Nat)
    (hp : p.length % 2 = 0) (ht : t.length < 2) (hpos : pos % 2 = 0) (h : pos + 2 ≤ p.length) :
    extract_next_codepoint_from_utf16 LE (p ++ t) pos
      = extract_next_codepoint_from_utf16 LE p pos
    ∧ (extract_next_codepoint_from_utf16 LE p pos).2 % 2 = 0
    ∧ (extract_next_codepoint_from_utf16 LE p pos).2 ≤ p.length
    ∧ pos < (extract_next_codepoint_from_utf16 LE p pos).2 := by
  have u1 := get_code_unit_append_left LE p t pos (by omega)
  unfold extract_next_codepoint_from_utf16
  simp only [u1, List.length_append]
  by_cases hb : pos + 3 < p.length
  · have u2 := get_code_unit_append_left LE p t (pos + 2) (by omega)
    have c1 : ¬ (pos + 2 + 1 ≥ p.length + t.length) := by omega
    have c2 : ¬ (pos + 2 + 1 ≥ p.length) := by omega
    simp only [u2, c1, c2, or_false]
    refine ⟨trivial, ?_, ?_, ?_⟩ <;> split_ifs <;> simp only [] <;> omega
  · have c1 : pos + 2 + 1 ≥ p.length + t.length := by omega
    have c2 : pos + 2 + 1 ≥ p.length := by omega
    simp only [c1, c2, or_true, if_true]
    refine ⟨trivial, ?_, ?_, ?_⟩ <;> split_ifs <;> simp only [] <;> omega

/-- Helper: on an offset that is a multiple of the unit width, an extraction of UTF-16 or
UTF-32 does not see a trailing incomplete unit, and it stops on a multiple of the unit
width inside the complete part. -/
theorem extract_codepoint_truncated (E : Enc) (hE : E ≠ Enc.UTF8) (p t : List Nat) (pos : Nat)
    (hp : p.length % unit_width E = 0) (ht : t.length < unit_width E)
    (hpos : pos % unit_width E = 0) (h : pos + unit_width E ≤ p.length) :
    extract_codepoint E (p ++ t) pos = extract_codepoint E p pos
    ∧ (extract_codepoint E p pos).2 % unit_width E = 0
    ∧ (extract_codepoint E p pos).2 ≤ p.length
    ∧ pos < (extract_codepoint E p pos).2 := by
  cases E
  · exact absurd rfl hE
  · exact extract_utf16_truncated true p t pos hp ht hpos h
  · exact extract_utf16_truncated false p t pos hp ht hpos h
  · simp only [unit_width] at hp ht hpos h
    simp only [extract_codepoint, extract_codepoint_UTF32LE, unit_width,
      byte_at_append_left p t pos (by omega), byte_at_append_left p t (pos + 1) (by omega),
      byte_at_append_left p t (pos + 2) (by omega), byte_at_append_left p t (pos + 3) (by omega),
      true_and]
    omega
  · simp only [unit_width] at hp ht hpos h
    simp only [extract_codepoint, extract_codepoint_UTF32BE, unit_width,
      byte_at_append_left p t pos (by omega), byte_at_append_left p t (pos + 1) (by omega),
      byte_at_append_left p t (pos + 2) (by omega), byte_at_append_left p t (pos + 3) (by omega),
      true_and]
    omega

/-- Helper: `has_codepoint` through the unit width. -/
theorem has_codepoint_unit_width (E : Enc) (bytes : List Nat) (pos : Nat) :
    bytes_buffer_t.has_codepoint E ⟨bytes, pos⟩ = true ↔ pos + unit_width E ≤ bytes.length := by
  rw [has_codepoint_iff]
  cases E <;> simp only [unit_width]

/-- Helper: the loop of `to_utf32` over complete units followed by an incomplete one
behaves as over the complete units alone, and ends right after them. -/
theorem to_utf32_loop_truncated (E : Enc) (hE : E ≠ Enc.UTF8) (p t : List Nat)
    (hp : p.length % unit_width E = 0) (ht : t.length < unit_width E) (n : Nat) :
    ∀ (pos : Nat) (acc : List Nat), p.length - pos = n → pos % unit_width E = 0 →
      pos ≤ p.length →
      to_utf32_loop E ⟨p ++ t, pos⟩ acc
          = (⟨p ++ t, p.length⟩, (to_utf32_loop E ⟨p, pos⟩ acc).2)
      ∧ (to_utf32_loop E ⟨p, pos⟩ acc).1 = ⟨p, p.length⟩ := by
  have hw : 0 < unit_width E := by cases E <;> simp [unit_width]
  induction n using Nat.strong_induction_on with
  | _ n ih =>
    intro pos acc hn hpos hle
    by_cases hlt : pos + unit_width E ≤ p.length
    · have hc1 : bytes_buffer_t.has_codepoint E ⟨p ++ t, pos⟩ = true := by
        rw [has_codepoint_unit_width, List.length_append]; omega
      have hc2 : bytes_buffer_t.has_codepoint E ⟨p, pos⟩ = true := by
        rw [has_codepoint_unit_width]; exact hlt
      obtain ⟨e1, e2, e3, e4⟩ := extract_codepoint_truncated E hE p t pos hp ht hpos hlt
      rw [to_utf32_loop_step E _ _ hc1, to_utf32_loop_step E _ _ hc2]
      simp only [bytes_buffer_t.extract_codepoint, e1]
      exact ih (p.length - (extract_codepoint E p pos).2) (by omega) _ _ rfl e2 e3
    · have hpe : pos = p.length := by
        have h1 : (p.length - pos) % unit_width E = 0 := by
          have := Nat.sub_mod_eq_zero_of_mod_eq (hp.trans hpos.symm)
          exact this
        have h2 : p.length - pos < unit_width E := by omega
        have h3 : p.length - pos = 0 := by
          rw [Nat.mod_eq_of_lt h2] at h1
          exact h1
        omega
      have hc1 : bytes_buffer_t.has_codepoint E ⟨p ++ t, pos⟩ = false := by
        rw [Bool.eq_false_iff, Ne, has_codepoint_unit_width, List.length_append]; omega
      have hc2 : bytes_buffer_t.has_codepoint E ⟨p, pos⟩ = false := by
        rw [Bool.eq_false_iff, Ne, has_codepoint_unit_width]; omega
      rw [to_utf32_loop_stop E _ _ hc1, to_utf32_loop_stop E _ _ hc2, hpe]
      exact ⟨rfl, rfl⟩

/-- Helper: `to_utf32` of complete units followed by an incomplete unit. -/
theorem to_utf32_truncated (E : Enc) (hE : E ≠ Enc.UTF8) (p t : List Nat)
    (hp : p.length % unit_width E = 0) (ht : t.length < unit_width E) :
    to_utf32 E p = (to_utf32_loop E (bytes_buffer_t.init p) []).2
    ∧ (to_utf32_loop E (bytes_buffer_t.init p) []).1 = ⟨p, p.length⟩
    ∧ to_utf32 E (p ++ t) = if t = [] then to_utf32 E p else to_utf32 E p ++ [codepoint.invalid] := by
  have h := to_utf32_loop_truncated E hE p t hp ht _ 0 [] rfl (Nat.zero_mod _) (Nat.zero_le _)
  have e1 : to_utf32 E p = (to_utf32_loop E (bytes_buffer_t.init p) []).2 := by
    simp only [to_utf32, bytes_buffer_t.init, h.2, bytes_buffer_t.has_bytes, lt_self_iff_false,
      decide_False, Bool.false_eq_true, if_false]
  refine ⟨e1, h.2, ?_⟩
  rw [e1]
  simp only [to_utf32, bytes_buffer_t.init, h.1, bytes_buffer_t.has_bytes, List.length_append,
    push_back]
  rcases t with _ | ⟨x, t⟩
  · simp
  · simp

/-- C10: for UTF-16LE/BE (unit width 2) and UTF-32LE/BE (unit width 4) and every buffer
`b`: when the length of `b` is not a multiple of the unit width, `to_utf32<E>(b)` is
`to_utf32<E>` of the longest prefix of `b` whose length is such a multiple, followed by
exactly one U+FFFD, and `reencode<E,OUT>(b)` likewise ends with the `OUT` encoding of
U+FFFD; when the length is a multiple, the cursor is at the end of the buffer after the
loop and no trailing replacement is added. -/
theorem C10_truncated_trailing_unit (E : Enc) (hE : E ≠ Enc.UTF8) (OUT : Enc) (b : List Nat) :
    (b.length % unit_width E ≠ 0 →
      to_utf32 E b
          = to_utf32 E (b.take (b.length / unit_width E * unit_width E)) ++ [codepoint.invalid]
      ∧ reencode E OUT b
          = reencode E OUT (b.take (b.length / unit_width E * unit_width E))
              ++ append_codepoint OUT codepoint.invalid [])
    ∧ (b.length % unit_width E = 0 →
      (to_utf32_loop E (bytes_buffer_t.init b) []).1.has_bytes = false
      ∧ (reencode_loop E OUT (bytes_buffer_t.init b) []).1.has_bytes = false
      ∧ to_utf32 E b = (to_utf32_loop E (bytes_buffer_t.init b) []).2
      ∧ reencode E OUT b = (reencode_loop E OUT (bytes_buffer_t.init b) []).2) := by
  have hw : 0 < unit_width E := by cases E <;> simp [unit_width]
  constructor
  · intro hm
    have hk : b.length / unit_width E * unit_width E ≤ b.length := Nat.div_mul_le_self _ _
    have hsplit := List.take_append_drop (b.length / unit_width E * unit_width E) b
    have hpl : (b.take (b.length / unit_width E * unit_width E)).length
        = b.length / unit_width E * unit_width E := by
      rw [List.length_take]; omega
    have hdm := Nat.div_add_mod b.length (unit_width E)
    have hmul : unit_width E * (b.length / unit_width E)
        = b.length / unit_width E * unit_width E := Nat.mul_comm _ _
    have htl : (b.drop (b.length / unit_width E * unit_width E)).length
        = b.length % unit_width E := by
      rw [List.length_drop]; omega
    have hp : (b.take (b.length / unit_width E * unit_width E)).length % unit_width E = 0 := by
      rw [hpl]; exact Nat.mul_mod_left _ _
    have ht : (b.drop (b.length / unit_width E * unit_width E)).length < unit_width E := by
      rw [htl]; exact Nat.mod_lt _ hw
    have hne : b.drop (b.length / unit_width E * unit_width E) ≠ [] := by
      intro hc
      rw [hc] at htl
      simp only [List.length_nil] at htl
      omega
    have key := (to_utf32_truncated E hE _ _ hp ht).2.2
    rw [hsplit, if_neg hne] at key
    refine ⟨key, ?_⟩
    rw [reencode_eq_encode_as_to_utf32, reencode_eq_encode_as_to_utf32, key, encode_as_append]
    rfl
  · intro hm
    have key := to_utf32_truncated E hE b [] hm hw
    have e1 : (to_utf32_loop E (bytes_buffer_t.init b) []).1.has_bytes = false := by
      rw [key.2.1]
      simp [bytes_buffer_t.has_bytes]
    have hr := reencode_loop_eq E OUT _ (bytes_buffer_t.init b) [] rfl
    have e0 : encode_as OUT [] = [] := rfl
    rw [e0] at hr
    have e2 : (reencode_loop E OUT (bytes_buffer_t.init b) []).1.has_bytes = false := by
      rw [hr]
      exact e1
    refine ⟨e1, e2, key.1, ?_⟩
    simp only [reencode, e2, Bool.false_eq_true, if_false]

/-- Witness of C10 on the big-endian UTF-16 buffer D8 00 DC (3 bytes, one byte beyond the
only complete unit) transcoded to UTF-8. -/
theorem C10_truncated_trailing_unit_witness :
    Enc.UTF16BE ≠ Enc.UTF8
    ∧ [0xD8, 0x00, 0xDC].length % unit_width Enc.UTF16BE ≠ 0
    ∧ to_utf32 Enc.UTF16BE [0xD8, 0x00, 0xDC]
        = to_utf32 Enc.UTF16BE ([0xD8, 0x00, 0xDC].take
            ([0xD8, 0x00, 0xDC].length / unit_width Enc.UTF16BE * unit_width Enc.UTF16BE))
          ++ [codepoint.invalid]
    ∧ reencode Enc.UTF16BE Enc.UTF8 [0xD8, 0x00, 0xDC]
        = reencode Enc.UTF16BE Enc.UTF8 ([0xD8, 0x00, 0xDC].take
            ([0xD8, 0x00, 0xDC].length / unit_width Enc.UTF16BE * unit_width Enc.UTF16BE))
          ++ append_codepoint Enc.UTF8 codepoint.invalid [] :=
  ⟨by decide, by decide,
    ((C10_truncated_trailing_unit Enc.UTF16BE (by decide) Enc.UTF8 [0xD8, 0x00, 0xDC]).1
      (by decide)).1,
    ((C10_truncated_trailing_unit Enc.UTF16BE (by decide) Enc.UTF8 [0xD8, 0x00, 0xDC]).1
      (by decide)).2⟩

/-! ## Claims C11, C14, C17 to C20 : pipeline and cursor contracts -/

/-- Helper: the `SKIP_BOM` test looks at bit 0 of the flags. -/
theorem skips_bom_iff (flags : Nat) : skips_bom flags = true ↔ flags % 2 = 1 := by
  have h : flags &&& 1 = flags % 2 := Nat.and_pow_two_sub_one_eq_mod flags 1
  simp only [skips_bom, flag.SKIP_BOM, h, decide_eq_true_eq]
  omega

/-- Helper: the dispatch of `encode_as<OUTENC>(in_bytes, flags)` is `reencode` at the
detected encoding. -/
theorem encode_as_bytes_eq (OUT : Enc) (b : List Nat) (flags : Nat) :
    encode_as_bytes OUT b flags
      = reencode (detect_encoding_of b).enc OUT
          (if skips_bom flags then b.drop (detect_encoding_of b).bom_size else b) := by
  unfold encode_as_bytes
  simp only []
  generalize (detect_encoding_of b).enc = D
  cases D <;> rfl

/-- Helper: the dispatch of `encode_if_necessary_as<OUTENC>` is `reencode_if_necessary` at
the detected encoding. -/
theorem encode_if_necessary_as_eq (OUT : Enc) (b scratch : List Nat) (flags : Nat) :
    encode_if_necessary_as OUT b scratch flags
      = reencode_if_necessary (detect_encoding_of b).enc OUT
          (if skips_bom flags then b.drop (detect_encoding_of b).bom_size else b) scratch := by
  unfold encode_if_necessary_as
  simp only []
  generalize (detect_encoding_of b).enc = D
  cases D <;> rfl

/-- C11: detection is authoritative in `encode_as`.  For every output encoding, buffer and
flags, with `(D, n) = detect_encoding_of(b)`, `encode_as<OUT>(b, flags)` is
`reencode<D,OUT>` of `b` without its first `n` bytes when the `SKIP_BOM` bit (bit 0) is
set, and of `b` itself when it is not; the overload with a runtime output encoding returns
the same bytes. -/
theorem C11_detection_authoritative (OUT : Enc) (b : List Nat) (flags : Nat) :
    encode_as_bytes OUT b flags
      = (if flags % 2 = 1 then
          reencode (detect_encoding_of b).enc OUT (b.drop (detect_encoding_of b).bom_size)
         else reencode (detect_encoding_of b).enc OUT b)
    ∧ encode_as_bytes_dyn OUT b flags = encode_as_bytes OUT b flags := by
  constructor
  · rw [encode_as_bytes_eq]
    by_cases h : flags % 2 = 1
    · rw [if_pos ((skips_bom_iff flags).2 h), if_pos h]
    · have h2 : ¬ (skips_bom flags = true) := fun hc => h ((skips_bom_iff flags).1 hc)
      rw [if_neg h2, if_neg h]
  · cases OUT <;> rfl

/-- C14: `encode_if_necessary_as`.  With `(D, n) = detect_encoding_of(b)`: when `D` is the
requested encoding the returned bytes are exactly `b` (without its first `n` bytes when
`SKIP_BOM` is set), whatever `b` holds, and the scratch buffer is unchanged; otherwise the
returned bytes are those of `encode_as<OUT>(b, flags)` and the scratch buffer holds exactly
them.  The runtime overload agrees.  Example: the malformed UTF-8 buffer EF BB BF C0 asked
as UTF-8 with `SKIP_BOM` comes back as C0 with the scratch buffer untouched. -/
theorem C14_encode_if_necessary_as (OUT : Enc) (b scratch : List Nat) (flags : Nat) :
    encode_if_necessary_as OUT b scratch flags
      = (if (detect_encoding_of b).enc = OUT then
          (if flags % 2 = 1 then b.drop (detect_encoding_of b).bom_size else b, scratch)
         else (encode_as_bytes OUT b flags, encode_as_bytes OUT b flags))
    ∧ encode_if_necessary_as_dyn OUT b scratch flags = encode_if_necessary_as OUT b scratch flags
    ∧ encode_if_necessary_as Enc.UTF8 [0xEF, 0xBB, 0xBF, 0xC0] [0x01, 0x02] flag.SKIP_BOM
        = ([0xC0], [0x01, 0x02]) := by
  refine ⟨?_, ?_, by decide⟩
  · rw [encode_if_necessary_as_eq, encode_as_bytes_eq]
    have hf : (if skips_bom flags = true then b.drop (detect_encoding_of b).bom_size else b)
        = (if flags % 2 = 1 then b.drop (detect_encoding_of b).bom_size else b) := by
      by_cases h : flags % 2 = 1
      · rw [if_pos ((skips_bom_iff flags).2 h), if_pos h]
      · have h2 : ¬ (skips_bom flags = true) := fun hc => h ((skips_bom_iff flags).1 hc)
        rw [if_neg h2, if_neg h]
    rw [hf]
    unfold reencode_if_necessary
    split_ifs <;> rfl
  · cases OUT <;> rfl

/-- C17: `append_codepoint` is total and append-only.  For every encoding, code point and
output buffer the result is the old buffer followed by new bytes; their number is 1 to 4
for UTF-8 (by the ladder), 2 below 0x10000 and 4 otherwise for UTF-16LE/BE, and 4 for
UTF-32LE/BE; consequently `encode_as<E>` distributes over concatenation. -/
theorem C17_append_only (E : Enc) (cp : Nat) (out s t : List Nat) :
    append_codepoint E cp out = out ++ append_codepoint E cp []
    ∧ (append_codepoint E cp out).take out.length = out
    ∧ (append_codepoint E cp []).length =
        (match E with
         | Enc.UTF8 =>
             if cp < 0x80 then 1 else if cp < 0x800 then 2 else if cp < 0x10000 then 3 else 4
         | Enc.UTF16LE => if cp < 0x10000 then 2 else 4
         | Enc.UTF16BE => if cp < 0x10000 then 2 else 4
         | Enc.UTF32LE => 4
         | Enc.UTF32BE => 4)
    ∧ 1 ≤ (append_codepoint Enc.UTF8 cp []).length
    ∧ (append_codepoint Enc.UTF8 cp []).length ≤ 4
    ∧ encode_as E (s ++ t) = encode_as E s ++ encode_as E t := by
  have hl := append_codepoint_length E cp []
  have h8 := append_codepoint_length Enc.UTF8 cp []
  simp only [List.length_nil, Nat.zero_add] at hl h8
  refine ⟨append_codepoint_eq_append E cp out, ?_, hl, ?_, ?_, encode_as_append E s t⟩
  · rw [append_codepoint_eq_append]
    simp
  · rw [h8]; split_ifs <;> omega
  · rw [h8]; split_ifs <;> omega

/-- C20: the fused pipeline equals decode-then-encode, on every buffer, well-formed or
not: `reencode<A,B>(b) == encode_as<B>(to_utf32<A>(b))`. -/
theorem C20_reencode_refines (A B : Enc) (b : List Nat) :
    reencode A B b = encode_as B (to_utf32 A b) :=
  reencode_eq_encode_as_to_utf32 A B b

/-- Helper: the UTF-8 decoder advances by 1 to 4 bytes and, started inside the buffer,
stays inside it. -/
theorem extract_UTF8_advance (bytes : List Nat) (pos : Nat) (h : pos < bytes.length) :
    ((extract_codepoint_UTF8 bytes pos).2 = pos + 1 ∨ (extract_codepoint_UTF8 bytes pos).2 = pos + 2
      ∨ (extract_codepoint_UTF8 bytes pos).2 = pos + 3
      ∨ (extract_codepoint_UTF8 bytes pos).2 = pos + 4)
    ∧ (extract_codepoint_UTF8 bytes pos).2 ≤ bytes.length := by
  unfold extract_codepoint_UTF8
  split_ifs with h1 h2 h3 h4 <;> dsimp only <;> omega

/-- Helper: the UTF-16 decoder advances by 2 or 4 bytes and, started with a full unit left,
stays inside the buffer. -/
theorem extract_utf16_advance (LE : Bool) (bytes : List Nat) (pos : Nat)
    (h : pos + 1 < bytes.length) :
    ((extract_next_codepoint_from_utf16 LE bytes pos).2 = pos + 2
      ∨ (extract_next_codepoint_from_utf16 LE bytes pos).2 = pos + 4)
    ∧ (extract_next_codepoint_from_utf16 LE bytes pos).2 ≤ bytes.length := by
  unfold extract_next_codepoint_from_utf16
  dsimp only
  split_ifs with h1 h2 h3 <;> dsimp only <;> omega

/-- C18: the readiness predicates of the cursor.  With the offset inside the buffer,
`has_bytes` holds iff at least 1 byte remains and `has_codepoint` iff at least `w` bytes
remain (`w` the unit width: 1, 2 or 4); hence `has_codepoint` implies `has_bytes`, and the
two coincide for UTF-8. -/
theorem C18_cursor_readiness (E : Enc) (b : bytes_buffer_t)
    (h : b.m_current_byte_offset ≤ b.m_byte_buf.length) :
    (b.has_bytes = true ↔ 1 ≤ b.m_byte_buf.length - b.m_current_byte_offset)
    ∧ (b.has_codepoint E = true ↔ unit_width E ≤ b.m_byte_buf.length - b.m_current_byte_offset)
    ∧ (b.has_codepoint E = true → b.has_bytes = true)
    ∧ b.has_codepoint Enc.UTF8 = b.has_bytes := by
  have hw : 0 < unit_width E := by cases E <;> simp [unit_width]
  have hc := has_codepoint_unit_width E b.m_byte_buf b.m_current_byte_offset
  have hb : b.has_bytes = true ↔ b.m_current_byte_offset < b.m_byte_buf.length := by
    simp [bytes_buffer_t.has_bytes]
  refine ⟨?_, ?_, ?_, ?_⟩
  · rw [hb]; omega
  · rw [hc]; omega
  · intro h1
    rw [hb]
    have := hc.1 h1
    omega
  · simp [bytes_buffer_t.has_codepoint, bytes_buffer_t.has_bytes]

/-- Witness of C18: the UTF-16LE cursor over 61 00 62 00 63 00 reports positions 0, 2, 4
with both predicates true (extracting a, b, c) and position 6 with both false. -/
theorem C18_cursor_readiness_witness :
    (6 ≤ [0x61, 0x00, 0x62, 0x00, 0x63, 0x00].length
      ∧ ((bytes_buffer_t.mk [0x61, 0x00, 0x62, 0x00, 0x63, 0x00] 6).has_bytes = true
          ↔ 1 ≤ [0x61, 0x00, 0x62, 0x00, 0x63, 0x00].length - 6))
    ∧ (bytes_buffer_t.init [0x61, 0x00, 0x62, 0x00, 0x63, 0x00]).has_bytes = true
    ∧ (bytes_buffer_t.init [0x61, 0x00, 0x62, 0x00, 0x63, 0x00]).has_codepoint Enc.UTF16LE = true
    ∧ (bytes_buffer_t.init [0x61, 0x00, 0x62, 0x00, 0x63, 0x00]).byte_pos = 0
    ∧ (bytes_buffer_t.init [0x61, 0x00, 0x62, 0x00, 0x63, 0x00]).extract_codepoint Enc.UTF16LE
        = (0x61, ⟨[0x61, 0x00, 0x62, 0x00, 0x63, 0x00], 2⟩)
    ∧ (bytes_buffer_t.mk [0x61, 0x00, 0x62, 0x00, 0x63, 0x00] 2).has_bytes = true
    ∧ (bytes_buffer_t.mk [0x61, 0x00, 0x62, 0x00, 0x63, 0x00] 2).has_codepoint Enc.UTF16LE = true
    ∧ (bytes_buffer_t.mk [0x61, 0x00, 0x62, 0x00, 0x63, 0x00] 2).extract_codepoint Enc.UTF16LE
        = (0x62, ⟨[0x61, 0x00, 0x62, 0x00, 0x63, 0x00], 4⟩)
    ∧ (bytes_buffer_t.mk [0x61, 0x00, 0x62, 0x00, 0x63, 0x00] 4).has_bytes = true
    ∧ (bytes_buffer_t.mk [0x61, 0x00, 0x62, 0x00, 0x63, 0x00] 4).has_codepoint Enc.UTF16LE = true
    ∧ (bytes_buffer_t.mk [0x61, 0x00, 0x62, 0x00, 0x63, 0x00] 4).extract_codepoint Enc.UTF16LE
        = (0x63, ⟨[0x61, 0x00, 0x62, 0x00, 0x63, 0x00], 6⟩)
    ∧ (bytes_buffer_t.mk [0x61, 0x00, 0x62, 0x00, 0x63, 0x00] 6).has_bytes = false
    ∧ (bytes_buffer_t.mk [0x61, 0x00, 0x62, 0x00, 0x63, 0x00] 6).has_codepoint Enc.UTF16LE = false
    ∧ (bytes_buffer_t.mk [0x61, 0x00, 0x62, 0x00, 0x63, 0x00] 6).byte_pos = 6 :=
  ⟨⟨by decide,
      (C18_cursor_readiness Enc.UTF16LE ⟨[0x61, 0x00, 0x62, 0x00, 0x63, 0x00], 6⟩ (by decide)).1⟩,
    by decide, by decide, by decide, by decide, by decide, by decide, by decide, by decide,
    by decide, by decide, by decide, by decide, by decide⟩

/-- C19: the offset invariant under extraction.  For every encoding and every cursor with
the offset inside the buffer for which `has_codepoint` holds, `extract_codepoint` leaves the
buffer unchanged, strictly increases the offset (by 1 to 4 bytes for UTF-8, by 2 or 4 for
UTF-16LE/BE, by 4 for UTF-32LE/BE) and keeps the offset inside the buffer;
`set_as_depleted` sets the offset to the length. -/
theorem C19_offset_invariant (E : Enc) (b : bytes_buffer_t)
    (h : b.m_current_byte_offset ≤ b.m_byte_buf.length) (hc : b.has_codepoint E = true) :
    (b.extract_codepoint E).2.m_byte_buf = b.m_byte_buf
    ∧ b.m_current_byte_offset < (b.extract_codepoint E).2.m_current_byte_offset
    ∧ (b.extract_codepoint E).2.m_current_byte_offset ≤ (b.extract_codepoint E).2.m_byte_buf.length
    ∧ (match E with
       | Enc.UTF8 =>
           (b.extract_codepoint E).2.m_current_byte_offset = b.m_current_byte_offset + 1
           ∨ (b.extract_codepoint E).2.m_current_byte_offset = b.m_current_byte_offset + 2
           ∨ (b.extract_codepoint E).2.m_current_byte_offset = b.m_current_byte_offset + 3
           ∨ (b.extract_codepoint E).2.m_current_byte_offset = b.m_current_byte_offset + 4
       | Enc.UTF16LE =>
           (b.extract_codepoint E).2.m_current_byte_offset = b.m_current_byte_offset + 2
           ∨ (b.extract_codepoint E).2.m_current_byte_offset = b.m_current_byte_offset + 4
       | Enc.UTF16BE =>
           (b.extract_codepoint E).2.m_current_byte_offset = b.m_current_byte_offset + 2
           ∨ (b.extract_codepoint E).2.m_current_byte_offset = b.m_current_byte_offset + 4
       | Enc.UTF32LE =>
           (b.extract_codepoint E).2.m_current_byte_offset = b.m_current_byte_offset + 4
       | Enc.UTF32BE =>
           (b.extract_codepoint E).2.m_current_byte_offset = b.m_current_byte_offset + 4)
    ∧ b.set_as_depleted.m_current_byte_offset = b.set_as_depleted.m_byte_buf.length := by
  have hu := (has_codepoint_unit_width E b.m_byte_buf b.m_current_byte_offset).1 hc
  cases E
  · simp only [unit_width] at hu
    have k := extract_UTF8_advance b.m_byte_buf b.m_current_byte_offset (by omega)
    simp only [bytes_buffer_t.extract_codepoint, extract_codepoint,
      bytes_buffer_t.set_as_depleted, true_and, and_true]
    omega
  · simp only [unit_width] at hu
    have k := extract_utf16_advance true b.m_byte_buf b.m_current_byte_offset (by omega)
    simp only [bytes_buffer_t.extract_codepoint, extract_codepoint,
      bytes_buffer_t.set_as_depleted, true_and, and_true]
    omega
  · simp only [unit_width] at hu
    have k := extract_utf16_advance false b.m_byte_buf b.m_current_byte_offset (by omega)
    simp only [bytes_buffer_t.extract_codepoint, extract_codepoint,
      bytes_buffer_t.set_as_depleted, true_and, and_true]
    omega
  · simp only [unit_width] at hu
    simp only [bytes_buffer_t.extract_codepoint, extract_codepoint, extract_codepoint_UTF32LE,
      bytes_buffer_t.set_as_depleted, true_and, and_true]
    omega
  · simp only [unit_width] at hu
    simp only [bytes_buffer_t.extract_codepoint, extract_codepoint, extract_codepoint_UTF32BE,
      bytes_buffer_t.set_as_depleted, true_and, and_true]
    omega

/-- Witness of C19: the UTF-8 cursor at offset 0 of E2 9F B6 41, which moves to offset 3. -/
theorem C19_offset_invariant_witness :
    ((bytes_buffer_t.mk [0xE2, 0x9F, 0xB6, 0x41] 0).m_current_byte_offset
        ≤ (bytes_buffer_t.mk [0xE2, 0x9F, 0xB6, 0x41] 0).m_byte_buf.length
      ∧ (bytes_buffer_t.mk [0xE2, 0x9F, 0xB6, 0x41] 0).has_codepoint Enc.UTF8 = true)
    ∧ (bytes_buffer_t.mk [0xE2, 0x9F, 0xB6, 0x41] 0).extract_codepoint Enc.UTF8
        = (0x27F6, ⟨[0xE2, 0x9F, 0xB6, 0x41], 3⟩)
    ∧ (bytes_buffer_t.mk [0xE2, 0x9F, 0xB6, 0x41] 0).m_current_byte_offset
        < ((bytes_buffer_t.mk [0xE2, 0x9F, 0xB6, 0x41] 0).extract_codepoint
            Enc.UTF8).2.m_current_byte_offset :=
  ⟨⟨by decide, by decide⟩, by decide,
    (C19_offset_invariant Enc.UTF8 ⟨[0xE2, 0x9F, 0xB6, 0x41], 0⟩ (by decide) (by decide)).2.1⟩

/-! ## Claims C15 and C16 : malformed input -/

/-- Helper: every element read from a buffer of bytes is a byte. -/
theorem byte_at_lt (bytes : List Nat) (hb : ∀ x ∈ bytes, x < 256) (i : Nat) :
    byte_at bytes i < 256 := by
  unfold byte_at
  by_cases h : i < bytes.length
  · rw [List.getD_eq_getElem _ _ h]
    exact hb _ (List.getElem_mem h)
  · rw [List.getD_eq_default _ _ (by omega)]
    decide

/-- C15: the resynchronise-by-one policy of the UTF-8 decoder, on a buffer of bytes and a
position inside it.  A byte below 0x80 is returned as it is; a lead byte 110xxxxx,
1110xxxx or 11110xxx whose 1, 2 or 3 continuation bytes are all present and match 10xxxxxx
gives the composition of the payload bits and advances by the sequence length; in every
other case the decoder returns U+FFFD and advances by exactly 1. -/
theorem C15_utf8_resynchronise (bytes : List Nat) (pos : Nat) (hb : ∀ x ∈ bytes, x < 256)
    (hpos : pos < bytes.length) :
    extract_codepoint Enc.UTF8 bytes pos =
      if byte_at bytes pos < 0x80 then
        (byte_at bytes pos, pos + 1)
      else if 0xC0 ≤ byte_at bytes pos ∧ byte_at bytes pos < 0xE0
          ∧ utf8_continuation bytes (pos + 1) then
        ((byte_at bytes pos - 0xC0) * 64 + (byte_at bytes (pos + 1) - 0x80), pos + 2)
      else if 0xE0 ≤ byte_at bytes pos ∧ byte_at bytes pos < 0xF0
          ∧ utf8_continuation bytes (pos + 1) ∧ utf8_continuation bytes (pos + 2) then
        ((byte_at bytes pos - 0xE0) * 4096 + (byte_at bytes (pos + 1) - 0x80) * 64
          + (byte_at bytes (pos + 2) - 0x80), pos + 3)
      else if 0xF0 ≤ byte_at bytes pos ∧ byte_at bytes pos < 0xF8
          ∧ utf8_continuation bytes (pos + 1) ∧ utf8_continuation bytes (pos + 2)
          ∧ utf8_continuation bytes (pos + 3) then
        ((byte_at bytes pos - 0xF0) * 262144 + (byte_at bytes (pos + 1) - 0x80) * 4096
          + (byte_at bytes (pos + 2) - 0x80) * 64 + (byte_at bytes (pos + 3) - 0x80), pos + 4)
      else
        (codepoint.invalid, pos + 1) := by
  have l0 := byte_at_lt bytes hb pos
  have l1 := byte_at_lt bytes hb (pos + 1)
  have l2 := byte_at_lt bytes hb (pos + 2)
  have l3 := byte_at_lt bytes hb (pos + 3)
  simp only [extract_codepoint, utf8_continuation]
  by_cases c0 : byte_at bytes pos < 0x80
  · rw [if_pos c0, extract_UTF8_1 bytes pos c0]
  rw [if_neg c0]
  by_cases c2 : 0xC0 ≤ byte_at bytes pos ∧ byte_at bytes pos < 0xE0
      ∧ (pos + 1 < bytes.length ∧ 0x80 ≤ byte_at bytes (pos + 1) ∧ byte_at bytes (pos + 1) < 0xC0)
  · rw [if_pos c2, extract_UTF8_2 bytes pos (byte_at bytes pos - 0xC0)
      (byte_at bytes (pos + 1) - 0x80) (by omega) (by omega) (by omega) (by omega) (by omega)]
  rw [if_neg c2]
  by_cases c3 : 0xE0 ≤ byte_at bytes pos ∧ byte_at bytes pos < 0xF0
      ∧ (pos + 1 < bytes.length ∧ 0x80 ≤ byte_at bytes (pos + 1) ∧ byte_at bytes (pos + 1) < 0xC0)
      ∧ (pos + 2 < bytes.length ∧ 0x80 ≤ byte_at bytes (pos + 2) ∧ byte_at bytes (pos + 2) < 0xC0)
  · rw [if_pos c3, extract_UTF8_3 bytes pos (byte_at bytes pos - 0xE0)
      (byte_at bytes (pos + 1) - 0x80) (byte_at bytes (pos + 2) - 0x80) (by omega) (by omega)
      (by omega) (by omega) (by omega) (by omega) (by omega)]
  rw [if_neg c3]
  by_cases c4 : 0xF0 ≤ byte_at bytes pos ∧ byte_at bytes pos < 0xF8
      ∧ (pos + 1 < bytes.length ∧ 0x80 ≤ byte_at bytes (pos + 1) ∧ byte_at bytes (pos + 1) < 0xC0)
      ∧ (pos + 2 < bytes.length ∧ 0x80 ≤ byte_at bytes (pos + 2) ∧ byte_at bytes (pos + 2) < 0xC0)
      ∧ (pos + 3 < bytes.length ∧ 0x80 ≤ byte_at bytes (pos + 3) ∧ byte_at bytes (pos + 3) < 0xC0)
  · rw [if_pos c4, extract_UTF8_4 bytes pos (byte_at bytes pos - 0xF0)
      (byte_at bytes (pos + 1) - 0x80) (byte_at bytes (pos + 2) - 0x80)
      (byte_at bytes (pos + 3) - 0x80) (by omega) (by omega) (by omega) (by omega) (by omega)
      (by omega) (by omega) (by omega) (by omega)]
  rw [if_neg c4]
  unfold extract_codepoint_UTF8
  simp only [and_0x80, and_0xC0, and_0xE0, and_0xF0, and_0xF8]
  have e1 : ¬ (byte_at bytes pos % 256 / 128 * 128 = 0) := by omega
  have e2 : ¬ (pos + 1 < bytes.length ∧ byte_at bytes pos % 256 / 32 * 32 = 192
      ∧ byte_at bytes (pos + 1) % 256 / 64 * 64 = 128) := by omega
  have e3 : ¬ (pos + 2 < bytes.length ∧ byte_at bytes pos % 256 / 16 * 16 = 224
      ∧ byte_at bytes (pos + 1) % 256 / 64 * 64 = 128
      ∧ byte_at bytes (pos + 2) % 256 / 64 * 64 = 128) := by omega
  have e4 : ¬ (pos + 3 < bytes.length ∧ byte_at bytes pos % 256 / 8 * 8 = 240
      ∧ byte_at bytes (pos + 1) % 256 / 64 * 64 = 128
      ∧ byte_at bytes (pos + 2) % 256 / 64 * 64 = 128
      ∧ byte_at bytes (pos + 3) % 256 / 64 * 64 = 128) := by omega
  simp only [if_neg e1, if_neg e2, if_neg e3, if_neg e4]

/-- Witness of C15: in C3 28 the lead byte C3 is followed by 28, which is not a
continuation byte, so the decoder yields U+FFFD and advances by 1. -/
theorem C15_utf8_resynchronise_witness :
    ((∀ x ∈ [0xC3, 0x28], x < 256) ∧ 0 < [0xC3, 0x28].length)
    ∧ extract_codepoint Enc.UTF8 [0xC3, 0x28] 0 = (codepoint.invalid, 1) := by
  refine ⟨⟨by decide, by decide⟩, ?_⟩
  rw [C15_utf8_resynchronise [0xC3, 0x28] 0 (by decide) (by decide)]
  decide

/-- C16, as stated, fails: in the big-endian buffer D8 00 00 41 the leading surrogate D800
is followed by the unit 0041, which is read and found not to be a trailing surrogate; the
decoder returns U+FFFD and advances by 2 bytes, not 4. -/
theorem C16_utf16_malformed_counterexample :
    get_code_unit false [0xD8, 0x00, 0x00, 0x41] 0 = 0xD800
    ∧ get_code_unit false [0xD8, 0x00, 0x00, 0x41] 2 = 0x0041
    ∧ extract_codepoint Enc.UTF16BE [0xD8, 0x00, 0x00, 0x41] 0 = (codepoint.invalid, 2)
    ∧ extract_codepoint Enc.UTF16BE [0xD8, 0x00, 0x00, 0x41] 0 ≠ (codepoint.invalid, 4) := by
  decide

/-- C16, amended: for UTF-16LE and UTF-16BE, at a position with at least 2 bytes left,
every malformed case of the decoder returns U+FFFD and advances the cursor by exactly 2
bytes, the first unit: when the first unit is a lone trailing surrogate, when a leading
surrogate has fewer than 2 bytes after it, and when a leading surrogate is followed by a
second unit that is not a trailing surrogate (that unit is read but not consumed). -/
theorem C16_utf16_malformed (LE : Bool) (bytes : List Nat) (pos : Nat)
    (hlen : pos + 1 < bytes.length)
    (hmal : (0xDC00 ≤ get_code_unit LE bytes pos ∧ get_code_unit LE bytes pos < 0xE000)
      ∨ (0xD800 ≤ get_code_unit LE bytes pos ∧ get_code_unit LE bytes pos < 0xDC00
          ∧ bytes.length - (pos + 2) < 2)
      ∨ (0xD800 ≤ get_code_unit LE bytes pos ∧ get_code_unit LE bytes pos < 0xDC00
          ∧ 2 ≤ bytes.length - (pos + 2)
          ∧ ¬ (0xDC00 ≤ get_code_unit LE bytes (pos + 2)
                ∧ get_code_unit LE bytes (pos + 2) < 0xE000))) :
    extract_codepoint (if LE then Enc.UTF16LE else Enc.UTF16BE) bytes pos
      = (codepoint.invalid, pos + 2) := by
  have key := extract_utf16_invalid LE bytes pos (by omega) (by omega) (by omega)
  cases LE
  · simpa [extract_codepoint] using key
  · simpa [extract_codepoint] using key

/-- Witness of C16 (amended) on the big-endian buffer D8 00 00 41. -/
theorem C16_utf16_malformed_witness :
    (0 + 1 < [0xD8, 0x00, 0x00, 0x41].length
      ∧ 0xD800 ≤ get_code_unit false [0xD8, 0x00, 0x00, 0x41] 0
      ∧ get_code_unit false [0xD8, 0x00, 0x00, 0x41] 0 < 0xDC00
      ∧ 2 ≤ [0xD8, 0x00, 0x00, 0x41].length - (0 + 2)
      ∧ ¬ (0xDC00 ≤ get_code_unit false [0xD8, 0x00, 0x00, 0x41] (0 + 2)
            ∧ get_code_unit false [0xD8, 0x00, 0x00, 0x41] (0 + 2) < 0xE000))
    ∧ extract_codepoint (if false then Enc.UTF16LE else Enc.UTF16BE) [0xD8, 0x00, 0x00, 0x41] 0
        = (codepoint.invalid, 0 + 2) :=
  ⟨by decide, C16_utf16_malformed false [0xD8, 0x00, 0x00, 0x41] 0 (by decide)
    (Or.inr (Or.inr (by decide)))⟩

/-! ## Decoding after a known first segment -/

/-- Helper: extraction is relative to the position: after a first segment `pre` the
decoder behaves on `pre ++ rest` as on `rest`, shifted by the length of `pre`. -/
theorem extract_codepoint_shift (E : Enc) (pre rest : List Nat) (k : Nat) :
    extract_codepoint E (pre ++ rest) (pre.length + k)
      = ((extract_codepoint E rest k).1, pre.length + (extract_codepoint E rest k).2) := by
  have a1 : byte_at (pre ++ rest) (pre.length + k + 1) = byte_at rest (k + 1) := by
    rw [Nat.add_assoc]; exact byte_at_after pre rest (k + 1)
  have a2 : byte_at (pre ++ rest) (pre.length + k + 2) = byte_at rest (k + 2) := by
    rw [Nat.add_assoc]; exact byte_at_after pre rest (k + 2)
  have a3 : byte_at (pre ++ rest) (pre.length + k + 3) = byte_at rest (k + 3) := by
    rw [Nat.add_assoc]; exact byte_at_after pre rest (k + 3)
  have a21 : byte_at (pre ++ rest) (pre.length + k + 2 + 1) = byte_at rest (k + 2 + 1) := by
    rw [Nat.add_assoc, Nat.add_assoc]; exact byte_at_after pre rest (k + (2 + 1))
  have a0 : byte_at (pre ++ rest) (pre.length + k) = byte_at rest k := byte_at_after pre rest k
  have c1 : (pre.length + k + 1 < pre.length + rest.length) ↔ (k + 1 < rest.length) := by omega
  have c2 : (pre.length + k + 2 < pre.length + rest.length) ↔ (k + 2 < rest.length) := by omega
  have c3 : (pre.length + k + 3 < pre.length + rest.length) ↔ (k + 3 < rest.length) := by omega
  have c4 : (pre.length + k + 2 + 1 ≥ pre.length + rest.length) ↔ (k + 2 + 1 ≥ rest.length) := by
    omega
  cases E
  · simp only [extract_codepoint, extract_codepoint_UTF8, List.length_append, a0, a1, a2, a3,
      c1, c2, c3]
    split_ifs <;> simp only [Prod.mk.injEq, true_and] <;> omega
  · simp only [extract_codepoint, extract_next_codepoint_from_utf16, get_code_unit,
      List.length_append, a0, a1, a2, a21, c4]
    split_ifs <;> simp only [Prod.mk.injEq, true_and] <;> omega
  · simp only [extract_codepoint, extract_next_codepoint_from_utf16, get_code_unit,
      List.length_append, a0, a1, a2, a21, c4]
    split_ifs <;> simp only [Prod.mk.injEq, true_and] <;> omega
  · simp only [extract_codepoint, extract_codepoint_UTF32LE, a0, a1, a2, a3, Prod.mk.injEq,
      true_and]
    omega
  · simp only [extract_codepoint, extract_codepoint_UTF32BE, a0, a1, a2, a3, Prod.mk.injEq,
      true_and]
    omega

/-- Helper: the loop of `to_utf32` after a first segment `pre` behaves as on the rest
alone, with all offsets shifted by the length of `pre`. -/
theorem to_utf32_loop_shift (E : Enc) (pre rest : List Nat) (n : Nat) :
    ∀ (k : Nat) (acc : List Nat), rest.length - k = n →
      to_utf32_loop E ⟨pre ++ rest, pre.length + k⟩ acc
        = (⟨pre ++ rest, pre.length + (to_utf32_loop E ⟨rest, k⟩ acc).1.m_current_byte_offset⟩,
            (to_utf32_loop E ⟨rest, k⟩ acc).2) := by
  induction n using Nat.strong_induction_on with
  | _ n ih =>
    intro k acc hn
    have hiff : bytes_buffer_t.has_codepoint E ⟨pre ++ rest, pre.length + k⟩ = true
        ↔ bytes_buffer_t.has_codepoint E ⟨rest, k⟩ = true := by
      rw [has_codepoint_unit_width, has_codepoint_unit_width, List.length_append]
      omega
    by_cases h : bytes_buffer_t.has_codepoint E ⟨rest, k⟩ = true
    · have hm := (extract_codepoint_measure E ⟨rest, k⟩ h).2
      simp only [bytes_buffer_t.extract_codepoint] at hm
      rw [to_utf32_loop_step E _ _ h, to_utf32_loop_step E _ _ (hiff.2 h)]
      simp only [bytes_buffer_t.extract_codepoint, extract_codepoint_shift]
      exact ih _ (by omega) _ _ rfl
    · have h0 : bytes_buffer_t.has_codepoint E ⟨rest, k⟩ = false := by simpa using h
      have h1 : bytes_buffer_t.has_codepoint E ⟨pre ++ rest, pre.length + k⟩ = false := by
        rw [Bool.eq_false_iff]
        exact fun hc => h (hiff.1 hc)
      rw [to_utf32_loop_stop E _ _ h0, to_utf32_loop_stop E _ _ h1]

/-- Helper: the accumulator of the loop of `to_utf32` is only extended. -/
theorem to_utf32_loop_acc (E : Enc) (n : Nat) :
    ∀ (buf : bytes_buffer_t) (acc : List Nat),
      buf.m_byte_buf.length - buf.m_current_byte_offset = n →
      to_utf32_loop E buf acc
        = ((to_utf32_loop E buf []).1, acc ++ (to_utf32_loop E buf []).2) := by
  induction n using Nat.strong_induction_on with
  | _ n ih =>
    intro buf acc hn
    by_cases h : buf.has_codepoint E = true
    · have hm := (extract_codepoint_measure E buf h).2
      rw [to_utf32_loop_step E buf acc h, to_utf32_loop_step E buf [] h,
        ih _ (by omega) _ (push_back acc _) rfl, ih _ (by omega) _ (push_back [] _) rfl]
      simp [push_back]
    · have h0 : buf.has_codepoint E = false := by simpa using h
      rw [to_utf32_loop_stop E buf acc h0, to_utf32_loop_stop E buf [] h0]
      simp

/-- Helper: the loop of `to_utf32` never changes the buffer of the cursor. -/
theorem to_utf32_loop_buf (E : Enc) (n : Nat) :
    ∀ (buf : bytes_buffer_t) (acc : List Nat),
      buf.m_byte_buf.length - buf.m_current_byte_offset = n →
      (to_utf32_loop E buf acc).1.m_byte_buf = buf.m_byte_buf := by
  induction n using Nat.strong_induction_on with
  | _ n ih =>
    intro buf acc hn
    by_cases h : buf.has_codepoint E = true
    · have hm := extract_codepoint_measure E buf h
      rw [to_utf32_loop_step E buf acc h, ih _ (by omega) _ _ rfl]
      exact hm.1
    · have h0 : buf.has_codepoint E = false := by simpa using h
      rw [to_utf32_loop_stop E buf acc h0]

/-- Helper: when the decoder reads one code point `c` from exactly the first segment
`pre`, decoding `pre ++ rest` gives `c` followed by the decoding of `rest`. -/
theorem to_utf32_append_of_extract (E : Enc) (pre rest : List Nat) (c : Nat)
    (hc : bytes_buffer_t.has_codepoint E ⟨pre ++ rest, 0⟩ = true)
    (he : extract_codepoint E (pre ++ rest) 0 = (c, pre.length)) :
    to_utf32 E (pre ++ rest) = c :: to_utf32 E rest := by
  have h1 := to_utf32_loop_step E ⟨pre ++ rest, 0⟩ [] hc
  simp only [bytes_buffer_t.extract_codepoint, he] at h1
  have h2 := to_utf32_loop_shift E pre rest _ 0 (push_back [] c) rfl
  simp only [Nat.add_zero] at h2
  have h3 := to_utf32_loop_acc E _ ⟨rest, 0⟩ (push_back [] c) rfl
  have h4 := to_utf32_loop_buf E _ ⟨rest, 0⟩ [] rfl
  simp only at h4
  have e : to_utf32_loop E ⟨pre ++ rest, 0⟩ []
      = (⟨pre ++ rest, pre.length
            + (to_utf32_loop E ⟨rest, 0⟩ []).1.m_current_byte_offset⟩,
          c :: (to_utf32_loop E ⟨rest, 0⟩ []).2) := by
    rw [h1, h2, h3]
    rfl
  simp only [to_utf32, bytes_buffer_t.init, e, h4, bytes_buffer_t.has_bytes,
    List.length_append, push_back, Nat.add_lt_add_iff_left]
  split_ifs <;> rfl

/-! ## Claims C12 and C13 : byte order marks through the pipeline -/

/-- Helper: the encodings of U+FEFF are the five byte order marks. -/
theorem append_codepoint_bom :
    append_codepoint Enc.UTF8 0xFEFF [] = [0xEF, 0xBB, 0xBF]
    ∧ append_codepoint Enc.UTF16LE 0xFEFF [] = [0xFF, 0xFE]
    ∧ append_codepoint Enc.UTF16BE 0xFEFF [] = [0xFE, 0xFF]
    ∧ append_codepoint Enc.UTF32LE 0xFEFF [] = [0xFF, 0xFE, 0x00, 0x00]
    ∧ append_codepoint Enc.UTF32BE 0xFEFF [] = [0x00, 0x00, 0xFE, 0xFF] := by
  decide

/-- Helper: when the detector reports a byte order mark, the buffer starts with the
encoding of U+FEFF in the detected encoding and the reported size is its length. -/
theorem detect_bom_split (b : List Nat) (h : 0 < (detect_encoding_of b).bom_size) :
    b = append_codepoint (detect_encoding_of b).enc 0xFEFF []
          ++ b.drop (detect_encoding_of b).bom_size
    ∧ (append_codepoint (detect_encoding_of b).enc 0xFEFF []).length
        = (detect_encoding_of b).bom_size := by
  obtain ⟨b8, b16l, b16b, b32l, b32b⟩ := append_codepoint_bom
  rcases b with _ | ⟨x0, _ | ⟨x1, _ | ⟨x2, _ | ⟨x3, rest⟩⟩⟩⟩
  · exact absurd h (by decide)
  · simp [detect_encoding_of] at h
  · simp [detect_encoding_of] at h
  · simp only [detect_encoding_of, byte_at, List.getD_cons_zero, List.getD_cons_succ,
      List.length_cons, List.length_nil] at h ⊢
    split_ifs at h ⊢ <;>
      first
        | (exfalso; dsimp only at h; omega)
        | (simp only [b8, b16l, b16b, b32l, b32b, List.drop_succ_cons, List.drop_zero,
            List.cons_append, List.nil_append, List.length_cons, List.length_nil,
            List.cons.injEq, and_true, true_and]
           omega)
  · simp only [detect_encoding_of, byte_at, List.getD_cons_zero, List.getD_cons_succ,
      List.length_cons] at h ⊢
    split_ifs at h ⊢ <;>
      first
        | (exfalso; dsimp only at h; omega)
        | (simp only [b8, b16l, b16b, b32l, b32b, List.drop_succ_cons, List.drop_zero,
            List.cons_append, List.nil_append, List.length_cons, List.length_nil,
            List.cons.injEq, and_true, true_and]
           omega)

/-- Helper: decoding a buffer in which the detector found a byte order mark gives U+FEFF
followed by the decoding of the buffer without the mark. -/
theorem to_utf32_detected_bom (b : List Nat) (h : 0 < (detect_encoding_of b).bom_size) :
    to_utf32 (detect_encoding_of b).enc b
      = 0xFEFF :: to_utf32 (detect_encoding_of b).enc (b.drop (detect_encoding_of b).bom_size) := by
  have hb := (detect_bom_split b h).1
  have hc := append_codepoint_has_codepoint (detect_encoding_of b).enc 0xFEFF []
    (b.drop (detect_encoding_of b).bom_size)
  have he := extract_append (detect_encoding_of b).enc 0xFEFF []
    (b.drop (detect_encoding_of b).bom_size)
    (is_scalar_faithful (detect_encoding_of b).enc 0xFEFF (by decide))
  simp only [List.length_nil] at hc he
  have key := to_utf32_append_of_extract (detect_encoding_of b).enc _ _ 0xFEFF hc he
  rw [← hb] at key
  exact key

/-- Helper: the two flag values as seen by the `SKIP_BOM` test. -/
theorem skips_bom_values : skips_bom flag.NONE = false ∧ skips_bom flag.SKIP_BOM = true := by
  decide

/-- C12: byte order mark pass-through versus skip.  When the detector finds a mark in `b`,
`encode_as<OUT>(b, NONE)` is the `OUT` encoding of U+FEFF followed by
`encode_as<OUT>(b, SKIP_BOM)`; when it finds none the two results are equal.  With either
flag the output is exactly the `OUT` encoding of the code points decoded from the bytes
handed to the decoder: nothing is prepended. -/
theorem C12_bom_pass_through (OUT : Enc) (b : List Nat) :
    (0 < (detect_encoding_of b).bom_size →
      encode_as_bytes OUT b flag.NONE
        = append_codepoint OUT 0xFEFF [] ++ encode_as_bytes OUT b flag.SKIP_BOM)
    ∧ ((detect_encoding_of b).bom_size = 0 →
      encode_as_bytes OUT b flag.NONE = encode_as_bytes OUT b flag.SKIP_BOM)
    ∧ encode_as_bytes OUT b flag.NONE
        = encode_as OUT (to_utf32 (detect_encoding_of b).enc b)
    ∧ encode_as_bytes OUT b flag.SKIP_BOM
        = encode_as OUT (to_utf32 (detect_encoding_of b).enc
            (b.drop (detect_encoding_of b).bom_size)) := by
  have e1 : encode_as_bytes OUT b flag.NONE
      = encode_as OUT (to_utf32 (detect_encoding_of b).enc b) := by
    rw [encode_as_bytes_eq, skips_bom_values.1, reencode_eq_encode_as_to_utf32]
    rfl
  have e2 : encode_as_bytes OUT b flag.SKIP_BOM
      = encode_as OUT (to_utf32 (detect_encoding_of b).enc
          (b.drop (detect_encoding_of b).bom_size)) := by
    rw [encode_as_bytes_eq, skips_bom_values.2, reencode_eq_encode_as_to_utf32]
    rfl
  refine ⟨?_, ?_, e1, e2⟩
  · intro h
    rw [e1, e2, to_utf32_detected_bom b h, encode_as_cons]
  · intro h
    rw [e1, e2, h, List.drop_zero]

/-- Witness of C12 on EF BB BF 20 transcoded to UTF-16BE: with the mark FE FF 00 20,
without it 00 20. -/
theorem C12_bom_pass_through_witness :
    0 < (detect_encoding_of [0xEF, 0xBB, 0xBF, 0x20]).bom_size
    ∧ encode_as_bytes Enc.UTF16BE [0xEF, 0xBB, 0xBF, 0x20] flag.NONE
        = append_codepoint Enc.UTF16BE 0xFEFF []
          ++ encode_as_bytes Enc.UTF16BE [0xEF, 0xBB, 0xBF, 0x20] flag.SKIP_BOM :=
  ⟨by decide, (C12_bom_pass_through Enc.UTF16BE [0xEF, 0xBB, 0xBF, 0x20]).1 (by decide)⟩

/-! ## Claim C13 : sniffed transcoding of text behind a byte order mark -/

/-- Helper: the detector on buffers that start with one of the five byte order marks. -/
theorem detect_mark (y0 y1 : Nat) (rest : List Nat) :
    detect_encoding_of (0xEF :: 0xBB :: 0xBF :: rest) = ⟨Enc.UTF8, 3⟩
    ∧ (¬ (y0 = 0 ∧ y1 = 0) →
        detect_encoding_of (0xFF :: 0xFE :: y0 :: y1 :: rest) = ⟨Enc.UTF16LE, 2⟩)
    ∧ detect_encoding_of (0xFE :: 0xFF :: y0 :: rest) = ⟨Enc.UTF16BE, 2⟩
    ∧ detect_encoding_of (0xFF :: 0xFE :: 0x00 :: 0x00 :: rest) = ⟨Enc.UTF32LE, 4⟩
    ∧ detect_encoding_of (0x00 :: 0x00 :: 0xFE :: 0xFF :: rest) = ⟨Enc.UTF32BE, 4⟩ := by
  refine ⟨?_, ?_, ?_, ?_, ?_⟩
  on_goal 2 => intro h
  all_goals
    simp only [detect_encoding_of, byte_at, List.getD_cons_zero, List.getD_cons_succ,
      List.length_cons]
    split_ifs <;>
      first
        | rfl
        | (exfalso; omega)
        | (exfalso; simp at *)

/-- Helper: the detector on the encoding of U+FEFF followed by the encoding of a scalar
value other than U+0000 reports the encoding and the length of its byte order mark. -/
theorem detect_encoded_bom (A : Enc) (c : Nat) (rest : List Nat) (hc : is_scalar c)
    (h0 : c ≠ 0) :
    detect_encoding_of (append_codepoint A 0xFEFF [] ++ (append_codepoint A c [] ++ rest))
      = ⟨A, (append_codepoint A 0xFEFF []).length⟩ := by
  obtain ⟨b8, b16l, b16b, b32l, b32b⟩ := append_codepoint_bom
  unfold is_scalar at hc
  cases A
  · rw [b8]
    exact (detect_mark 0 0 _).1
  · rw [b16l]
    simp only [append_codepoint, (append_codepoint_UTF16_eq c []).1, List.nil_append]
    by_cases h : c < 0x10000
    · simp only [if_pos h, List.cons_append, List.nil_append]
      exact (detect_mark _ _ _).2.1 (by omega)
    · simp only [if_neg h, encode_as_utf16_eq c (by omega) (by omega), List.cons_append,
        List.nil_append]
      exact (detect_mark _ _ _).2.1 (by omega)
  · rw [b16b]
    simp only [append_codepoint, (append_codepoint_UTF16_eq c []).2, List.nil_append]
    by_cases h : c < 0x10000
    · simp only [if_pos h, List.cons_append, List.nil_append]
      exact (detect_mark _ 0 _).2.2.1
    · simp only [if_neg h, List.cons_append, List.nil_append]
      exact (detect_mark _ 0 _).2.2.1
  · rw [b32l]
    exact (detect_mark 0 0 _).2.2.2.1
  · rw [b32b]
    exact (detect_mark 0 0 _).2.2.2.2

/-- Helper: sniffed transcoding of the encoding of U+FEFF followed by a non-empty sequence
of scalar values that does not start with U+0000. -/
theorem encode_as_bytes_of_encoded (A B : Enc) (c : Nat) (s : List Nat)
    (hs : ∀ x ∈ c :: s, is_scalar x) (h0 : c ≠ 0) :
    encode_as_bytes B (encode_as A (0xFEFF :: c :: s)) flag.NONE = encode_as B (0xFEFF :: c :: s)
    ∧ encode_as_bytes B (encode_as A (0xFEFF :: c :: s)) flag.SKIP_BOM
        = encode_as B (c :: s) := by
  have hc : is_scalar c := hs c (List.mem_cons_self c s)
  have hd := detect_encoded_bom A c (encode_as A s) hc h0
  have hx : encode_as A (0xFEFF :: c :: s)
      = append_codepoint A 0xFEFF [] ++ (append_codepoint A c [] ++ encode_as A s) := by
    rw [encode_as_cons, encode_as_cons]
  have hall : ∀ x ∈ 0xFEFF :: c :: s, is_scalar x := by
    intro x hx
    rcases List.mem_cons.mp hx with e | e
    · rw [e]; decide
    · exact hs x e
  have e1 := encode_as_bytes_eq B (encode_as A (0xFEFF :: c :: s)) flag.NONE
  have e2 := encode_as_bytes_eq B (encode_as A (0xFEFF :: c :: s)) flag.SKIP_BOM
  simp only [skips_bom_values.1, skips_bom_values.2, if_true, if_false, Bool.false_eq_true,
    reencode_eq_encode_as_to_utf32] at e1 e2
  rw [← hx] at hd
  rw [hd] at e1 e2
  constructor
  · rw [e1, to_utf32_encode_as A _ hall]
  · have hdrop : (encode_as A (0xFEFF :: c :: s)).drop (append_codepoint A 0xFEFF []).length
        = encode_as A (c :: s) := by
      rw [encode_as_cons A 0xFEFF (c :: s)]
      exact List.drop_left _ _
    rw [e2]
    simp only [hdrop]
    rw [to_utf32_encode_as A _ hs]

/-- Helper: the tables of the test are the encodings of the two texts behind U+FEFF. -/
theorem test_cases_eq (E : Enc) :
    test_case_0 E = encode_as E [0xFEFF, 0x20, 0x61, 0x62]
    ∧ test_case_1 E = encode_as E
        [0xFEFF, 0xE8, 0x20, 0x75, 0x6E, 0x61, 0x20, 0x26F5, 0x20, 0x250C, 0x2500, 0x2510] := by
  cases E <;> exact ⟨by decide, by decide⟩

/-- Helper: the expectations of the test "utxt::encode_as<>(bytes)", for both texts and all
25 pairs of encodings: transcoding the table entry of `A` gives the table entry of `B`. -/
theorem test_cases_transcode (A B : Enc) :
    encode_as_bytes B (test_case_0 A) flag.NONE = test_case_0 B
    ∧ encode_as_bytes B (test_case_1 A) flag.NONE = test_case_1 B := by
  rw [(test_cases_eq A).1, (test_cases_eq A).2, (test_cases_eq B).1, (test_cases_eq B).2]
  exact ⟨(encode_as_bytes_of_encoded A B 0x20 [0x61, 0x62] (by decide) (by decide)).1,
    (encode_as_bytes_of_encoded A B 0xE8
      [0x20, 0x75, 0x6E, 0x61, 0x20, 0x26F5, 0x20, 0x250C, 0x2500, 0x2510]
      (by decide) (by decide)).1⟩

/-- C13: for every non-empty sequence `s` of Unicode scalar values whose first element is
not U+0000 and all encodings `A` and `B`, the sniffing transcoder applied to
`encode_as<A>([U+FEFF] ++ s)` gives `encode_as<B>([U+FEFF] ++ s)` with the default flags
and `encode_as<B>(s)` with `SKIP_BOM`. -/
theorem C13_sniffed_transcoding (A B : Enc) (s : List Nat) (hs : ∀ x ∈ s, is_scalar x)
    (hne : s ≠ []) (h0 : s.head? ≠ some 0) :
    encode_as_bytes B (encode_as A (0xFEFF :: s)) flag.NONE = encode_as B (0xFEFF :: s)
    ∧ encode_as_bytes B (encode_as A (0xFEFF :: s)) flag.SKIP_BOM = encode_as B s := by
  cases s with
  | nil => exact absurd rfl hne
  | cons c s =>
    refine encode_as_bytes_of_encoded A B c s hs ?_
    intro e
    apply h0
    rw [e]
    rfl

/-- Witness of C13 on the two texts of the test "utxt::encode_as<>(bytes)": " ab" read
from its UTF-16LE table entry and written as UTF-8, with and without the mark, and
"è una ⛵ ┌─┐" read from its UTF-8 table entry and written as UTF-32BE. -/
theorem C13_sniffed_transcoding_witness :
    ((∀ x ∈ [0x20, 0x61, 0x62], is_scalar x)
      ∧ [0x20, 0x61, 0x62] ≠ []
      ∧ [0x20, 0x61, 0x62].head? ≠ some 0
      ∧ encode_as_bytes Enc.UTF8 (test_case_0 Enc.UTF16LE) flag.NONE = test_case_0 Enc.UTF8
      ∧ encode_as_bytes Enc.UTF8 (test_case_0 Enc.UTF16LE) flag.SKIP_BOM = [0x20, 0x61, 0x62])
    ∧ ((∀ x ∈ [0xE8, 0x20, 0x75, 0x6E, 0x61, 0x20, 0x26F5, 0x20, 0x250C, 0x2500, 0x2510],
          is_scalar x)
      ∧ encode_as_bytes Enc.UTF32BE (test_case_1 Enc.UTF8) flag.NONE
          = test_case_1 Enc.UTF32BE) := by
  have h0 := C13_sniffed_transcoding Enc.UTF16LE Enc.UTF8 [0x20, 0x61, 0x62]
    (by decide) (by decide) (by decide)
  have h1 := C13_sniffed_transcoding Enc.UTF8 Enc.UTF32BE
    [0xE8, 0x20, 0x75, 0x6E, 0x61, 0x20, 0x26F5, 0x20, 0x250C, 0x2500, 0x2510]
    (by decide) (by decide) (by decide)
  have e0 : encode_as Enc.UTF16LE [0xFEFF, 0x20, 0x61, 0x62] = test_case_0 Enc.UTF16LE := by
    decide
  have e1 : encode_as Enc.UTF8 [0xFEFF, 0x20, 0x61, 0x62] = test_case_0 Enc.UTF8 := by decide
  have e2 : encode_as Enc.UTF8 [0x20, 0x61, 0x62] = [0x20, 0x61, 0x62] := by decide
  have e3 : encode_as Enc.UTF8
      [0xFEFF, 0xE8, 0x20, 0x75, 0x6E, 0x61, 0x20, 0x26F5, 0x20, 0x250C, 0x2500, 0x2510]
      = test_case_1 Enc.UTF8 := by decide
  have e4 : encode_as Enc.UTF32BE
      [0xFEFF, 0xE8, 0x20, 0x75, 0x6E, 0x61, 0x20, 0x26F5, 0x20, 0x250C, 0x2500, 0x2510]
      = test_case_1 Enc.UTF32BE := by decide
  rw [e0, e1, e2] at h0
  rw [e3, e4] at h1
  exact ⟨⟨by decide, by decide, by decide, h0.1, h0.2⟩, by decide, h1.1⟩

/-! ## Claim C30 : byte composer and accessors -/

/-- C30: the byte composer and the accessors are mutually inverse.  For bytes `h`, `l`,
`combine_chars(h,l)` is `256*h + l` and `high_byte_of`, `low_byte_of` give back `h`, `l`; for
every 16-bit `w`, composing its two bytes gives `w`; likewise for the four-byte composer
with `hh_byte_of`, `hl_byte_of`, `lh_byte_of`, `ll_byte_of` and every 32-bit value. -/
theorem C30_bytes_inverse (h l w hh hl lh ll d : Nat) (hh0 : h < 256) (hl0 : l < 256)
    (hw : w < 65536) (h3 : hh < 256) (h2 : hl < 256) (h1 : lh < 256) (h0 : ll < 256)
    (hd : d < 4294967296) :
    details.combine_chars h l = 256 * h + l
    ∧ details.high_byte_of (details.combine_chars h l) = h
    ∧ details.low_byte_of (details.combine_chars h l) = l
    ∧ details.combine_chars (details.high_byte_of w) (details.low_byte_of w) = w
    ∧ details.combine_chars_4 hh hl lh ll = 16777216 * hh + 65536 * hl + 256 * lh + ll
    ∧ details.hh_byte_of (details.combine_chars_4 hh hl lh ll) = hh
    ∧ details.hl_byte_of (details.combine_chars_4 hh hl lh ll) = hl
    ∧ details.lh_byte_of (details.combine_chars_4 hh hl lh ll) = lh
    ∧ details.ll_byte_of (details.combine_chars_4 hh hl lh ll) = ll
    ∧ details.combine_chars_4 (details.hh_byte_of d) (details.hl_byte_of d)
        (details.lh_byte_of d) (details.ll_byte_of d) = d := by
  simp only [combine_chars_eq, combine_chars_4_eq, high_byte_of_eq, low_byte_of_eq,
    hh_byte_of_eq, hl_byte_of_eq, lh_byte_of_eq, ll_byte_of_eq]
  refine ⟨?_, ?_, ?_, ?_, ?_, ?_, ?_, ?_, ?_, ?_⟩ <;> omega

/-- Witness of C30 on the values of the test "bitwise utilities": CA FE and 0xCAFE,
FA DE BA DA and 0xFADEBADA. -/
theorem C30_bytes_inverse_witness :
    (0xCA < 256 ∧ 0xFE < 256 ∧ 0xCAFE < 65536 ∧ 0xFA < 256 ∧ 0xDE < 256 ∧ 0xBA < 256
      ∧ 0xDA < 256 ∧ 0xFADEBADA < 4294967296)
    ∧ details.combine_chars 0xCA 0xFE = 0xCAFE
    ∧ details.high_byte_of 0xCAFE = 0xCA
    ∧ details.low_byte_of 0xCAFE = 0xFE
    ∧ details.combine_chars_4 0xFA 0xDE 0xBA 0xDA = 0xFADEBADA
    ∧ details.hh_byte_of 0xFADEBADA = 0xFA
    ∧ details.hl_byte_of 0xFADEBADA = 0xDE
    ∧ details.lh_byte_of 0xFADEBADA = 0xBA
    ∧ details.ll_byte_of 0xFADEBADA = 0xDA
    ∧ details.combine_chars (details.high_byte_of 0xCAFE) (details.low_byte_of 0xCAFE) = 0xCAFE :=
  ⟨by decide, by decide, by decide, by decide, by decide, by decide, by decide, by decide,
    by decide,
    (C30_bytes_inverse 0xCA 0xFE 0xCAFE 0xFA 0xDE 0xBA 0xDA 0xFADEBADA (by decide) (by decide)
      (by decide) (by decide) (by decide) (by decide) (by decide) (by decide)).2.2.2.1⟩

/-! ## Claim C28 : the UTF-8 decoder checks bit patterns only -/

/-- Helper: the loop of `to_utf32<UTF8>` on the overlong form C0 80 makes one turn. -/
theorem to_utf32_loop_C0_80 :
    to_utf32_loop Enc.UTF8 (bytes_buffer_t.init [0xC0, 0x80]) []
      = (⟨[0xC0, 0x80], 2⟩, [0x0000]) := by
  have s1 : (bytes_buffer_t.init [0xC0, 0x80]).extract_codepoint Enc.UTF8
      = (0x0000, ⟨[0xC0, 0x80], 2⟩) := by decide
  rw [to_utf32_loop_step _ _ _ (by decide), s1, to_utf32_loop_stop _ _ _ (by decide)]
  rfl

/-- Helper: the loop of `to_utf32<UTF8>` on ED A0 80 makes one turn. -/
theorem to_utf32_loop_ED_A0_80 :
    to_utf32_loop Enc.UTF8 (bytes_buffer_t.init [0xED, 0xA0, 0x80]) []
      = (⟨[0xED, 0xA0, 0x80], 3⟩, [0xD800]) := by
  have s1 : (bytes_buffer_t.init [0xED, 0xA0, 0x80]).extract_codepoint Enc.UTF8
      = (0xD800, ⟨[0xED, 0xA0, 0x80], 3⟩) := by decide
  rw [to_utf32_loop_step _ _ _ (by decide), s1, to_utf32_loop_stop _ _ _ (by decide)]
  rfl

/-- C28: the UTF-8 decoder checks bit patterns only.  The overlong form C0 80 decodes to
U+0000 consuming 2 bytes and ED A0 80 decodes to the surrogate U+D800 consuming 3 bytes,
both without any replacement code point; so some input decoded without replacement is
changed by `reencode<UTF8,UTF8>`: C0 80 becomes the single byte 00. -/
theorem C28_utf8_bit_patterns_only :
    extract_codepoint Enc.UTF8 [0xC0, 0x80] 0 = (0x0000, 2)
    ∧ extract_codepoint Enc.UTF8 [0xED, 0xA0, 0x80] 0 = (0xD800, 3)
    ∧ ¬ is_scalar 0xD800
    ∧ to_utf32 Enc.UTF8 [0xC0, 0x80] = [0x0000]
    ∧ to_utf32 Enc.UTF8 [0xED, 0xA0, 0x80] = [0xD800]
    ∧ reencode Enc.UTF8 Enc.UTF8 [0xC0, 0x80] = [0x00]
    ∧ (∃ b : List Nat, codepoint.invalid ∉ to_utf32 Enc.UTF8 b
        ∧ reencode Enc.UTF8 Enc.UTF8 b ≠ b) := by
  have e1 : to_utf32 Enc.UTF8 [0xC0, 0x80] = [0x0000] := by
    simp only [to_utf32, to_utf32_loop_C0_80]
    decide
  have e2 : to_utf32 Enc.UTF8 [0xED, 0xA0, 0x80] = [0xD800] := by
    simp only [to_utf32, to_utf32_loop_ED_A0_80]
    decide
  have e3 : reencode Enc.UTF8 Enc.UTF8 [0xC0, 0x80] = [0x00] := by
    rw [reencode_eq_encode_as_to_utf32, e1]
    decide
  refine ⟨by decide, by decide, by decide, e1, e2, e3, [0xC0, 0x80], ?_, ?_⟩
  · rw [e1]; decide
  · rw [e3]; decide

/-! ## Claim C25 : the second unit of UTF-16 -/

/-- Helper: the loop of `to_utf32<UTF16BE>` on D8 00 00 41 makes two turns. -/
theorem to_utf32_loop_D8_00_00_41 :
    to_utf32_loop Enc.UTF16BE (bytes_buffer_t.init [0xD8, 0x00, 0x00, 0x41]) []
      = (⟨[0xD8, 0x00, 0x00, 0x41], 4⟩, [0xFFFD, 0x0041]) := by
  have s1 : (bytes_buffer_t.init [0xD8, 0x00, 0x00, 0x41]).extract_codepoint Enc.UTF16BE
      = (0xFFFD, ⟨[0xD8, 0x00, 0x00, 0x41], 2⟩) := by decide
  have s2 : (bytes_buffer_t.extract_codepoint Enc.UTF16BE ⟨[0xD8, 0x00, 0x00, 0x41], 2⟩)
      = (0x0041, ⟨[0xD8, 0x00, 0x00, 0x41], 4⟩) := by decide
  rw [to_utf32_loop_step _ _ _ (by decide), s1, to_utf32_loop_step _ _ _ (by decide), s2,
    to_utf32_loop_stop _ _ _ (by decide)]
  rfl

/-- Helper: the three outcomes of the UTF-16 decoder, by the first unit, the bytes left and
the second unit. -/
theorem extract_utf16_cases (LE : Bool) (bytes : List Nat) (pos : Nat) :
    (0xD800 ≤ get_code_unit LE bytes pos ∧ get_code_unit LE bytes pos < 0xDC00
        ∧ pos + 3 < bytes.length
        ∧ 0xDC00 ≤ get_code_unit LE bytes (pos + 2) ∧ get_code_unit LE bytes (pos + 2) < 0xE000
      → extract_next_codepoint_from_utf16 LE bytes pos
          = (0x10000 + (get_code_unit LE bytes pos - 0xD800) * 1024
              + (get_code_unit LE bytes (pos + 2) - 0xDC00), pos + 4))
    ∧ (¬ (0xD800 ≤ get_code_unit LE bytes pos ∧ get_code_unit LE bytes pos < 0xDC00
        ∧ pos + 3 < bytes.length
        ∧ 0xDC00 ≤ get_code_unit LE bytes (pos + 2) ∧ get_code_unit LE bytes (pos + 2) < 0xE000)
      → (extract_next_codepoint_from_utf16 LE bytes pos).2 = pos + 2) := by
  constructor
  · rintro ⟨a1, a2, a3, a4, a5⟩
    exact extract_utf16_pair LE bytes pos a1 a2 a3 a4 a5
  · intro hn
    by_cases hb : get_code_unit LE bytes pos < 0xD800 ∨ get_code_unit LE bytes pos ≥ 0xE000
    · rw [extract_utf16_bmp LE bytes pos hb]
    · rw [extract_utf16_invalid LE bytes pos (by omega) (by omega) (by omega)]

/-- C25: the UTF-16 decoder consumes a second unit only for a valid pair.  For UTF-16LE and
UTF-16BE, at a position with at least 2 bytes left, the decoder advances by 4 bytes if and
only if the first unit is in [0xD800,0xDC00), 2 more bytes are available and the second
unit is in [0xDC00,0xE000), and then returns
`0x10000 + ((lead-0xD800)<<10) + (trail-0xDC00)`; in every other case it advances by exactly
2.  So the unit after an unpaired leading surrogate is decoded again: big-endian
D8 00 00 41 decodes to U+FFFD, U+0041. -/
theorem C25_utf16_second_unit (LE : Bool) (bytes : List Nat) (pos : Nat)
    (hlen : pos + 1 < bytes.length) :
    ((extract_codepoint (if LE then Enc.UTF16LE else Enc.UTF16BE) bytes pos).2 = pos + 4
      ↔ (0xD800 ≤ get_code_unit LE bytes pos ∧ get_code_unit LE bytes pos < 0xDC00
          ∧ 2 ≤ bytes.length - (pos + 2)
          ∧ 0xDC00 ≤ get_code_unit LE bytes (pos + 2)
          ∧ get_code_unit LE bytes (pos + 2) < 0xE000))
    ∧ ((extract_codepoint (if LE then Enc.UTF16LE else Enc.UTF16BE) bytes pos).2 = pos + 4
        → (extract_codepoint (if LE then Enc.UTF16LE else Enc.UTF16BE) bytes pos).1
            = 0x10000 + ((get_code_unit LE bytes pos - 0xD800) <<< 10)
                + (get_code_unit LE bytes (pos + 2) - 0xDC00))
    ∧ ((extract_codepoint (if LE then Enc.UTF16LE else Enc.UTF16BE) bytes pos).2 ≠ pos + 4
        → (extract_codepoint (if LE then Enc.UTF16LE else Enc.UTF16BE) bytes pos).2 = pos + 2)
    ∧ to_utf32 Enc.UTF16BE [0xD8, 0x00, 0x00, 0x41] = [0xFFFD, 0x0041] := by
  have e : extract_codepoint (if LE then Enc.UTF16LE else Enc.UTF16BE) bytes pos
      = extract_next_codepoint_from_utf16 LE bytes pos := by
    cases LE <;> rfl
  have hc := extract_utf16_cases LE bytes pos
  have hs : ∀ x : Nat, x <<< 10 = x * 1024 := by
    intro x
    simp only [Nat.shiftLeft_eq, Nat.reducePow]
  rw [e]
  simp only [hs]
  by_cases hp : 0xD800 ≤ get_code_unit LE bytes pos ∧ get_code_unit LE bytes pos < 0xDC00
      ∧ pos + 3 < bytes.length
      ∧ 0xDC00 ≤ get_code_unit LE bytes (pos + 2) ∧ get_code_unit LE bytes (pos + 2) < 0xE000
  · have k := hc.1 hp
    refine ⟨?_, ?_, ?_, ?_⟩
    · simp only [k]
      constructor
      · intro _
        omega
      · intro _
        trivial
    · intro _
      simp only [k]
    · intro hne
      simp only [k] at hne
      exact absurd rfl hne
    · simp only [to_utf32, to_utf32_loop_D8_00_00_41]
      decide
  · have k := hc.2 hp
    refine ⟨?_, ?_, ?_, ?_⟩
    · rw [k]
      constructor
      · intro h4
        omega
      · intro h4
        exact absurd (by omega) hp
    · intro h4
      rw [k] at h4
      omega
    · intro _
      exact k
    · simp only [to_utf32, to_utf32_loop_D8_00_00_41]
      decide

/-- Witness of C25: the little-endian pair 3D D8 00 DE (U+1F600) advances by 4. -/
theorem C25_utf16_second_unit_witness :
    0 + 1 < [0x3D, 0xD8, 0x00, 0xDE].length
    ∧ extract_codepoint Enc.UTF16LE [0x3D, 0xD8, 0x00, 0xDE] 0 = (0x1F600, 4)
    ∧ ((extract_codepoint (if true then Enc.UTF16LE else Enc.UTF16BE)
          [0x3D, 0xD8, 0x00, 0xDE] 0).2 = 0 + 4
      ↔ (0xD800 ≤ get_code_unit true [0x3D, 0xD8, 0x00, 0xDE] 0
          ∧ get_code_unit true [0x3D, 0xD8, 0x00, 0xDE] 0 < 0xDC00
          ∧ 2 ≤ [0x3D, 0xD8, 0x00, 0xDE].length - (0 + 2)
          ∧ 0xDC00 ≤ get_code_unit true [0x3D, 0xD8, 0x00, 0xDE] (0 + 2)
          ∧ get_code_unit true [0x3D, 0xD8, 0x00, 0xDE] (0 + 2) < 0xE000)) :=
  ⟨by decide, by decide,
    (C25_utf16_second_unit true [0x3D, 0xD8, 0x00, 0xDE] 0 (by decide)).1⟩

/-! ## Claim C24 : the reported byte order mark is there -/

/-- Helper: the sizes the detector reports, against the length of the buffer. -/
theorem detect_bom_size (b : List Nat) :
    ((detect_encoding_of b).bom_size = 0 ∨ (detect_encoding_of b).bom_size = 2
      ∨ (detect_encoding_of b).bom_size = 3 ∨ (detect_encoding_of b).bom_size = 4)
    ∧ (detect_encoding_of b).bom_size ≤ b.length := by
  unfold detect_encoding_of
  split_ifs <;> dsimp only <;> omega

/-- C24: the reported byte order mark is really there.  With
`(D, n) = detect_encoding_of(b)`, `n` is one of 0, 2, 3, 4 and `n <= |b|`; when `n > 0`
the first `n` bytes of `b` are exactly the `D`-encoding of U+FEFF, so dropping `n` bytes
under `SKIP_BOM` removes exactly the mark: what is left has `|b| - n` bytes and, put behind
the mark, gives `b` back. -/
theorem C24_reported_bom_present (b : List Nat) :
    ((detect_encoding_of b).bom_size = 0 ∨ (detect_encoding_of b).bom_size = 2
      ∨ (detect_encoding_of b).bom_size = 3 ∨ (detect_encoding_of b).bom_size = 4)
    ∧ (detect_encoding_of b).bom_size ≤ b.length
    ∧ (0 < (detect_encoding_of b).bom_size →
        b.take (detect_encoding_of b).bom_size
            = append_codepoint (detect_encoding_of b).enc 0xFEFF []
          ∧ b = append_codepoint (detect_encoding_of b).enc 0xFEFF []
                  ++ b.drop (detect_encoding_of b).bom_size)
    ∧ (b.drop (detect_encoding_of b).bom_size).length
        = b.length - (detect_encoding_of b).bom_size := by
  refine ⟨(detect_bom_size b).1, (detect_bom_size b).2, ?_, List.length_drop _ _⟩
  intro h
  have hs := detect_bom_split b h
  refine ⟨?_, hs.1⟩
  have e : b.take (detect_encoding_of b).bom_size
      = (append_codepoint (detect_encoding_of b).enc 0xFEFF []
          ++ b.drop (detect_encoding_of b).bom_size).take
            (append_codepoint (detect_encoding_of b).enc 0xFEFF []).length := by
    rw [← hs.1, hs.2]
  rw [e]
  exact List.take_left _ _

/-- Witness of C24 on the UTF-16BE buffer FE FF 00 41: the detector reports 2 bytes and
they are FE FF. -/
theorem C24_reported_bom_present_witness :
    0 < (detect_encoding_of [0xFE, 0xFF, 0x00, 0x41]).bom_size
    ∧ [0xFE, 0xFF, 0x00, 0x41].take (detect_encoding_of [0xFE, 0xFF, 0x00, 0x41]).bom_size
        = append_codepoint (detect_encoding_of [0xFE, 0xFF, 0x00, 0x41]).enc 0xFEFF []
    ∧ append_codepoint (detect_encoding_of [0xFE, 0xFF, 0x00, 0x41]).enc 0xFEFF []
        = [0xFE, 0xFF] :=
  ⟨by decide,
    ((C24_reported_bom_present [0xFE, 0xFF, 0x00, 0x41]).2.2.1 (by decide)).1,
    by decide⟩

/-! ## Invariants of the cursor loop -/

/-- Helper: one extraction under `has_codepoint` keeps the buffer, advances the offset by at
least the unit width (by exactly 4 for UTF-32) and stays inside the buffer. -/
theorem extract_codepoint_advance (E : Enc) (b : bytes_buffer_t)
    (hc : b.has_codepoint E = true) :
    (b.extract_codepoint E).2.m_byte_buf = b.m_byte_buf
    ∧ b.m_current_byte_offset + unit_width E ≤ (b.extract_codepoint E).2.m_current_byte_offset
    ∧ (b.extract_codepoint E).2.m_current_byte_offset ≤ b.m_byte_buf.length
    ∧ (b.extract_codepoint E).2.m_current_byte_offset ≤ b.m_current_byte_offset + 4
    ∧ (unit_width E = 4 →
        (b.extract_codepoint E).2.m_current_byte_offset = b.m_current_byte_offset + 4)
    ∧ (unit_width E = 2 →
        (b.extract_codepoint E).2.m_current_byte_offset = b.m_current_byte_offset + 2
        ∨ (b.extract_codepoint E).2.m_current_byte_offset = b.m_current_byte_offset + 4) := by
  have hu := (has_codepoint_unit_width E b.m_byte_buf b.m_current_byte_offset).1 hc
  cases E
  · simp only [unit_width] at hu
    have k := extract_UTF8_advance b.m_byte_buf b.m_current_byte_offset (by omega)
    simp only [bytes_buffer_t.extract_codepoint, extract_codepoint, unit_width, true_and]
    omega
  · simp only [unit_width] at hu
    have k := extract_utf16_advance true b.m_byte_buf b.m_current_byte_offset (by omega)
    simp only [bytes_buffer_t.extract_codepoint, extract_codepoint, unit_width, true_and]
    omega
  · simp only [unit_width] at hu
    have k := extract_utf16_advance false b.m_byte_buf b.m_current_byte_offset (by omega)
    simp only [bytes_buffer_t.extract_codepoint, extract_codepoint, unit_width, true_and]
    omega
  · simp only [unit_width] at hu
    simp only [bytes_buffer_t.extract_codepoint, extract_codepoint, extract_codepoint_UTF32LE,
      unit_width, true_and, true_implies]
    omega
  · simp only [unit_width] at hu
    simp only [bytes_buffer_t.extract_codepoint, extract_codepoint, extract_codepoint_UTF32BE,
      unit_width, true_and, true_implies]
    omega

/-- Helper: an invariant of the cursor loop of `to_utf32`.  A property of the cursor and the
output that every turn preserves holds when the loop stops, and then `has_codepoint` is
false. -/
theorem to_utf32_loop_invariant (E : Enc) (P : bytes_buffer_t → List Nat → Prop)
    (hstep : ∀ (b : bytes_buffer_t) (acc : List Nat), b.has_codepoint E = true → P b acc →
      P (b.extract_codepoint E).2 (acc ++ [(b.extract_codepoint E).1])) (n : Nat) :
    ∀ (b : bytes_buffer_t) (acc : List Nat),
      b.m_byte_buf.length - b.m_current_byte_offset = n → P b acc →
      P (to_utf32_loop E b acc).1 (to_utf32_loop E b acc).2
      ∧ (to_utf32_loop E b acc).1.has_codepoint E = false := by
  induction n using Nat.strong_induction_on with
  | _ n ih =>
    intro b acc hn hP
    by_cases h : b.has_codepoint E = true
    · have hm := (extract_codepoint_measure E b h).2
      rw [to_utf32_loop_step E b acc h]
      exact ih _ (by omega) _ _ rfl (hstep b acc h hP)
    · have h0 : b.has_codepoint E = false := by simpa using h
      rw [to_utf32_loop_stop E b acc h0]
      exact ⟨hP, h0⟩

/-- Helper: the state of the cursor loop of `to_utf32` when it stops: same buffer, offset
inside it and fewer than one unit left, and the code points counted against the offset. -/
theorem to_utf32_loop_count (E : Enc) (b : List Nat) :
    (to_utf32_loop E (bytes_buffer_t.init b) []).1.m_byte_buf = b
    ∧ (to_utf32_loop E (bytes_buffer_t.init b) []).1.m_current_byte_offset ≤ b.length
    ∧ b.length < (to_utf32_loop E (bytes_buffer_t.init b) []).1.m_current_byte_offset
        + unit_width E
    ∧ (to_utf32_loop E (bytes_buffer_t.init b) []).2.length * unit_width E
        ≤ (to_utf32_loop E (bytes_buffer_t.init b) []).1.m_current_byte_offset
    ∧ (unit_width E = 4 →
        (to_utf32_loop E (bytes_buffer_t.init b) []).2.length * 4
          = (to_utf32_loop E (bytes_buffer_t.init b) []).1.m_current_byte_offset)
    ∧ (to_utf32_loop E (bytes_buffer_t.init b) []).1.m_current_byte_offset % unit_width E = 0 := by
  have key := to_utf32_loop_invariant E
    (fun buf acc => buf.m_byte_buf = b ∧ buf.m_current_byte_offset ≤ b.length
      ∧ acc.length * unit_width E ≤ buf.m_current_byte_offset
      ∧ (unit_width E = 4 → acc.length * 4 = buf.m_current_byte_offset)
      ∧ buf.m_current_byte_offset % unit_width E = 0)
    (by
      intro buf acc hc hP
      obtain ⟨p1, p2, p3, p4, p5⟩ := hP
      obtain ⟨a1, a2, a3, a4, a5, a6⟩ := extract_codepoint_advance E buf hc
      rw [p1] at a1 a3
      refine ⟨a1, a3, ?_, ?_, ?_⟩
      · simp only [List.length_append, List.length_cons, List.length_nil]
        rw [Nat.add_mul]
        omega
      · intro h4
        have q4 := p4 h4
        have q5 := a5 h4
        simp only [List.length_append, List.length_cons, List.length_nil]
        omega
      · cases E
        · simp only [unit_width]; omega
        · simp only [unit_width] at a6 p5 ⊢
          have := a6 trivial
          omega
        · simp only [unit_width] at a6 p5 ⊢
          have := a6 trivial
          omega
        · simp only [unit_width] at a5 p5 ⊢
          have := a5 trivial
          omega
        · simp only [unit_width] at a5 p5 ⊢
          have := a5 trivial
          omega)
    _ (bytes_buffer_t.init b) [] rfl
    (by
      refine ⟨rfl, ?_, ?_, ?_, ?_⟩
      · simp [bytes_buffer_t.init]
      · simp [bytes_buffer_t.init]
      · intro _
        simp [bytes_buffer_t.init]
      · simp [bytes_buffer_t.init])
  obtain ⟨⟨p1, p2, p3, p4, p5⟩, hstop⟩ := key
  refine ⟨p1, p2, ?_, p3, p4, p5⟩
  have hn : ¬ ((to_utf32_loop E (bytes_buffer_t.init b) []).1.m_current_byte_offset
      + unit_width E ≤ (to_utf32_loop E (bytes_buffer_t.init b) []).1.m_byte_buf.length) := by
    intro hle
    have := (has_codepoint_unit_width E _ _).2 hle
    rw [hstop] at this
    exact Bool.false_ne_true this
  rw [p1] at hn
  omega

/-- Helper: the result of `to_utf32` from the state of its loop. -/
theorem to_utf32_eq_loop (E : Enc) (b : List Nat) :
    to_utf32 E b
      = if (to_utf32_loop E (bytes_buffer_t.init b) []).1.m_current_byte_offset < b.length then
          (to_utf32_loop E (bytes_buffer_t.init b) []).2 ++ [codepoint.invalid]
        else (to_utf32_loop E (bytes_buffer_t.init b) []).2 := by
  have h := (to_utf32_loop_count E b).1
  simp only [to_utf32, bytes_buffer_t.has_bytes, h, push_back, decide_eq_true_eq]

/-! ## Claim C21 : decoding is total and bounded -/

/-- C21: decoding is total and bounded.  Each extraction made under `has_codepoint` leaves
strictly fewer bytes after the cursor, which is what makes the loops of `to_utf32<E>` and
`reencode<E,OUT>` stop (they are total functions here, and `reencode` encodes exactly the
code points of `to_utf32`); and `to_utf32<E>(b)` holds at most `|b|` code points, at most
`ceil(|b|/2)` for UTF-16 and exactly `ceil(|b|/4)` for UTF-32. -/
theorem C21_decoding_bounded (E OUT : Enc) (b : List Nat) :
    (∀ buf : bytes_buffer_t, buf.has_codepoint E = true →
        buf.m_current_byte_offset < (buf.extract_codepoint E).2.m_current_byte_offset
        ∧ (buf.extract_codepoint E).2.m_byte_buf.length
            - (buf.extract_codepoint E).2.m_current_byte_offset
          < buf.m_byte_buf.length - buf.m_current_byte_offset)
    ∧ reencode E OUT b = encode_as OUT (to_utf32 E b)
    ∧ (to_utf32 E b).length ≤ b.length
    ∧ (to_utf32 E b).length ≤ (b.length + unit_width E - 1) / unit_width E
    ∧ (E = Enc.UTF16LE ∨ E = Enc.UTF16BE → (to_utf32 E b).length ≤ (b.length + 1) / 2)
    ∧ (E = Enc.UTF32LE ∨ E = Enc.UTF32BE → (to_utf32 E b).length = (b.length + 3) / 4) := by
  obtain ⟨c1, c2, c3, c4, c5, c6⟩ := to_utf32_loop_count E b
  have e := to_utf32_eq_loop E b
  refine ⟨?_, reencode_eq_encode_as_to_utf32 E OUT b, ?_, ?_, ?_, ?_⟩
  · intro buf hc
    have m := extract_codepoint_measure E buf hc
    have a := extract_codepoint_advance E buf hc
    have hw : 0 < unit_width E := by cases E <;> simp [unit_width]
    exact ⟨by omega, m.2⟩
  · rw [e]
    cases E <;> simp only [unit_width] at c3 c4 c5 c6 <;> split_ifs <;>
      (try simp only [List.length_append, List.length_cons, List.length_nil]) <;> omega
  · rw [e]
    cases E <;> simp only [unit_width] at c3 c4 c5 c6 ⊢ <;> split_ifs <;>
      (try simp only [List.length_append, List.length_cons, List.length_nil]) <;> omega
  · intro hE
    rw [e]
    rcases hE with hE | hE <;> subst hE <;> simp only [unit_width] at c3 c4 c5 c6 <;>
      split_ifs <;>
      (try simp only [List.length_append, List.length_cons, List.length_nil]) <;> omega
  · intro hE
    rw [e]
    rcases hE with hE | hE <;> subst hE <;> simp only [unit_width] at c3 c4 c5 c6 <;>
      have q := c5 trivial <;> split_ifs <;>
      (try simp only [List.length_append, List.length_cons, List.length_nil]) <;> omega

/-- Witness of C21 on five bytes read as UTF-32LE: one full unit and a truncated one give
`ceil(5/4) = 2` code points. -/
theorem C21_decoding_bounded_witness :
    (Enc.UTF32LE = Enc.UTF32LE ∨ Enc.UTF32LE = Enc.UTF32BE)
    ∧ (to_utf32 Enc.UTF32LE [0x41, 0x00, 0x00, 0x00, 0x42]).length
        = ([0x41, 0x00, 0x00, 0x00, 0x42].length + 3) / 4 :=
  ⟨by decide,
    (C21_decoding_bounded Enc.UTF32LE Enc.UTF8 [0x41, 0x00, 0x00, 0x00, 0x42]).2.2.2.2.2
      (by decide)⟩

/-! ## Claim C26 : UTF-16 decoding yields scalar values -/

/-- Helper: every code point produced by `to_utf32` from UTF-16 is a Unicode scalar value. -/
theorem to_utf32_utf16_scalar (E : Enc) (hE : E = Enc.UTF16LE ∨ E = Enc.UTF16BE) (b : List Nat) :
    ∀ c ∈ to_utf32 E b, is_scalar c := by
  have key := to_utf32_loop_invariant E
    (fun _ acc => ∀ c ∈ acc, is_scalar c)
    (by
      intro buf acc _ hP c hc
      rcases List.mem_append.mp hc with h | h
      · exact hP c h
      · have hx : c = (buf.extract_codepoint E).1 := by
          simpa using h
        rw [hx]
        rcases hE with hE | hE <;> subst hE
        · exact extract_utf16_is_scalar true _ _
        · exact extract_utf16_is_scalar false _ _)
    _ (bytes_buffer_t.init b) [] rfl (by intro c hc; simp at hc)
  intro c hc
  rw [to_utf32_eq_loop] at hc
  split_ifs at hc
  · rcases List.mem_append.mp hc with h | h
    · exact key.1 c h
    · have hx : c = codepoint.invalid := by simpa using h
      rw [hx]
      decide
  · exact key.1 c hc

/-- C26: UTF-16 decoding only ever yields Unicode scalar values.  For UTF-16LE and UTF-16BE,
every buffer and every position, the value returned by the decoder lies in [0,0xD800) or
[0xE000,0x10FFFF]; hence `to_utf32<E>(b)` never holds a surrogate or a value above
0x10FFFF. -/
theorem C26_utf16_yields_scalars (E : Enc) (hE : E = Enc.UTF16LE ∨ E = Enc.UTF16BE)
    (bytes : List Nat) (pos : Nat) :
    ((extract_codepoint E bytes pos).1 < 0xD800
      ∨ (0xE000 ≤ (extract_codepoint E bytes pos).1
          ∧ (extract_codepoint E bytes pos).1 ≤ 0x10FFFF))
    ∧ (∀ c ∈ to_utf32 E bytes, c < 0xD800 ∨ (0xE000 ≤ c ∧ c ≤ 0x10FFFF)) := by
  refine ⟨?_, ?_⟩
  · rcases hE with hE | hE <;> subst hE
    · exact extract_utf16_is_scalar true bytes pos
    · exact extract_utf16_is_scalar false bytes pos
  · intro c hc
    exact to_utf32_utf16_scalar E hE bytes c hc

/-- Witness of C26 on the big-endian buffer D8 00 00 41 (an unpaired leading surrogate):
the decoder yields U+FFFD, not the surrogate. -/
theorem C26_utf16_yields_scalars_witness :
    (Enc.UTF16BE = Enc.UTF16LE ∨ Enc.UTF16BE = Enc.UTF16BE)
    ∧ (extract_codepoint Enc.UTF16BE [0xD8, 0x00, 0x00, 0x41] 0).1 = 0xFFFD
    ∧ ((extract_codepoint Enc.UTF16BE [0xD8, 0x00, 0x00, 0x41] 0).1 < 0xD800
      ∨ (0xE000 ≤ (extract_codepoint Enc.UTF16BE [0xD8, 0x00, 0x00, 0x41] 0).1
          ∧ (extract_codepoint Enc.UTF16BE [0xD8, 0x00, 0x00, 0x41] 0).1 ≤ 0x10FFFF)) :=
  ⟨by decide, by decide,
    (C26_utf16_yields_scalars Enc.UTF16BE (by decide) [0xD8, 0x00, 0x00, 0x41] 0).1⟩

/-! ## Claim C23 : no assertion failure and no read outside the buffer -/

/-- Helper: the UTF-8 decoder, started inside the buffer, reads only inside the buffer. -/
theorem extract_codepoint_UTF8_reads_lt (bytes : List Nat) (pos : Nat)
    (h : pos < bytes.length) :
    ∀ i ∈ extract_codepoint_UTF8_reads bytes pos, i < bytes.length := by
  intro i hi
  unfold extract_codepoint_UTF8_reads at hi
  simp only [List.mem_append, List.mem_cons, List.mem_singleton, List.not_mem_nil,
    or_false] at hi
  rcases hi with hi | hi
  · omega
  · split_ifs at hi <;>
      simp only [List.mem_append, List.mem_cons, List.mem_singleton, List.not_mem_nil,
        or_false, false_or, or_self] at hi <;>
      omega

/-- Helper: the UTF-16 decoder, started with a full unit left, reads only inside the
buffer. -/
theorem extract_utf16_reads_lt (LE : Bool) (bytes : List Nat) (pos : Nat)
    (h : pos + 1 < bytes.length) :
    ∀ i ∈ extract_next_codepoint_from_utf16_reads LE bytes pos, i < bytes.length := by
  intro i hi
  unfold extract_next_codepoint_from_utf16_reads get_code_unit_reads at hi
  dsimp only at hi
  cases LE <;>
    simp only [Bool.false_eq_true, if_false, if_true] at hi <;>
    split_ifs at hi <;>
    simp only [List.mem_append, List.mem_cons, List.mem_singleton, List.not_mem_nil,
      or_false] at hi <;>
    omega

/-- Helper: under `has_codepoint` every check of a call of `extract_codepoint()` passes. -/
theorem extract_codepoint_checks_ok (E : Enc) (b : bytes_buffer_t)
    (hc : b.has_codepoint E = true) :
    extract_codepoint_assert E b.m_byte_buf b.m_current_byte_offset = true
    ∧ (∀ i ∈ extract_codepoint_reads E b.m_byte_buf b.m_current_byte_offset,
        i < b.m_byte_buf.length)
    ∧ (b.extract_codepoint E).2.m_current_byte_offset ≤ b.m_byte_buf.length
    ∧ b.extract_codepoint_checks E = true := by
  have hu := (has_codepoint_unit_width E b.m_byte_buf b.m_current_byte_offset).1 hc
  have ha := (extract_codepoint_advance E b hc).2.2.1
  have h1 : extract_codepoint_assert E b.m_byte_buf b.m_current_byte_offset = true := by
    cases E <;> simp only [unit_width] at hu <;>
      simp only [extract_codepoint_assert, decide_eq_true_eq] <;> omega
  have h2 : ∀ i ∈ extract_codepoint_reads E b.m_byte_buf b.m_current_byte_offset,
      i < b.m_byte_buf.length := by
    cases E <;> simp only [unit_width] at hu
    · exact extract_codepoint_UTF8_reads_lt _ _ (by omega)
    · exact extract_utf16_reads_lt true _ _ (by omega)
    · exact extract_utf16_reads_lt false _ _ (by omega)
    · intro i hi
      simp only [extract_codepoint_reads, List.mem_cons, List.mem_singleton, List.not_mem_nil,
        or_false] at hi
      omega
    · intro i hi
      simp only [extract_codepoint_reads, List.mem_cons, List.mem_singleton, List.not_mem_nil,
        or_false] at hi
      omega
  refine ⟨h1, h2, ha, ?_⟩
  simp only [bytes_buffer_t.extract_codepoint_checks, hc, h1, Bool.true_and, Bool.and_eq_true,
    List.all_eq_true, decide_eq_true_eq]
  exact ⟨h2, ha⟩

/-- Helper: the assertion of the encoder never fails. -/
theorem append_codepoint_assert_ok (E : Enc) (cp : Nat) : append_codepoint_assert E cp = true := by
  cases E <;> simp only [append_codepoint_assert]
  · split_ifs
    · rfl
    · simp only [decide_eq_true_eq]; omega
  · split_ifs
    · rfl
    · simp only [decide_eq_true_eq]; omega

/-- Helper: the checked loop of `to_utf32` never fails and computes what the loop computes. -/
theorem to_utf32_loop_checked_eq (E : Enc) (n : Nat) :
    ∀ (b : bytes_buffer_t) (acc : List Nat),
      b.m_byte_buf.length - b.m_current_byte_offset = n →
      to_utf32_loop_checked E b acc = some (to_utf32_loop E b acc) := by
  induction n using Nat.strong_induction_on with
  | _ n ih =>
    intro b acc hn
    by_cases h : b.has_codepoint E = true
    · have hm := (extract_codepoint_measure E b h).2
      have hk := (extract_codepoint_checks_ok E b h).2.2.2
      rw [to_utf32_loop_checked, dif_pos h, if_pos hk, to_utf32_loop_step E b acc h]
      exact ih _ (by omega) _ _ rfl
    · have h0 : b.has_codepoint E = false := by simpa using h
      rw [to_utf32_loop_checked, dif_neg h, to_utf32_loop_stop E b acc h0]

/-- Helper: the checked loop of `reencode` never fails and computes what the loop
computes. -/
theorem reencode_loop_checked_eq (A B : Enc) (n : Nat) :
    ∀ (b : bytes_buffer_t) (out : List Nat),
      b.m_byte_buf.length - b.m_current_byte_offset = n →
      reencode_loop_checked A B b out = some (reencode_loop A B b out) := by
  induction n using Nat.strong_induction_on with
  | _ n ih =>
    intro b out hn
    by_cases h : b.has_codepoint A = true
    · have hm := (extract_codepoint_measure A b h).2
      have hk := (extract_codepoint_checks_ok A b h).2.2.2
      rw [reencode_loop_checked, dif_pos h,
        if_pos ⟨hk, append_codepoint_assert_ok B _⟩, reencode_loop_step A B b out h]
      exact ih _ (by omega) _ _ rfl
    · have h0 : b.has_codepoint A = false := by simpa using h
      rw [reencode_loop_checked, dif_neg h, reencode_loop_stop A B b out h0]

/-- C23: no assertion fails and no byte is read outside the buffer in the pipeline.  For
every encoding and every buffer, `to_utf32<E>(b)` and `reencode<E,OUT>(b)` run with all
their checks passing (the checked runs return the results of the unchecked ones); and for
every cursor on which `has_codepoint` holds, which is the guard of both loops, the
assertion at the head of the decoder holds, every index read by the decoder (including
`pos+1`, `pos+2`, `pos+3` and the second UTF-16 unit) is below the buffer length, and the
offset after the extraction is at most the length. -/
theorem C23_no_assertion_failure (E OUT : Enc) (b : List Nat) :
    to_utf32_checked E b = some (to_utf32 E b)
    ∧ reencode_checked E OUT b = some (reencode E OUT b)
    ∧ (∀ buf : bytes_buffer_t, buf.has_codepoint E = true →
        extract_codepoint_assert E buf.m_byte_buf buf.m_current_byte_offset = true
        ∧ (∀ i ∈ extract_codepoint_reads E buf.m_byte_buf buf.m_current_byte_offset,
            i < buf.m_byte_buf.length)
        ∧ (buf.extract_codepoint E).2.m_current_byte_offset ≤ buf.m_byte_buf.length) := by
  refine ⟨?_, ?_, ?_⟩
  · simp only [to_utf32_checked, to_utf32_loop_checked_eq E _ (bytes_buffer_t.init b) [] rfl,
      to_utf32]
    split_ifs <;> rfl
  · simp only [reencode_checked, reencode_loop_checked_eq E OUT _ (bytes_buffer_t.init b) [] rfl,
      reencode, append_codepoint_assert_ok, if_true]
    split_ifs <;> rfl
  · intro buf hc
    have k := extract_codepoint_checks_ok E buf hc
    exact ⟨k.1, k.2.1, k.2.2.1⟩

/-- Witness of C23: the UTF-8 cursor at the last byte E2 of 41 E2, a lead byte with its
continuation bytes missing, reads index 1 only. -/
theorem C23_no_assertion_failure_witness :
    (bytes_buffer_t.mk [0x41, 0xE2] 1).has_codepoint Enc.UTF8 = true
    ∧ extract_codepoint_reads Enc.UTF8 [0x41, 0xE2] 1 = [1]
    ∧ (∀ i ∈ extract_codepoint_reads Enc.UTF8 [0x41, 0xE2] 1, i < [0x41, 0xE2].length)
    ∧ ((bytes_buffer_t.mk [0x41, 0xE2] 1).extract_codepoint Enc.UTF8).2.m_current_byte_offset
        ≤ [0x41, 0xE2].length :=
  ⟨by decide, by decide,
    ((C23_no_assertion_failure Enc.UTF8 Enc.UTF8 [0x41, 0xE2]).2.2
      ⟨[0x41, 0xE2], 1⟩ (by decide)).2.1,
    ((C23_no_assertion_failure Enc.UTF8 Enc.UTF8 [0x41, 0xE2]).2.2
      ⟨[0x41, 0xE2], 1⟩ (by decide)).2.2⟩

/-! ## Claim C22 : the reserved capacity -/

/-- Helper: the number of code points of `to_utf32`, against the number of units. -/
theorem to_utf32_length_le (E : Enc) (b : List Nat) :
    (to_utf32 E b).length ≤ (b.length + unit_width E - 1) / unit_width E := by
  obtain ⟨c1, c2, c3, c4, c5, c6⟩ := to_utf32_loop_count E b
  rw [to_utf32_eq_loop E b]
  cases E <;> simp only [unit_width] at c3 c4 c5 c6 ⊢ <;> split_ifs <;>
    (try simp only [List.length_append, List.length_cons, List.length_nil]) <;> omega

/-- Helper: every code point is encoded on at most 4 bytes. -/
theorem encode_as_length_le (B : Enc) (s : List Nat) :
    (encode_as B s).length ≤ 4 * s.length := by
  induction s with
  | nil => simp [encode_as]
  | cons c s ih =>
    rw [encode_as_cons, List.length_append, List.length_cons]
    have h := append_codepoint_length B c []
    simp only [List.length_nil, Nat.zero_add] at h
    rw [h]
    cases B <;> dsimp only <;> first | omega | (split_ifs <;> omega)

/-- Helper: a bound on the output of `reencode` from a bound on each turn of its loop.  If
every extraction writes at most `k` bytes per byte it consumes and the input holds whole
units only, the output has at most `k * |b|` bytes. -/
theorem reencode_length_bound (A B : Enc) (k : Nat) (b : List Nat)
    (hstep : ∀ buf : bytes_buffer_t, buf.m_byte_buf = b → buf.has_codepoint A = true →
      (append_codepoint B (buf.extract_codepoint A).1 []).length + k * buf.m_current_byte_offset
        ≤ k * (buf.extract_codepoint A).2.m_current_byte_offset)
    (hfull : b.length % unit_width A = 0) :
    (reencode A B b).length ≤ k * b.length := by
  obtain ⟨c1, c2, c3, c4, c5, c6⟩ := to_utf32_loop_count A b
  have key := to_utf32_loop_invariant A
    (fun buf acc => buf.m_byte_buf = b
      ∧ (encode_as B acc).length ≤ k * buf.m_current_byte_offset)
    (by
      intro buf acc hc hP
      obtain ⟨p1, p2⟩ := hP
      have a1 := (extract_codepoint_advance A buf hc).1
      have hs := hstep buf p1 hc
      refine ⟨by rw [a1, p1], ?_⟩
      have e : encode_as B [(buf.extract_codepoint A).1]
          = append_codepoint B (buf.extract_codepoint A).1 [] := rfl
      rw [encode_as_append, List.length_append, e]
      omega)
    _ (bytes_buffer_t.init b) [] rfl
    (by
      refine ⟨rfl, ?_⟩
      simp [bytes_buffer_t.init, encode_as])
  obtain ⟨⟨_, p2⟩, _⟩ := key
  have hoff : (to_utf32_loop A (bytes_buffer_t.init b) []).1.m_current_byte_offset = b.length := by
    cases A <;> simp only [unit_width] at c3 c6 hfull <;> omega
  rw [reencode_eq_encode_as_to_utf32, to_utf32_eq_loop, hoff, if_neg (lt_irrefl _)]
  rw [hoff] at p2
  exact p2

/-- Helper: when the UTF-8 decoder consumes a single byte of a buffer of bytes, the code
point is below 0x10000. -/
theorem extract_UTF8_small (bytes : List Nat) (pos : Nat) (hb : ∀ x ∈ bytes, x < 256) :
    (extract_codepoint_UTF8 bytes pos).2 = pos + 1 ∧ (extract_codepoint_UTF8 bytes pos).1 < 0x10000
    ∨ pos + 2 ≤ (extract_codepoint_UTF8 bytes pos).2 := by
  have l0 := byte_at_lt bytes hb pos
  unfold extract_codepoint_UTF8
  split_ifs <;> dsimp only [codepoint.invalid] <;> omega

/-- Helper: when the UTF-16 decoder consumes a single unit, the code point is below
0x10000; otherwise it consumes two units. -/
theorem extract_utf16_small (LE : Bool) (bytes : List Nat) (pos : Nat) :
    (extract_next_codepoint_from_utf16 LE bytes pos).2 = pos + 2
      ∧ (extract_next_codepoint_from_utf16 LE bytes pos).1 < 0x10000
    ∨ (extract_next_codepoint_from_utf16 LE bytes pos).2 = pos + 4 := by
  have l0 := get_code_unit_lt LE bytes pos
  unfold extract_next_codepoint_from_utf16
  dsimp only
  split_ifs <;> dsimp only [codepoint.invalid] <;> omega

/-- Helper: the output of `reencode` from UTF-8 to UTF-16 or UTF-32 fits the reserved
capacity. -/
theorem reencode_le_reserve_utf8 (B : Enc) (hB : B ≠ Enc.UTF8) (b : List Nat)
    (hb : ∀ x ∈ b, x < 256) :
    (reencode Enc.UTF8 B b).length ≤ reencode_reserve Enc.UTF8 B b := by
  have hfull : b.length % unit_width Enc.UTF8 = 0 := Nat.mod_one _
  cases B
  · exact absurd rfl hB
  all_goals
    simp only [reencode_reserve, true_and, false_and, or_true, true_or, or_false, false_or,
      if_true, if_false, reduceCtorEq]
    refine reencode_length_bound Enc.UTF8 _ _ b ?_ hfull
    intro buf hbuf hc
    rw [append_codepoint_length]
    simp only [List.length_nil, Nat.zero_add]
    have hs := extract_UTF8_small buf.m_byte_buf buf.m_current_byte_offset (by rw [hbuf]; exact hb)
    simp only [bytes_buffer_t.extract_codepoint, extract_codepoint] at hs ⊢
    first
      | omega
      | (split_ifs <;> omega)

/-- Helper: the output of `reencode` from UTF-16 to UTF-16 or UTF-32 fits the reserved
capacity when the input has an even number of bytes. -/
theorem reencode_le_reserve_utf16 (LE : Bool) (B : Enc) (hB : B ≠ Enc.UTF8) (b : List Nat)
    (heven : b.length % 2 = 0) :
    (reencode (if LE then Enc.UTF16LE else Enc.UTF16BE) B b).length
      ≤ reencode_reserve (if LE then Enc.UTF16LE else Enc.UTF16BE) B b := by
  cases LE <;> cases B
  · exact absurd rfl hB
  on_goal 5 => exact absurd rfl hB
  all_goals
    simp only [reencode_reserve, true_and, false_and, or_true, true_or, or_false, false_or,
      if_true, if_false, reduceCtorEq, Bool.false_eq_true]
    first
      | refine reencode_length_bound _ _ 2 b ?_ (by simpa [unit_width] using heven)
      | (rw [← Nat.one_mul b.length]
         refine reencode_length_bound _ _ 1 b ?_ (by simpa [unit_width] using heven))
    intro buf hbuf hc
    rw [append_codepoint_length]
    simp only [List.length_nil, Nat.zero_add]
    first
      | (have hs := extract_utf16_small true buf.m_byte_buf buf.m_current_byte_offset
         simp only [bytes_buffer_t.extract_codepoint, extract_codepoint] at hs ⊢
         first
           | omega
           | (split_ifs <;> omega))
      | (have hs := extract_utf16_small false buf.m_byte_buf buf.m_current_byte_offset
         simp only [bytes_buffer_t.extract_codepoint, extract_codepoint] at hs ⊢
         first
           | omega
           | (split_ifs <;> omega))

/-- Helper: the output of `reencode` from UTF-32 fits the reserved capacity when the length
of the input is a multiple of 4. -/
theorem reencode_le_reserve_utf32 (LE : Bool) (B : Enc) (b : List Nat)
    (hquad : b.length % 4 = 0) :
    (reencode (if LE then Enc.UTF32LE else Enc.UTF32BE) B b).length
      ≤ reencode_reserve (if LE then Enc.UTF32LE else Enc.UTF32BE) B b := by
  cases LE <;> cases B
  all_goals
    simp only [reencode_reserve, true_and, false_and, or_true, true_or, or_false, false_or,
      if_true, if_false, reduceCtorEq, Bool.false_eq_true]
    rw [← Nat.one_mul b.length]
    refine reencode_length_bound _ _ 1 b ?_ (by simpa [unit_width] using hquad)
    intro buf hbuf hc
    rw [append_codepoint_length]
    simp only [List.length_nil, Nat.zero_add]
    simp only [bytes_buffer_t.extract_codepoint, extract_codepoint, extract_codepoint_UTF32LE,
      extract_codepoint_UTF32BE]
    first
      | omega
      | (split_ifs <;> omega)

/-- Helper: the loop of `to_utf32<UTF16LE>` on the single byte 41 makes no turn. -/
theorem to_utf32_UTF16LE_41 : to_utf32 Enc.UTF16LE [0x41] = [0xFFFD] := by
  simp only [to_utf32, to_utf32_loop_stop Enc.UTF16LE (bytes_buffer_t.init [0x41]) []
    (by decide)]
  decide

/-- Helper: the loop of `to_utf32<UTF8>` on the single byte 80 makes one turn. -/
theorem to_utf32_UTF8_80 : to_utf32 Enc.UTF8 [0x80] = [0xFFFD] := by
  have s1 : (bytes_buffer_t.init [0x80]).extract_codepoint Enc.UTF8
      = (0xFFFD, ⟨[0x80], 1⟩) := by decide
  have h : to_utf32_loop Enc.UTF8 (bytes_buffer_t.init [0x80]) [] = (⟨[0x80], 1⟩, [0xFFFD]) := by
    rw [to_utf32_loop_step _ _ _ (by decide), s1, to_utf32_loop_stop _ _ _ (by decide)]
    rfl
  simp only [to_utf32, h]
  decide

/-- Helper: the loop of `to_utf32<UTF16LE>` on 00 08 makes one turn. -/
theorem to_utf32_UTF16LE_00_08 : to_utf32 Enc.UTF16LE [0x00, 0x08] = [0x0800] := by
  have s1 : (bytes_buffer_t.init [0x00, 0x08]).extract_codepoint Enc.UTF16LE
      = (0x0800, ⟨[0x00, 0x08], 2⟩) := by decide
  have h : to_utf32_loop Enc.UTF16LE (bytes_buffer_t.init [0x00, 0x08]) []
      = (⟨[0x00, 0x08], 2⟩, [0x0800]) := by
    rw [to_utf32_loop_step _ _ _ (by decide), s1, to_utf32_loop_stop _ _ _ (by decide)]
    rfl
  simp only [to_utf32, h]
  decide

/-- C22, as stated, fails: the reserved capacity is exceeded by the single byte 41 read as
UTF-16LE and written as UTF-32LE (4 bytes against 2 reserved), by the single byte 80 read
and written as UTF-8 (3 bytes against 1), and by the well-formed UTF-16LE unit 00 08
(U+0800) written as UTF-8 (3 bytes against 2). -/
theorem C22_reserved_capacity_counterexample :
    reencode Enc.UTF16LE Enc.UTF32LE [0x41] = [0xFD, 0xFF, 0x00, 0x00]
    ∧ reencode_reserve Enc.UTF16LE Enc.UTF32LE [0x41] = 2
    ∧ ¬ ((reencode Enc.UTF16LE Enc.UTF32LE [0x41]).length
          ≤ reencode_reserve Enc.UTF16LE Enc.UTF32LE [0x41])
    ∧ reencode Enc.UTF8 Enc.UTF8 [0x80] = [0xEF, 0xBF, 0xBD]
    ∧ reencode_reserve Enc.UTF8 Enc.UTF8 [0x80] = 1
    ∧ ¬ ((reencode Enc.UTF8 Enc.UTF8 [0x80]).length ≤ reencode_reserve Enc.UTF8 Enc.UTF8 [0x80])
    ∧ reencode Enc.UTF16LE Enc.UTF8 [0x00, 0x08] = [0xE0, 0xA0, 0x80]
    ∧ reencode_reserve Enc.UTF16LE Enc.UTF8 [0x00, 0x08] = 2
    ∧ ¬ ((reencode Enc.UTF16LE Enc.UTF8 [0x00, 0x08]).length
          ≤ reencode_reserve Enc.UTF16LE Enc.UTF8 [0x00, 0x08]) := by
  have e1 : reencode Enc.UTF16LE Enc.UTF32LE [0x41] = [0xFD, 0xFF, 0x00, 0x00] := by
    rw [reencode_eq_encode_as_to_utf32, to_utf32_UTF16LE_41]
    decide
  have e2 : reencode Enc.UTF8 Enc.UTF8 [0x80] = [0xEF, 0xBF, 0xBD] := by
    rw [reencode_eq_encode_as_to_utf32, to_utf32_UTF8_80]
    decide
  have e3 : reencode Enc.UTF16LE Enc.UTF8 [0x00, 0x08] = [0xE0, 0xA0, 0x80] := by
    rw [reencode_eq_encode_as_to_utf32, to_utf32_UTF16LE_00_08]
    decide
  refine ⟨e1, by decide, ?_, e2, by decide, ?_, e3, by decide, ?_⟩
  · rw [e1]; decide
  · rw [e2]; decide
  · rw [e3]; decide

/-- C22, amended: on a buffer of bytes, the capacity reserved by `reencode<A,B>` bounds the
length of the output for UTF-8 input written as UTF-16 or UTF-32 (`2*|b|` and `4*|b|`),
and, when the input holds whole units only (`|b|` a multiple of the unit width of `A`), for
UTF-16 input written as UTF-16 or UTF-32 and for UTF-32 input written in any encoding.  In
every case the output has at most 4 bytes per code point, hence at most
`4 * ceil(|b| / w)` bytes, `w` the unit width of `A`. -/
theorem C22_reserved_capacity (A B : Enc) (b : List Nat) (hb : ∀ x ∈ b, x < 256) :
    (A = Enc.UTF8 ∧ B ≠ Enc.UTF8 → (reencode A B b).length ≤ reencode_reserve A B b)
    ∧ ((A = Enc.UTF16LE ∨ A = Enc.UTF16BE) ∧ B ≠ Enc.UTF8 ∧ b.length % 2 = 0 →
        (reencode A B b).length ≤ reencode_reserve A B b)
    ∧ ((A = Enc.UTF32LE ∨ A = Enc.UTF32BE) ∧ b.length % 4 = 0 →
        (reencode A B b).length ≤ reencode_reserve A B b)
    ∧ (reencode A B b).length ≤ 4 * ((b.length + unit_width A - 1) / unit_width A) := by
  refine ⟨?_, ?_, ?_, ?_⟩
  · rintro ⟨hA, hB⟩
    subst hA
    exact reencode_le_reserve_utf8 B hB b hb
  · rintro ⟨hA, hB, h2⟩
    rcases hA with hA | hA <;> subst hA
    · exact reencode_le_reserve_utf16 true B hB b h2
    · exact reencode_le_reserve_utf16 false B hB b h2
  · rintro ⟨hA, h4⟩
    rcases hA with hA | hA <;> subst hA
    · exact reencode_le_reserve_utf32 true B b h4
    · exact reencode_le_reserve_utf32 false B b h4
  · rw [reencode_eq_encode_as_to_utf32]
    have h1 := encode_as_length_le B (to_utf32 A b)
    have h2 := to_utf32_length_le A b
    omega

/-- Witness of C22 (amended) on the UTF-8 bytes F0 9F 98 80 (U+1F600) written as UTF-16LE:
4 bytes out, 8 reserved. -/
theorem C22_reserved_capacity_witness :
    (∀ x ∈ [0xF0, 0x9F, 0x98, 0x80], x < 256)
    ∧ (Enc.UTF8 = Enc.UTF8 ∧ Enc.UTF16LE ≠ Enc.UTF8)
    ∧ reencode_reserve Enc.UTF8 Enc.UTF16LE [0xF0, 0x9F, 0x98, 0x80] = 8
    ∧ (reencode Enc.UTF8 Enc.UTF16LE [0xF0, 0x9F, 0x98, 0x80]).length
        ≤ reencode_reserve Enc.UTF8 Enc.UTF16LE [0xF0, 0x9F, 0x98, 0x80] :=
  ⟨by decide, by decide, by decide,
    (C22_reserved_capacity Enc.UTF8 Enc.UTF16LE [0xF0, 0x9F, 0x98, 0x80] (by decide)).1
      (by decide)⟩

/-! ## Claim C27 : truncated UTF-8 is reported per byte -/

/-- Helper: a continuation byte met at an index up to the length of `pre`, in `pre`
followed by a byte that is not a continuation byte, lies in `pre`. -/
theorem continuation_inside (pre t : List Nat) (x i : Nat) (hx : x &&& 0xC0 ≠ 0x80)
    (hi : i ≤ pre.length) (hc : byte_at (pre ++ x :: t) i &&& 0xC0 = 0x80) :
    i < pre.length ∧ byte_at (pre ++ x :: t) i = byte_at pre i := by
  by_cases h : i < pre.length
  · exact ⟨h, byte_at_append_left pre (x :: t) i h⟩
  · have e : i = pre.length + 0 := by omega
    have b : byte_at (pre ++ x :: t) (pre.length + 0) = x := byte_at_after pre (x :: t) 0
    rw [e, b] at hc
    exact absurd hc hx

/-- Helper: the UTF-8 decoder inside `pre` does not see what follows `pre` when that starts
with a byte that is not a continuation byte. -/
theorem extract_UTF8_prefix (pre t : List Nat) (x pos : Nat) (hx : x &&& 0xC0 ≠ 0x80)
    (hpos : pos < pre.length) :
    extract_codepoint_UTF8 (pre ++ x :: t) pos = extract_codepoint_UTF8 pre pos := by
  have b0 : byte_at (pre ++ x :: t) pos = byte_at pre pos :=
    byte_at_append_left pre (x :: t) pos hpos
  have hl : (pre ++ x :: t).length = pre.length + (t.length + 1) := by simp
  have k1 := continuation_inside pre t x (pos + 1) hx (by omega)
  have k2 := continuation_inside pre t x (pos + 2) hx
  have k3 := continuation_inside pre t x (pos + 3) hx
  have e1 : ∀ h : pos + 1 < pre.length, byte_at (pre ++ x :: t) (pos + 1) = byte_at pre (pos + 1) :=
    fun h => byte_at_append_left pre (x :: t) (pos + 1) h
  have e2 : ∀ h : pos + 2 < pre.length, byte_at (pre ++ x :: t) (pos + 2) = byte_at pre (pos + 2) :=
    fun h => byte_at_append_left pre (x :: t) (pos + 2) h
  have e3 : ∀ h : pos + 3 < pre.length, byte_at (pre ++ x :: t) (pos + 3) = byte_at pre (pos + 3) :=
    fun h => byte_at_append_left pre (x :: t) (pos + 3) h
  have c2 : ((pos + 1) < (pre ++ x :: t).length ∧ (byte_at pre pos) &&& 0xE0 = 0xC0
        ∧ (byte_at (pre ++ x :: t) (pos + 1)) &&& 0xC0 = 0x80)
      ↔ ((pos + 1) < pre.length ∧ (byte_at pre pos) &&& 0xE0 = 0xC0
        ∧ (byte_at pre (pos + 1)) &&& 0xC0 = 0x80) := by
    constructor
    · rintro ⟨_, a2, a3⟩
      have q1 := k1 a3
      exact ⟨q1.1, a2, by rw [← q1.2]; exact a3⟩
    · rintro ⟨a1, a2, a3⟩
      exact ⟨by omega, a2, by rw [e1 a1]; exact a3⟩
  have c3 : ((pos + 2) < (pre ++ x :: t).length ∧ (byte_at pre pos) &&& 0xF0 = 0xE0
        ∧ (byte_at (pre ++ x :: t) (pos + 1)) &&& 0xC0 = 0x80
        ∧ (byte_at (pre ++ x :: t) (pos + 2)) &&& 0xC0 = 0x80)
      ↔ ((pos + 2) < pre.length ∧ (byte_at pre pos) &&& 0xF0 = 0xE0
        ∧ (byte_at pre (pos + 1)) &&& 0xC0 = 0x80
        ∧ (byte_at pre (pos + 2)) &&& 0xC0 = 0x80) := by
    constructor
    · rintro ⟨_, a2, a3, a4⟩
      have q1 := k1 a3
      have q2 := k2 (by omega) a4
      exact ⟨q2.1, a2, by rw [← q1.2]; exact a3, by rw [← q2.2]; exact a4⟩
    · rintro ⟨a1, a2, a3, a4⟩
      exact ⟨by omega, a2, by rw [e1 (by omega)]; exact a3, by rw [e2 a1]; exact a4⟩
  have c4 : ((pos + 3) < (pre ++ x :: t).length ∧ (byte_at pre pos) &&& 0xF8 = 0xF0
        ∧ (byte_at (pre ++ x :: t) (pos + 1)) &&& 0xC0 = 0x80
        ∧ (byte_at (pre ++ x :: t) (pos + 2)) &&& 0xC0 = 0x80
        ∧ (byte_at (pre ++ x :: t) (pos + 3)) &&& 0xC0 = 0x80)
      ↔ ((pos + 3) < pre.length ∧ (byte_at pre pos) &&& 0xF8 = 0xF0
        ∧ (byte_at pre (pos + 1)) &&& 0xC0 = 0x80
        ∧ (byte_at pre (pos + 2)) &&& 0xC0 = 0x80
        ∧ (byte_at pre (pos + 3)) &&& 0xC0 = 0x80) := by
    constructor
    · rintro ⟨_, a2, a3, a4, a5⟩
      have q1 := k1 a3
      have q2 := k2 (by omega) a4
      have q3 := k3 (by omega) a5
      exact ⟨q3.1, a2, by rw [← q1.2]; exact a3, by rw [← q2.2]; exact a4,
        by rw [← q3.2]; exact a5⟩
    · rintro ⟨a1, a2, a3, a4, a5⟩
      exact ⟨by omega, a2, by rw [e1 (by omega)]; exact a3, by rw [e2 (by omega)]; exact a4,
        by rw [e3 a1]; exact a5⟩
  unfold extract_codepoint_UTF8
  simp only [b0, c2, c3, c4]
  split_ifs with h1 h2 h3 h4
  · rfl
  · rw [e1 h2.1]
  · rw [e1 (by omega), e2 h3.1]
  · rw [e1 (by omega), e2 (by omega), e3 h4.1]
  · rfl

/-- Helper: the loop of `to_utf32<UTF8>` inside `pre` does not see what follows `pre` when
that starts with a byte that is not a continuation byte: it reaches the offset `|pre|` with
the code points of `pre`. -/
theorem to_utf32_loop_prefix (pre t : List Nat) (x : Nat) (hx : x &&& 0xC0 ≠ 0x80) (n : Nat) :
    ∀ (off : Nat) (acc : List Nat), pre.length - off = n → off ≤ pre.length →
      to_utf32_loop Enc.UTF8 ⟨pre ++ x :: t, off⟩ acc
        = to_utf32_loop Enc.UTF8 ⟨pre ++ x :: t, pre.length⟩
            (to_utf32_loop Enc.UTF8 ⟨pre, off⟩ acc).2 := by
  induction n using Nat.strong_induction_on with
  | _ n ih =>
    intro off acc hn hoff
    by_cases h : off < pre.length
    · have hc1 : bytes_buffer_t.has_codepoint Enc.UTF8 ⟨pre ++ x :: t, off⟩ = true := by
        simp [bytes_buffer_t.has_codepoint]
        omega
      have hc2 : bytes_buffer_t.has_codepoint Enc.UTF8 ⟨pre, off⟩ = true := by
        simp [bytes_buffer_t.has_codepoint]
        omega
      have he := extract_UTF8_prefix pre t x off hx h
      have ha := extract_UTF8_advance pre off h
      rw [to_utf32_loop_step _ _ _ hc1, to_utf32_loop_step _ _ _ hc2]
      simp only [bytes_buffer_t.extract_codepoint, extract_codepoint, he]
      exact ih _ (by omega) _ _ rfl ha.2
    · have e : off = pre.length := by omega
      have hc2 : bytes_buffer_t.has_codepoint Enc.UTF8 ⟨pre, off⟩ = false := by
        simp [bytes_buffer_t.has_codepoint]
        omega
      rw [to_utf32_loop_stop _ _ _ hc2, e]

/-- Helper: in a buffer made of a lead byte followed by fewer continuation bytes than it
announces, the UTF-8 decoder yields U+FFFD and advances by 1 at every position. -/
theorem extract_UTF8_truncated_tail (lead : Nat) (conts : List Nat) (j : Nat)
    (hlead : 0xC0 ≤ lead ∧ lead < 0xF8)
    (hconts : ∀ c ∈ conts, 0x80 ≤ c ∧ c < 0xC0)
    (hk : conts.length + 1 < (if lead < 0xE0 then 2 else if lead < 0xF0 then 3 else 4))
    (hj : j < (lead :: conts).length) :
    extract_codepoint_UTF8 (lead :: conts) j = (codepoint.invalid, j + 1) := by
  have hB : (j = 0 ∧ byte_at (lead :: conts) j = lead)
      ∨ (0x80 ≤ byte_at (lead :: conts) j ∧ byte_at (lead :: conts) j < 0xC0) := by
    cases j with
    | zero => exact Or.inl ⟨rfl, rfl⟩
    | succ i =>
      right
      have hi : i < conts.length := by simpa using hj
      have e : byte_at (lead :: conts) (i + 1) = conts[i] := by
        simp only [byte_at, List.getD_cons_succ]
        exact List.getD_eq_getElem _ _ hi
      rw [e]
      exact hconts _ (List.getElem_mem hi)
  have hlen : (lead :: conts).length = conts.length + 1 := by simp
  unfold extract_codepoint_UTF8
  simp only [and_0x80, and_0xC0, and_0xE0, and_0xF0, and_0xF8, hlen]
  have n1 : ¬ (byte_at (lead :: conts) j % 256 / 128 * 128 = 0) := by omega
  have n2 : ¬ (j + 1 < conts.length + 1 ∧ byte_at (lead :: conts) j % 256 / 32 * 32 = 192
      ∧ byte_at (lead :: conts) (j + 1) % 256 / 64 * 64 = 128) := by
    split_ifs at hk <;> omega
  have n3 : ¬ (j + 2 < conts.length + 1 ∧ byte_at (lead :: conts) j % 256 / 16 * 16 = 224
      ∧ byte_at (lead :: conts) (j + 1) % 256 / 64 * 64 = 128
      ∧ byte_at (lead :: conts) (j + 2) % 256 / 64 * 64 = 128) := by
    split_ifs at hk <;> omega
  have n4 : ¬ (j + 3 < conts.length + 1 ∧ byte_at (lead :: conts) j % 256 / 8 * 8 = 240
      ∧ byte_at (lead :: conts) (j + 1) % 256 / 64 * 64 = 128
      ∧ byte_at (lead :: conts) (j + 2) % 256 / 64 * 64 = 128
      ∧ byte_at (lead :: conts) (j + 3) % 256 / 64 * 64 = 128) := by
    split_ifs at hk <;> omega
  simp only [if_neg n1, if_neg n2, if_neg n3, if_neg n4]

/-- Helper: the loop of `to_utf32<UTF8>` on a lead byte followed by fewer continuation bytes
than it announces yields one U+FFFD per byte. -/
theorem to_utf32_loop_truncated_tail (lead : Nat) (conts : List Nat)
    (hlead : 0xC0 ≤ lead ∧ lead < 0xF8)
    (hconts : ∀ c ∈ conts, 0x80 ≤ c ∧ c < 0xC0)
    (hk : conts.length + 1 < (if lead < 0xE0 then 2 else if lead < 0xF0 then 3 else 4))
    (n : Nat) :
    ∀ (j : Nat) (acc : List Nat), (lead :: conts).length - j = n → j ≤ (lead :: conts).length →
      to_utf32_loop Enc.UTF8 ⟨lead :: conts, j⟩ acc
        = (⟨lead :: conts, (lead :: conts).length⟩,
            acc ++ List.replicate ((lead :: conts).length - j) codepoint.invalid) := by
  induction n using Nat.strong_induction_on with
  | _ n ih =>
    intro j acc hn hj
    by_cases h : j < (lead :: conts).length
    · have hc : bytes_buffer_t.has_codepoint Enc.UTF8 ⟨lead :: conts, j⟩ = true := by
        simp only [bytes_buffer_t.has_codepoint, reduceCtorEq, or_self, if_false,
          decide_eq_true_eq]
        exact h
      have he := extract_UTF8_truncated_tail lead conts j hlead hconts hk h
      rw [to_utf32_loop_step _ _ _ hc]
      simp only [bytes_buffer_t.extract_codepoint, extract_codepoint, he]
      rw [ih _ (by omega) (j + 1) _ rfl (by omega)]
      have e : (lead :: conts).length - j = ((lead :: conts).length - (j + 1)) + 1 := by omega
      rw [e, List.replicate_succ]
      simp [push_back]
    · have e : j = (lead :: conts).length := by omega
      have hc : bytes_buffer_t.has_codepoint Enc.UTF8 ⟨lead :: conts, j⟩ = false := by
        simp only [bytes_buffer_t.has_codepoint, reduceCtorEq, or_self, if_false,
          decide_eq_false_iff_not]
        exact h
      rw [to_utf32_loop_stop _ _ _ hc, e]
      simp

/-- Helper: the loop of `to_utf32<UTF8>` consumes all the bytes, so the branch for a
truncated code point after the loop is not taken, and `to_utf32<UTF8>` is the output of
the loop. -/
theorem to_utf32_UTF8_depleted (b : List Nat) :
    (to_utf32_loop Enc.UTF8 (bytes_buffer_t.init b) []).1 = ⟨b, b.length⟩
    ∧ (to_utf32_loop Enc.UTF8 (bytes_buffer_t.init b) []).1.has_bytes = false
    ∧ to_utf32 Enc.UTF8 b = (to_utf32_loop Enc.UTF8 (bytes_buffer_t.init b) []).2 := by
  obtain ⟨c1, c2, c3, _, _, _⟩ := to_utf32_loop_count Enc.UTF8 b
  simp only [unit_width] at c3
  have hoff : (to_utf32_loop Enc.UTF8 (bytes_buffer_t.init b) []).1.m_current_byte_offset
      = b.length := by omega
  have hst : (to_utf32_loop Enc.UTF8 (bytes_buffer_t.init b) []).1 = ⟨b, b.length⟩ := by
    cases hr : (to_utf32_loop Enc.UTF8 (bytes_buffer_t.init b) []).1 with
    | mk buf off =>
      rw [hr] at c1 hoff
      simp only at c1 hoff
      rw [c1, hoff]
  refine ⟨hst, ?_, ?_⟩
  · rw [hst]
    simp [bytes_buffer_t.has_bytes]
  · rw [to_utf32_eq_loop, hoff, if_neg (lt_irrefl _)]

/-- C27: truncated UTF-8 is reported per byte, never by the branch after the loop.  For
UTF-8 input the loop of `to_utf32` and of `reencode` consumes every byte, so the branch for
a truncated code point is never taken; and a buffer that ends with the lead byte of an
`n`-byte sequence (`n` in 2..4) followed by `k < n-1` continuation bytes decodes as the
buffer without those `k+1` bytes followed by exactly `k+1` replacement code points
U+FFFD. -/
theorem C27_utf8_truncation_per_byte (OUT : Enc) (pre conts : List Nat) (lead : Nat)
    (hlead : 0xC0 ≤ lead ∧ lead < 0xF8)
    (hconts : ∀ c ∈ conts, 0x80 ≤ c ∧ c < 0xC0)
    (hk : conts.length + 1 < (if lead < 0xE0 then 2 else if lead < 0xF0 then 3 else 4)) :
    (∀ b : List Nat,
        (to_utf32_loop Enc.UTF8 (bytes_buffer_t.init b) []).1.has_bytes = false
        ∧ (reencode_loop Enc.UTF8 OUT (bytes_buffer_t.init b) []).1.has_bytes = false)
    ∧ to_utf32 Enc.UTF8 (pre ++ lead :: conts)
        = to_utf32 Enc.UTF8 pre ++ List.replicate (conts.length + 1) codepoint.invalid
    ∧ reencode Enc.UTF8 OUT (pre ++ lead :: conts)
        = reencode Enc.UTF8 OUT pre
          ++ encode_as OUT (List.replicate (conts.length + 1) codepoint.invalid) := by
  have hx : lead &&& 0xC0 ≠ 0x80 := by
    rw [and_0xC0]
    omega
  have main : to_utf32 Enc.UTF8 (pre ++ lead :: conts)
      = to_utf32 Enc.UTF8 pre ++ List.replicate (conts.length + 1) codepoint.invalid := by
    have h1 := to_utf32_loop_prefix pre conts lead hx _ 0 [] rfl (Nat.zero_le _)
    have h2 := to_utf32_loop_shift Enc.UTF8 pre (lead :: conts) _ 0
      (to_utf32_loop Enc.UTF8 ⟨pre, 0⟩ []).2 rfl
    have h3 := to_utf32_loop_truncated_tail lead conts hlead hconts hk _ 0
      (to_utf32_loop Enc.UTF8 ⟨pre, 0⟩ []).2 rfl (Nat.zero_le _)
    rw [Nat.add_zero] at h2
    rw [h3] at h2
    rw [h2] at h1
    rw [(to_utf32_UTF8_depleted (pre ++ lead :: conts)).2.2,
      (to_utf32_UTF8_depleted pre).2.2]
    simp only [bytes_buffer_t.init]
    rw [h1]
    simp
  refine ⟨?_, main, ?_⟩
  · intro b
    have h := (to_utf32_UTF8_depleted b).2.1
    have e := reencode_loop_eq Enc.UTF8 OUT _ (bytes_buffer_t.init b) [] rfl
    have e0 : encode_as OUT [] = [] := rfl
    rw [e0] at e
    rw [e]
    exact ⟨h, h⟩
  · rw [reencode_eq_encode_as_to_utf32, main, encode_as_append, reencode_eq_encode_as_to_utf32]

/-- Witness of C27 on 41 E2 82: the lead byte E2 of a 3-byte sequence with one continuation
byte decodes, after U+0041, to two U+FFFD. -/
theorem C27_utf8_truncation_per_byte_witness :
    ((0xC0 ≤ 0xE2 ∧ 0xE2 < 0xF8)
      ∧ (∀ c ∈ [0x82], 0x80 ≤ c ∧ c < 0xC0)
      ∧ [0x82].length + 1 < (if 0xE2 < 0xE0 then 2 else if 0xE2 < 0xF0 then 3 else 4))
    ∧ to_utf32 Enc.UTF8 ([0x41] ++ 0xE2 :: [0x82])
        = to_utf32 Enc.UTF8 [0x41] ++ List.replicate ([0x82].length + 1) codepoint.invalid :=
  ⟨⟨by decide, by decide, by decide⟩,
    (C27_utf8_truncation_per_byte Enc.UTF8 [0x41] [0x82] 0xE2 (by decide) (by decide)
      (by decide)).2.1⟩

/-! ## Claim C29 : little- and big-endian variants -/

/-- Helper: swapping the bytes of the units keeps the length. -/
theorem swap_bytes_16_length : ∀ (n : Nat) (b : List Nat), b.length = n →
    (swap_bytes_16 b).length = b.length := by
  intro n
  induction n using Nat.strong_induction_on with
  | _ n ih =>
    intro b hn
    match b, hn with
    | [], _ => rfl
    | [_], _ => rfl
    | a :: c :: rest, hn =>
      simp only [swap_bytes_16, List.length_cons]
      rw [ih rest.length (by simp only [List.length_cons] at hn; omega) rest rfl]

/-- Helper: reversing the 4-byte groups keeps the length. -/
theorem reverse_bytes_32_length : ∀ (n : Nat) (b : List Nat), b.length = n →
    (reverse_bytes_32 b).length = b.length := by
  intro n
  induction n using Nat.strong_induction_on with
  | _ n ih =>
    intro b hn
    match b, hn with
    | [], _ => rfl
    | [_], _ => rfl
    | [_, _], _ => rfl
    | [_, _, _], _ => rfl
    | a :: c :: d :: e :: rest, hn =>
      simp only [reverse_bytes_32, List.length_cons]
      rw [ih rest.length (by simp only [List.length_cons] at hn; omega) rest rfl]

/-- Helper: the bytes of a buffer with swapped units, at the two indices of a full unit. -/
theorem byte_at_swap_bytes_16 : ∀ (j : Nat) (b : List Nat), 2 * j + 1 < b.length →
    byte_at (swap_bytes_16 b) (2 * j) = byte_at b (2 * j + 1)
    ∧ byte_at (swap_bytes_16 b) (2 * j + 1) = byte_at b (2 * j) := by
  intro j
  induction j with
  | zero =>
    intro b h
    match b, h with
    | a :: c :: rest, _ => exact ⟨rfl, rfl⟩
  | succ j ih =>
    intro b h
    match b, h with
    | a :: c :: rest, h =>
      have h2 : 2 * j + 1 < rest.length := by simp only [List.length_cons] at h; omega
      have e1 : 2 * (j + 1) = (2 * j) + 1 + 1 := by omega
      have e2 : 2 * (j + 1) + 1 = (2 * j + 1) + 1 + 1 := by omega
      have k := ih rest h2
      simp only [swap_bytes_16, byte_at, e1, e2, List.getD_cons_succ] at k ⊢
      exact k

/-- Helper: the bytes of a buffer with reversed 4-byte groups, at the four indices of a full
group. -/
theorem byte_at_reverse_bytes_32 : ∀ (j : Nat) (b : List Nat), 4 * j + 3 < b.length →
    byte_at (reverse_bytes_32 b) (4 * j) = byte_at b (4 * j + 3)
    ∧ byte_at (reverse_bytes_32 b) (4 * j + 1) = byte_at b (4 * j + 2)
    ∧ byte_at (reverse_bytes_32 b) (4 * j + 2) = byte_at b (4 * j + 1)
    ∧ byte_at (reverse_bytes_32 b) (4 * j + 3) = byte_at b (4 * j) := by
  intro j
  induction j with
  | zero =>
    intro b h
    match b, h with
    | a :: c :: d :: e :: rest, _ => exact ⟨rfl, rfl, rfl, rfl⟩
  | succ j ih =>
    intro b h
    match b, h with
    | a :: c :: d :: e :: rest, h =>
      have h2 : 4 * j + 3 < rest.length := by simp only [List.length_cons] at h; omega
      have e0 : 4 * (j + 1) = (4 * j) + 1 + 1 + 1 + 1 := by omega
      have e1 : 4 * (j + 1) + 1 = (4 * j + 1) + 1 + 1 + 1 + 1 := by omega
      have e2 : 4 * (j + 1) + 2 = (4 * j + 2) + 1 + 1 + 1 + 1 := by omega
      have e3 : 4 * (j + 1) + 3 = (4 * j + 3) + 1 + 1 + 1 + 1 := by omega
      have k := ih rest h2
      simp only [reverse_bytes_32, byte_at, e0, e1, e2, e3, List.getD_cons_succ] at k ⊢
      exact k

/-- Helper: a little-endian unit of a buffer is the big-endian unit of the buffer with
swapped units, at an even index with a full unit left. -/
theorem get_code_unit_swap (b : List Nat) (i : Nat) (hi : i % 2 = 0) (h : i + 1 < b.length) :
    get_code_unit false (swap_bytes_16 b) i = get_code_unit true b i := by
  obtain ⟨j, rfl⟩ : ∃ j, i = 2 * j := ⟨i / 2, by omega⟩
  have k := byte_at_swap_bytes_16 j b h
  simp only [get_code_unit, Bool.false_eq_true, if_false, if_true, k.1, k.2]

/-- Helper: the UTF-16LE decoder on a buffer is the UTF-16BE decoder on the buffer with
swapped units, at an even position with a full unit left. -/
theorem extract_utf16_swap (b : List Nat) (pos : Nat) (hp : pos % 2 = 0)
    (h : pos + 1 < b.length) :
    extract_next_codepoint_from_utf16 false (swap_bytes_16 b) pos
      = extract_next_codepoint_from_utf16 true b pos := by
  have hl := swap_bytes_16_length _ b rfl
  have u1 := get_code_unit_swap b pos hp h
  unfold extract_next_codepoint_from_utf16
  simp only [hl, u1]
  by_cases h3 : pos + 3 < b.length
  · have u2 := get_code_unit_swap b (pos + 2) (by omega) (by omega)
    simp only [u2]
  · split_ifs <;> first | (exfalso; omega) | rfl

/-- Helper: the UTF-32LE decoder on a buffer is the UTF-32BE decoder on the buffer with
reversed groups, at a position that is a multiple of 4 with a full unit left. -/
theorem extract_utf32_reverse (b : List Nat) (pos : Nat) (hp : pos % 4 = 0)
    (h : pos + 3 < b.length) :
    extract_codepoint_UTF32BE (reverse_bytes_32 b) pos = extract_codepoint_UTF32LE b pos := by
  obtain ⟨j, rfl⟩ : ∃ j, pos = 4 * j := ⟨pos / 4, by omega⟩
  have k := byte_at_reverse_bytes_32 j b h
  simp only [extract_codepoint_UTF32BE, extract_codepoint_UTF32LE, k.1, k.2.1, k.2.2.1, k.2.2.2]

/-- Helper: the loop of `to_utf32<UTF16LE>` on a buffer and the loop of `to_utf32<UTF16BE>`
on the buffer with swapped units make the same turns. -/
theorem to_utf32_loop_swap (b : List Nat) (n : Nat) :
    ∀ (off : Nat) (acc : List Nat), b.length - off = n → off % 2 = 0 →
      (to_utf32_loop Enc.UTF16BE ⟨swap_bytes_16 b, off⟩ acc).2
          = (to_utf32_loop Enc.UTF16LE ⟨b, off⟩ acc).2
      ∧ (to_utf32_loop Enc.UTF16BE ⟨swap_bytes_16 b, off⟩ acc).1.m_current_byte_offset
          = (to_utf32_loop Enc.UTF16LE ⟨b, off⟩ acc).1.m_current_byte_offset := by
  have hl := swap_bytes_16_length _ b rfl
  induction n using Nat.strong_induction_on with
  | _ n ih =>
    intro off acc hn hoff
    by_cases h : off + 1 < b.length
    · have hc1 : bytes_buffer_t.has_codepoint Enc.UTF16LE ⟨b, off⟩ = true := by
        simp [bytes_buffer_t.has_codepoint]
        omega
      have hc2 : bytes_buffer_t.has_codepoint Enc.UTF16BE ⟨swap_bytes_16 b, off⟩ = true := by
        simp [bytes_buffer_t.has_codepoint, hl]
        omega
      have he := extract_utf16_swap b off hoff h
      have ha := extract_utf16_advance true b off h
      rw [to_utf32_loop_step _ _ _ hc1, to_utf32_loop_step _ _ _ hc2]
      simp only [bytes_buffer_t.extract_codepoint, extract_codepoint, he]
      exact ih _ (by omega) _ _ rfl (by omega)
    · have hc1 : bytes_buffer_t.has_codepoint Enc.UTF16LE ⟨b, off⟩ = false := by
        simp [bytes_buffer_t.has_codepoint]
        omega
      have hc2 : bytes_buffer_t.has_codepoint Enc.UTF16BE ⟨swap_bytes_16 b, off⟩ = false := by
        simp [bytes_buffer_t.has_codepoint, hl]
        omega
      rw [to_utf32_loop_stop _ _ _ hc1, to_utf32_loop_stop _ _ _ hc2]
      exact ⟨rfl, rfl⟩

/-- Helper: the loop of `to_utf32<UTF32LE>` on a buffer and the loop of `to_utf32<UTF32BE>`
on the buffer with reversed groups make the same turns. -/
theorem to_utf32_loop_reverse (b : List Nat) (n : Nat) :
    ∀ (off : Nat) (acc : List Nat), b.length - off = n → off % 4 = 0 →
      (to_utf32_loop Enc.UTF32BE ⟨reverse_bytes_32 b, off⟩ acc).2
          = (to_utf32_loop Enc.UTF32LE ⟨b, off⟩ acc).2
      ∧ (to_utf32_loop Enc.UTF32BE ⟨reverse_bytes_32 b, off⟩ acc).1.m_current_byte_offset
          = (to_utf32_loop Enc.UTF32LE ⟨b, off⟩ acc).1.m_current_byte_offset := by
  have hl := reverse_bytes_32_length _ b rfl
  induction n using Nat.strong_induction_on with
  | _ n ih =>
    intro off acc hn hoff
    by_cases h : off + 3 < b.length
    · have hc1 : bytes_buffer_t.has_codepoint Enc.UTF32LE ⟨b, off⟩ = true := by
        simp [bytes_buffer_t.has_codepoint]
        omega
      have hc2 : bytes_buffer_t.has_codepoint Enc.UTF32BE ⟨reverse_bytes_32 b, off⟩ = true := by
        simp [bytes_buffer_t.has_codepoint, hl]
        omega
      have he := extract_utf32_reverse b off hoff h
      rw [to_utf32_loop_step _ _ _ hc1, to_utf32_loop_step _ _ _ hc2]
      simp only [bytes_buffer_t.extract_codepoint, extract_codepoint, he]
      have e : (extract_codepoint_UTF32LE b off).2 = off + 4 := rfl
      rw [e]
      exact ih _ (by omega) _ _ rfl (by omega)
    · have hc1 : bytes_buffer_t.has_codepoint Enc.UTF32LE ⟨b, off⟩ = false := by
        simp [bytes_buffer_t.has_codepoint]
        omega
      have hc2 : bytes_buffer_t.has_codepoint Enc.UTF32BE ⟨reverse_bytes_32 b, off⟩ = false := by
        simp [bytes_buffer_t.has_codepoint, hl]
        omega
      rw [to_utf32_loop_stop _ _ _ hc1, to_utf32_loop_stop _ _ _ hc2]
      exact ⟨rfl, rfl⟩

/-- Helper: the little-endian encodings of a sequence are the byte-swapped images of the
big-endian ones. -/
theorem encode_as_swap (s : List Nat) :
    encode_as Enc.UTF16LE s = swap_bytes_16 (encode_as Enc.UTF16BE s)
    ∧ encode_as Enc.UTF32LE s = reverse_bytes_32 (encode_as Enc.UTF32BE s) := by
  induction s with
  | nil => exact ⟨rfl, rfl⟩
  | cons c s ih =>
    have a1 : append_codepoint Enc.UTF16LE c [] = _ := (append_codepoint_UTF16_eq c []).1
    have a2 : append_codepoint Enc.UTF16BE c [] = _ := (append_codepoint_UTF16_eq c []).2
    have a3 : append_codepoint Enc.UTF32LE c [] = _ := (append_codepoint_UTF32_eq c []).1
    have a4 : append_codepoint Enc.UTF32BE c [] = _ := (append_codepoint_UTF32_eq c []).2
    constructor
    · rw [encode_as_cons, encode_as_cons, ih.1, a1, a2]
      split_ifs <;> simp only [List.cons_append, List.nil_append, swap_bytes_16] <;> rfl
    · rw [encode_as_cons, encode_as_cons, ih.2, a3, a4]
      simp only [List.cons_append, List.nil_append, reverse_bytes_32]
      rfl

/-- C29: the little- and big-endian variants are byte-swapped images of each other.  For
every sequence `s` of code points, `encode_as<UTF16LE>(s)` is `encode_as<UTF16BE>(s)` with
the two bytes of every 16-bit unit swapped and `encode_as<UTF32LE>(s)` is
`encode_as<UTF32BE>(s)` with every 4-byte group reversed; and for every buffer `b` (of even
length, resp. of a length multiple of 4, and also with a truncated last unit, which is left
in place), `to_utf32<UTF16LE>(b) == to_utf32<UTF16BE>(b with each byte pair swapped)` and
`to_utf32<UTF32LE>(b) == to_utf32<UTF32BE>(b with each 4-byte group reversed)`. -/
theorem C29_endianness_swap (s b : List Nat) :
    encode_as Enc.UTF16LE s = swap_bytes_16 (encode_as Enc.UTF16BE s)
    ∧ encode_as Enc.UTF32LE s = reverse_bytes_32 (encode_as Enc.UTF32BE s)
    ∧ to_utf32 Enc.UTF16LE b = to_utf32 Enc.UTF16BE (swap_bytes_16 b)
    ∧ to_utf32 Enc.UTF32LE b = to_utf32 Enc.UTF32BE (reverse_bytes_32 b)
    ∧ swap_bytes_16 [0x3D, 0xD8, 0x00, 0xDE] = [0xD8, 0x3D, 0xDE, 0x00]
    ∧ reverse_bytes_32 [0x00, 0xF6, 0x01, 0x00] = [0x00, 0x01, 0xF6, 0x00] := by
  refine ⟨(encode_as_swap s).1, (encode_as_swap s).2, ?_, ?_, rfl, rfl⟩
  · have k := to_utf32_loop_swap b _ 0 [] rfl rfl
    have hl := swap_bytes_16_length _ b rfl
    rw [to_utf32_eq_loop, to_utf32_eq_loop]
    simp only [bytes_buffer_t.init, k.1, k.2, hl]
  · have k := to_utf32_loop_reverse b _ 0 [] rfl rfl
    have hl := reverse_bytes_32_length _ b rfl
    rw [to_utf32_eq_loop, to_utf32_eq_loop]
    simp only [bytes_buffer_t.init, k.1, k.2, hl]

end utxt
